import Mathlib

/-!
# HRML parser: tokenizer, tree builder and query resolver

A shallow embedding of `src/hrml_parser/main.cpp` and the properties of it
that the specification states.

Conventions of the embedding.

* `std::string` is a list of characters (`Str`); `s += c` appends at the end.
* `std::vector` is a list; `push_back` appends at the end.
* `std::map<string, string>` is an association list with pairwise distinct
  keys: `m[k] = v` overwrites the entry of `k` in place or appends a new one,
  `m.find(k)` is a lookup.  The iteration order of the map is only used by the
  debugging printer and is not modelled.
* A read that the C++ standard leaves undefined (indexing past the end of a
  vector, popping an empty stack), a signed overflow and an uncaught exception
  make the embedded function return `none`.
* `int` has 32 bits and `size_t` has 64 bits: the index `attrLoc` and the loop
  counter `idx` of `query_hrml` are reduced to the range of `int`.
-/

namespace Hrml

/-- A `std::string`, as the list of its characters. -/
abbrev Str := List Char

/-! ## Character classes (`<ctype.h>`, "C" locale)

The classes hold ASCII characters only: a character outside ASCII is in none
of them. -/

/-- The `isalpha` of the "C" locale: the 52 ASCII letters. -/
def isalpha (c : Char) : Bool :=
  (65 ≤ c.toNat && c.toNat ≤ 90) || (97 ≤ c.toNat && c.toNat ≤ 122)

/-- The `isdigit` of the "C" locale. -/
def isdigit (c : Char) : Bool :=
  48 ≤ c.toNat && c.toNat ≤ 57

/-- The `isalnum` of the "C" locale: `isalpha` or `isdigit`. -/
def isalnum (c : Char) : Bool :=
  isalpha c || isdigit c

/-- The `isspace` of the "C" locale: space, `\t`, `\n`, `\v`, `\f` and `\r`
(codes 32 and 9 to 13). -/
def isspace (c : Char) : Bool :=
  c.toNat = 32 || (9 ≤ c.toNat && c.toNat ≤ 13)

/-- Source, line 44:
`bool isValidNameChar (char c) { return isalnum(c) || c == '-' || c == '_'; }` -/
def isValidNameChar (c : Char) : Bool :=
  isalnum c || c = '-' || c = '_'

/-! ## Tokens -/

/-- The `enum TOKENS` of the source (lines 21-33). -/
inductive TOKENS where
  | OPEN_TAG
  | CLOSE_TAG
  | END_TAG_SYMBOL
  | TAG_NAME
  | ATTR_NAME
  | ATTR_VAL
  | NONE
  | LQUOTE
  | RQUOTE
  deriving DecidableEq, Repr

/-- The `struct TokenValuePair` of the source (lines 35-38). -/
structure TokenValuePair where
  token : TOKENS
  value : Str
  deriving DecidableEq, Repr

/-! ## Tokenizer (source lines 46-134) -/

/-- The two local variables of `tokenize_hrml_string`: the vector `tokens`
emitted so far and the token `next` under construction. -/
structure TokState where
  tokens : List TokenValuePair
  next : TokenValuePair
  deriving DecidableEq, Repr

/-- The state before the first character: `tokens` empty, `next = { NONE, "" }`. -/
def TokState.init : TokState := ⟨[], ⟨.NONE, []⟩⟩

/-- The body of the `case ATTR_VAL` block (lines 101-125), once `lastToken`
has been read. -/
def attr_val_step (st : TokState) (lastToken : TOKENS) (c : Char) : TokState :=
  if c = '"' then
    if lastToken = .ATTR_NAME then
      { st with tokens := st.tokens ++ [⟨.LQUOTE, []⟩] }
    else
      { st with tokens := st.tokens ++ [st.next] ++ [⟨.RQUOTE, []⟩] }
  else if lastToken = .RQUOTE ∧ c = '>' then
    ⟨st.tokens ++ [⟨.CLOSE_TAG, []⟩], ⟨.NONE, []⟩⟩
  else if lastToken = .RQUOTE ∧ isalpha c then
    { st with next := ⟨.ATTR_NAME, [c]⟩ }
  else if lastToken = .ATTR_NAME ∧ isspace c then
    st
  else
    { st with next := { st.next with value := st.next.value ++ [c] } }

/-- One iteration of the `for (char c : line)` loop: the `switch (next.token)`.
In state `ATTR_VAL` the source reads `tokens[tokens.size() - 1]`; on an empty
vector that read is undefined and the step is `none`. -/
def tokenize_step (st : TokState) (c : Char) : Option TokState :=
  match st.next.token with
  | .NONE =>
    if c = '<' then
      some ⟨st.tokens ++ [⟨.OPEN_TAG, []⟩], ⟨.OPEN_TAG, []⟩⟩
    else some st
  | .OPEN_TAG =>
    if isalpha c then
      some { st with next := ⟨.TAG_NAME, [c]⟩ }
    else if c = '/' then
      some { st with next := ⟨.END_TAG_SYMBOL, []⟩ }
    else some st
  | .END_TAG_SYMBOL =>
    if isValidNameChar c then
      some { st with next := { st.next with value := st.next.value ++ [c] } }
    else if c = '>' then
      some ⟨st.tokens ++ [st.next] ++ [⟨.CLOSE_TAG, []⟩], ⟨.NONE, []⟩⟩
    else some st
  | .TAG_NAME =>
    if isValidNameChar c then
      some { st with next := { st.next with value := st.next.value ++ [c] } }
    else if isspace c then
      some ⟨st.tokens ++ [st.next], ⟨.ATTR_NAME, []⟩⟩
    else if c = '>' then
      some ⟨st.tokens ++ [st.next] ++ [⟨.CLOSE_TAG, []⟩], ⟨.NONE, []⟩⟩
    else some st
  | .ATTR_NAME =>
    if isValidNameChar c then
      some { st with next := { st.next with value := st.next.value ++ [c] } }
    else if c = '=' then
      some ⟨st.tokens ++ [st.next], ⟨.ATTR_VAL, []⟩⟩
    else if c = '>' then
      some ⟨st.tokens ++ [⟨.CLOSE_TAG, []⟩], ⟨.NONE, []⟩⟩
    else some st
  | .ATTR_VAL =>
    match st.tokens.getLast? with
    | none => none
    | some last => some (attr_val_step st last.token c)
  | _ => some st

/-- The `for (char c : line)` loop from a given state. -/
def tokenize_loop : TokState → List Char → Option TokState
  | st, [] => some st
  | st, c :: cs =>
    match tokenize_step st c with
    | none => none
    | some st' => tokenize_loop st' cs

/-- The function `tokenize_hrml_string` (lines 46-134): run the loop from the
initial state and return `tokens`. -/
def tokenize_hrml_string (line : Str) : Option (List TokenValuePair) :=
  (tokenize_loop TokState.init line).map TokState.tokens

/-! ## Elements (source lines 136-141) -/

/-- A `std::map<string, string>`: an association list with distinct keys. -/
abbrev AttrMap := List (Str × Str)

/-- The assignment `m[k] = v`: overwrite the entry of `k`, or add one. -/
def AttrMap.assign : AttrMap → Str → Str → AttrMap
  | [], k, v => [(k, v)]
  | (k', v') :: rest, k, v =>
    if k' = k then (k, v) :: rest else (k', v') :: AttrMap.assign rest k v

/-- The lookup `m.find(k)`: the value mapped to `k`, `none` for `m.end()`. -/
def AttrMap.find : AttrMap → Str → Option Str
  | [], _ => none
  | (k', v') :: rest, k => if k' = k then some v' else AttrMap.find rest k

/-- The `struct HrmlElement` of the source.  The C++ `children` vector holds
pointers to elements that are owned by exactly one parent (every element is
allocated once in `parse_hrml_tokens` and attached once), so the pointers are
replaced by the elements themselves. -/
structure HrmlElement where
  tagName : Str
  innerText : Str
  attributes : AttrMap
  children : List HrmlElement
  deriving Repr

/-- The value-initialised element `HrmlElement currentElement = { }`. -/
def HrmlElement.empty : HrmlElement := ⟨[], [], [], []⟩

/-! ## Tree builder (source lines 156-217) -/

/-- The locals of the first loop of `parse_hrml_tokens`. -/
structure FlatState where
  currentElement : HrmlElement
  currentAttribute : Str
  nonTreedElements : List HrmlElement

/-- The state before the first token. -/
def FlatState.init : FlatState := ⟨HrmlElement.empty, [], []⟩

/-- One iteration of `for (TokenValuePair tok : tokens)` (lines 162-194). -/
def flatten_step (s : FlatState) (tok : TokenValuePair) : FlatState :=
  match tok.token with
  | .OPEN_TAG => s
  | .END_TAG_SYMBOL =>
    { s with currentElement := { s.currentElement with tagName := '/' :: tok.value } }
  | .TAG_NAME =>
    { s with currentElement := { s.currentElement with tagName := tok.value } }
  | .ATTR_NAME => { s with currentAttribute := tok.value }
  | .LQUOTE => s
  | .ATTR_VAL =>
    { s with
      currentElement :=
        { s.currentElement with
          attributes := s.currentElement.attributes.assign s.currentAttribute tok.value }
      currentAttribute := [] }
  | .RQUOTE => s
  | .CLOSE_TAG =>
    { s with
      nonTreedElements := s.nonTreedElements ++ [s.currentElement]
      currentElement := HrmlElement.empty }
  | .NONE => s

/-- The first loop of `parse_hrml_tokens`: the flat list `nonTreedElements`,
one record per `CLOSE_TAG` token. -/
def flatten (tokens : List TokenValuePair) : List HrmlElement :=
  (tokens.foldl flatten_step FlatState.init).nonTreedElements

/-- The test `el.tagName[0] != '/'` of line 200, negated: the record is a
closer.  For an empty `std::string`, `tagName[0]` is the terminating `'\0'`. -/
def isCloser (el : HrmlElement) : Bool :=
  el.tagName.headD (Char.ofNat 0) = '/'

/-- Apply `f` to the last element of a list (nothing to do on the empty list). -/
def modifyLast {α : Type} (f : α → α) : List α → List α
  | [] => []
  | [a] => [f a]
  | a :: b :: l => a :: modifyLast f (b :: l)

/-- Append `elem` to the children of the element `tagStack.top()` when the stack
has `depth` entries, or to the roots when it has none.

The pointers on `tagStack` always form the chain "last root, its last child,
the last child of that, ...": an element is pushed right after it has been
appended to the children of the previous top (or to the roots when the stack
was empty), and only the children of the top ever grow.  So the element
`tagStack.top()` is found from the roots by `depth - 1` last-child steps. -/
def attach : Nat → List HrmlElement → HrmlElement → List HrmlElement
  | 0, roots, elem => roots ++ [elem]
  | d + 1, roots, elem =>
    modifyLast (fun p => { p with children := attach d p.children elem }) roots

/-- The locals of the second loop: the elements of `elements_p` (with everything
attached below them so far) and the size of `tagStack`. -/
structure NestState where
  elements_p : List HrmlElement
  tagStack : Nat

/-- One iteration of `for (HrmlElement el : nonTreedElements)` (lines 198-210).
`tagStack.pop()` on an empty stack is undefined: the step is `none`. -/
def nest_step (s : NestState) (el : HrmlElement) : Option NestState :=
  if !isCloser el then
    some ⟨attach s.tagStack s.elements_p el, s.tagStack + 1⟩
  else
    match s.tagStack with
    | 0 => none
    | d + 1 => some ⟨s.elements_p, d⟩

/-- The second loop of `parse_hrml_tokens` from a given state. -/
def nest_loop : NestState → List HrmlElement → Option NestState
  | s, [] => some s
  | s, el :: els =>
    match nest_step s el with
    | none => none
    | some s' => nest_loop s' els

/-- The function `parse_hrml_tokens` (lines 156-217): flatten, nest, and return
the root elements. -/
def parse_hrml_tokens (tokens : List TokenValuePair) : Option (List HrmlElement) :=
  (nest_loop ⟨[], 0⟩ (flatten tokens)).map NestState.elements_p

/-- The ways a call of a function of the source can end: it returns a value, it
ends in an exception (the only defined failure the language offers to a function
that returns its result by value), or it runs into undefined behaviour. -/
inductive Outcome (α : Type) where
  | returns (value : α)
  | throws
  | undefined

/-- How a call of `parse_hrml_tokens` ends.  The function has no `throw`, no
error value and no check of the stack before `tagStack.pop()`: it returns the
root elements, or it pops the empty stack, which is undefined. -/
def parse_outcome (tokens : List TokenValuePair) : Outcome (List HrmlElement) :=
  match parse_hrml_tokens tokens with
  | some forest => .returns forest
  | none => .undefined

/-! ## Query resolver (source lines 222-257) -/

/-- The sentinel string returned for a miss. -/
def notFound : Str := "Not Found!".toList

/-- The value `std::string::npos`, the largest `size_t`. -/
def npos : Nat := 2 ^ 64 - 1

/-- The search behind `query.find("~")`: the index of the first `c`, if any. -/
def find_char (c : Char) : Str → Option Nat
  | [] => none
  | x :: xs => if x = c then some 0 else (find_char c xs).map (· + 1)

/-- The call `query.find("~")`: the index of the first `c`, or `npos`. -/
def find_pos (c : Char) (s : Str) : Nat :=
  match find_char c s with
  | some i => i
  | none => npos

/-- The conversion `int attrLoc = query.find("~")` of a `size_t` to the 32-bit
`int`: the value is reduced modulo `2^32` into the range from `-2^31` up to
`2^31 - 1`.  So `npos` becomes `-1`, an index below `2^31` keeps its value, and
an index from `2^31` on wraps around. -/
def size_t_to_int (n : Nat) : Int :=
  if n % 2 ^ 32 < 2 ^ 31 then ((n % 2 ^ 32 : Nat) : Int)
  else ((n % 2 ^ 32 : Nat) : Int) - 2 ^ 32

/-- The sum `a + b` of two `int` values: signed overflow is undefined, the
result is `none`. -/
def int_add (a b : Int) : Option Int :=
  if -(2 ^ 31) ≤ a + b ∧ a + b < 2 ^ 31 then some (a + b) else none

/-- The conversion of an `int` argument to the `size_t` parameter of `substr`:
a non-negative value is kept, a negative one wraps around modulo `2^64`. -/
def int_to_size_t (i : Int) : Nat :=
  if 0 ≤ i then i.toNat else (i + 2 ^ 64).toNat

/-- The call `s.substr(pos, len)`: at most `len` characters from index `pos` on.
For `pos > s.size()` it throws `std::out_of_range`, which nothing catches: the
result is `none`. -/
def substr (s : Str) (pos : Nat) (len : Nat) : Option Str :=
  if pos ≤ s.length then some ((s.drop pos).take len) else none

/-- The call `s.substr(pos)`: the default `len` is `npos` and the result is the
whole rest of the string; `none` when it throws (`pos > s.size()`). -/
def substr_from (s : Str) (pos : Nat) : Option Str :=
  if pos ≤ s.length then some (s.drop pos) else none

/-- The loop `while (std::getline(ss, token, '.')) tagNames.push_back(token);`
(lines 232-234) on the unread rest of the stream.  `cur` is the token read so
far by the running `getline` call and `extracted` tells whether that call has
extracted a character: at the end of the stream a call that extracted nothing
fails and ends the loop, so a trailing delimiter adds no segment. -/
def getline_loop : List Char → Str → Bool → List Str
  | [], cur, extracted => if extracted then [cur] else []
  | c :: cs, cur, _ =>
    if c = '.' then cur :: getline_loop cs [] false
    else getline_loop cs (cur ++ [c]) true

/-- The call `std::find_if(v.begin(), v.end(), [=](auto& el) { return el.tagName == name; })`:
the first element with that tag name, `none` for `v.end()`. -/
def find_tag (name : Str) : List HrmlElement → Option HrmlElement
  | [] => none
  | el :: els => if el.tagName = name then some el else find_tag name els

/-- The loop `for (int idx = 1; idx < tagNames.size(); idx++)` (lines 243-249) on
the remaining segments, the first of which is `tagNames[idx]`.  The result
`some none` stands for the early `return "Not Found!"`, and `none` for the
signed overflow of `idx++` at `idx = 2^31 - 1`, which is undefined. -/
def descend : Nat → HrmlElement → List Str → Option (Option HrmlElement)
  | _, element, [] => some (some element)
  | idx, element, name :: names =>
    match find_tag name element.children with
    | none => some none
    | some child =>
      if idx + 1 < 2 ^ 31 then descend (idx + 1) child names else none

/-- The lines 224-226 of `query_hrml`: the attribute name `attrName` and the path
`subquery` cut out of the query.  The result is `none` when `attrLoc + 1`
overflows or `substr` throws. -/
def query_split (query : Str) : Option (Str × Str) :=
  let attrLoc : Int := size_t_to_int (find_pos '~' query)
  match int_add attrLoc 1 with
  | none => none
  | some next =>
    match substr_from query (int_to_size_t next) with
    | none => none
    | some attrName =>
      match substr query 0 (int_to_size_t attrLoc) with
      | none => none
      | some subquery => some (attrName, subquery)

/-- The lines 236-256 of `query_hrml`: the walk along `tagNames` and the lookup
of `attrName`.  The read `tagNames[0]` stands in the predicate of the first
`find_if` and happens once per visited root: when `tagNames` is empty it is
undefined as soon as there is a root to visit (the result is `none`), and with
no root at all the search ends at once. -/
def resolve_path (attrName : Str) (tagNames : List Str) (hrmlElements : List HrmlElement) :
    Option Str :=
  match tagNames with
  | [] =>
    match hrmlElements with
    | [] => some notFound
    | _ :: _ => none
  | first :: others =>
    match find_tag first hrmlElements with
    | none => some notFound
    | some root =>
      match descend 1 root others with
      | none => none
      | some none => some notFound
      | some (some element) =>
        match element.attributes.find attrName with
        | some v => some v
        | none => some notFound

/-- The function `query_hrml` (lines 222-257): cut the query at the first `~`,
split the path at the dots, walk and look up.  The result is `none` when the
call has no defined result or ends in an exception. -/
def query_hrml (query : Str) (hrmlElements : List HrmlElement) : Option Str :=
  match query_split query with
  | none => none
  | some (attrName, subquery) =>
    resolve_path attrName (getline_loop subquery [] false) hrmlElements

/-- What `main` does with one query line (lines 276-277 and 290): tokenize the
markup, build the forest, resolve the query. -/
def run_query (lines query : Str) : Option Str :=
  match tokenize_hrml_string lines with
  | none => none
  | some tokens =>
    match parse_hrml_tokens tokens with
    | none => none
    | some elements => query_hrml query elements

/-! ## Reference definitions, in the words of the specification -/

/-- The path part `t1.t2...tn` of a query. -/
def dotted : List Str → Str
  | [] => []
  | [t] => t
  | t :: t' :: ts => t ++ '.' :: dotted (t' :: ts)

/-- The query `t1.t2...tn~attr`. -/
def mk_query (path : List Str) (attr : Str) : Str :=
  dotted path ++ '~' :: attr

/-- A path segment of a query: non-empty and free of `.` and `~`. -/
def isSegment (t : Str) : Bool :=
  !t.isEmpty && t.all (fun c => c != '.' && c != '~')

/-- The element reached by a path: the first root named `t1`, then for each
further segment the first direct child with that name. -/
def spec_walk : List HrmlElement → List Str → Option HrmlElement
  | _, [] => none
  | forest, [t] => forest.find? (fun e => e.tagName = t)
  | forest, t :: t' :: ts =>
    match forest.find? (fun e => e.tagName = t) with
    | none => none
    | some e => spec_walk e.children (t' :: ts)

/-- The reference result of a query: the value mapped to `attr` at the element
reached by the path, `"Not Found!"` when a segment or the attribute is missing. -/
def spec_resolve (path : List Str) (attr : Str) (forest : List HrmlElement) : Str :=
  match spec_walk forest path with
  | none => notFound
  | some e =>
    match e.attributes.lookup attr with
    | none => notFound
    | some v => v

/-- A tag of a document: an opening tag with its attributes, or a closing tag. -/
inductive Tag where
  | opening (name : Str) (attrs : List (Str × Str))
  | closing (name : Str)
  deriving DecidableEq, Repr

/-- The canonical text of one attribute: a space, then `attr="value"`. -/
def render_attr (a : Str × Str) : Str :=
  ' ' :: a.1 ++ '=' :: '"' :: a.2 ++ ['"']

/-- The canonical text of a tag: `<name` then the attributes then `>`, or
`</name>`. -/
def render_tag : Tag → Str
  | .opening name attrs => '<' :: name ++ (attrs.map render_attr).flatten ++ ['>']
  | .closing name => '<' :: '/' :: name ++ ['>']

/-- The canonical text of a list of tags. -/
def render_tags (tags : List Tag) : Str :=
  (tags.map render_tag).flatten

/-- The tokens of one attribute: `ATTR_NAME attr, LQUOTE, ATTR_VAL value, RQUOTE`. -/
def attr_tokens (a : Str × Str) : List TokenValuePair :=
  [⟨.ATTR_NAME, a.1⟩, ⟨.LQUOTE, []⟩, ⟨.ATTR_VAL, a.2⟩, ⟨.RQUOTE, []⟩]

/-- The tokens of a tag: `OPEN_TAG, TAG_NAME name`, the attributes, `CLOSE_TAG`;
or `OPEN_TAG, END_TAG_SYMBOL name, CLOSE_TAG`. -/
def tag_tokens : Tag → List TokenValuePair
  | .opening name attrs =>
    ⟨.OPEN_TAG, []⟩ :: ⟨.TAG_NAME, name⟩ :: ((attrs.map attr_tokens).flatten ++ [⟨.CLOSE_TAG, []⟩])
  | .closing name => [⟨.OPEN_TAG, []⟩, ⟨.END_TAG_SYMBOL, name⟩, ⟨.CLOSE_TAG, []⟩]

/-- The tokens of a list of tags. -/
def tags_tokens (tags : List Tag) : List TokenValuePair :=
  (tags.map tag_tokens).flatten

/-- A name: made of name characters and starting with a letter. -/
def isName : Str → Bool
  | [] => false
  | c :: cs => isalpha c && cs.all isValidNameChar

/-- A value: any string free of the double quote. -/
def isValue (v : Str) : Bool :=
  v.all (fun c => c != '"')

/-- A tag whose names are names and whose values are values. -/
def isTag : Tag → Bool
  | .opening name attrs => isName name && attrs.all (fun a => isName a.1 && isValue a.2)
  | .closing name => isName name

/-- The attribute mapping left by the assignments `m[a1] = v1; ...; m[ak] = vk`. -/
def assign_all (m : AttrMap) (attrs : List (Str × Str)) : AttrMap :=
  attrs.foldl (fun m a => m.assign a.1 a.2) m

/-- The flat record that a tag stands for: an opener with its attribute mapping,
or a closer whose tag name is the name prefixed with `/`. -/
def tag_record : Tag → HrmlElement
  | .opening name attrs => ⟨name, [], assign_all [] attrs, []⟩
  | .closing name => ⟨'/' :: name, [], [], []⟩

mutual
/-- The balanced pre-order serialization of an element: its opening tag, the
serialization of its children in order, its closing tag. -/
def element_tags : HrmlElement → List Tag
  | ⟨name, _, attrs, children⟩ =>
    Tag.opening name attrs :: (forest_tags children ++ [Tag.closing name])
/-- The balanced pre-order serialization of a forest. -/
def forest_tags : List HrmlElement → List Tag
  | [] => []
  | e :: es => element_tags e ++ forest_tags es
end

/-- The token sequence of the serialization of a forest. -/
def forest_tokens (forest : List HrmlElement) : List TokenValuePair :=
  tags_tokens (forest_tags forest)

/-- The canonical text of a forest: a well-formed document. -/
def forest_text (forest : List HrmlElement) : Str :=
  render_tags (forest_tags forest)

mutual
/-- An element as the builder can produce it: the tag name does not start with
`/`, the attribute names are distinct, the inner text is never populated; and
so for the children. -/
def isElement : HrmlElement → Bool
  | ⟨name, text, attrs, children⟩ =>
    name.headD (Char.ofNat 0) != '/' && text.isEmpty && decide (attrs.map Prod.fst).Nodup
      && isForest children
/-- A forest of elements as the builder can produce them. -/
def isForest : List HrmlElement → Bool
  | [] => true
  | e :: es => isElement e && isForest es
end

mutual
/-- An element of a well-formed document: tag and attribute names are names,
attribute names are distinct within the tag, values are free of the quote. -/
def isDocElement : HrmlElement → Bool
  | ⟨name, text, attrs, children⟩ =>
    isName name && text.isEmpty && attrs.all (fun a => isName a.1 && isValue a.2)
      && decide (attrs.map Prod.fst).Nodup && isDocument children
/-- A well-formed document, as the forest of its elements. -/
def isDocument : List HrmlElement → Bool
  | [] => true
  | e :: es => isDocElement e && isDocument es
end

mutual
/-- The number of elements of an element's tree, itself included. -/
def count_element : HrmlElement → Nat
  | ⟨_, _, _, children⟩ => 1 + count_forest children
/-- The total number of elements of a forest, at every depth. -/
def count_forest : List HrmlElement → Nat
  | [] => 0
  | e :: es => count_element e + count_forest es
end

/-- Whether the tag is an opening tag. -/
def Tag.isOpening : Tag → Bool
  | .opening _ _ => true
  | .closing _ => false

mutual
/-- A tree of tags whose names do not start with `/` (attribute lists and
inner texts are arbitrary). -/
def isOpenElement : HrmlElement → Bool
  | ⟨name, _, _, children⟩ => name.headD (Char.ofNat 0) != '/' && isOpenForest children
/-- A forest of tags whose names do not start with `/`. -/
def isOpenForest : List HrmlElement → Bool
  | [] => true
  | e :: es => isOpenElement e && isOpenForest es
end

mutual
/-- The element that a tree of tags stands for: at every tag the attribute list
is replaced by the mapping that assigning it in order leaves (and the inner
text is empty). -/
def built_element : HrmlElement → HrmlElement
  | ⟨name, _, attrs, children⟩ => ⟨name, [], assign_all [] attrs, built_forest children⟩
/-- The forest that a forest of tag trees stands for. -/
def built_forest : List HrmlElement → List HrmlElement
  | [] => []
  | e :: es => built_element e :: built_forest es
end

mutual
/-- The tag name of the element and of every element below it is a name:
non-empty, starting with a letter, made of alphanumeric characters, `-`, `_`. -/
def allNamesElement : HrmlElement → Bool
  | ⟨name, _, _, children⟩ => isName name && allNames children
/-- Every element of the forest, at every depth, has a name as its tag name. -/
def allNames : List HrmlElement → Bool
  | [] => true
  | e :: es => allNamesElement e && allNames es
end

/-- The state of the first loop of the builder after the given tokens. -/
def flat_state (tokens : List TokenValuePair) : FlatState :=
  tokens.foldl flatten_step FlatState.init

/-- A flat record as the tokenizer's output yields it: no children yet, and
either a closer or an opener whose tag name is a name. -/
def isRecord (r : HrmlElement) : Bool :=
  r.children.isEmpty && (isCloser r || isName r.tagName)

/-- The invariant of the tokenizer loop, read on the records that the builder
makes of the tokens emitted so far: every record is a closer or carries a name;
a tag name under construction is a name; and while attributes are read the
current record already carries its name, and some token has been emitted. -/
def TokInv (st : TokState) : Prop :=
  (∀ r ∈ (flat_state st.tokens).nonTreedElements, isRecord r = true) ∧
  (flat_state st.tokens).currentElement.children = [] ∧
  (match st.next.token with
    | .TAG_NAME => isName st.next.value = true
    | .ATTR_NAME => isName (flat_state st.tokens).currentElement.tagName = true
    | .ATTR_VAL =>
      isName (flat_state st.tokens).currentElement.tagName = true ∧ st.tokens ≠ []
    | _ => True)

/-- The number of closer records (tag name starting with `/`) of a list. -/
def closers (recs : List HrmlElement) : Nat :=
  recs.countP isCloser

/-- The number of opener records of a list. -/
def openers (recs : List HrmlElement) : Nat :=
  recs.countP (fun r => !isCloser r)

/-- Two records that agree except, possibly, in the name behind the `/` of a
closer. -/
def SameRecord (e e' : HrmlElement) : Prop :=
  e.innerText = e'.innerText ∧ e.attributes = e'.attributes ∧ e.children = e'.children ∧
    (e.tagName = e'.tagName ∨ (isCloser e = true ∧ isCloser e' = true))

/-- Two states of the first loop of the builder that agree up to closer names. -/
def SameFlat (s s' : FlatState) : Prop :=
  SameRecord s.currentElement s'.currentElement ∧ s.currentAttribute = s'.currentAttribute ∧
    List.Forall₂ SameRecord s.nonTreedElements s'.nonTreedElements

/-- Apply `f` to the list that the next element is appended to when the stack
has `depth` entries: the roots, or the children at the end of the last-child
chain. -/
def modifyAt : Nat → (List HrmlElement → List HrmlElement) → List HrmlElement → List HrmlElement
  | 0, f, l => f l
  | d + 1, f, l => modifyLast (fun p => { p with children := modifyAt d f p.children }) l

mutual
/-- The element `built` stands for the tag tree `tag` with last-write-wins
attributes: same tag name; `built` maps every attribute name to the value of
its last occurrence in the tag's attribute list, and has one entry per distinct
name of that list; and so for the children, in order. -/
def lastWinsElement : HrmlElement → HrmlElement → Prop
  | ⟨name, _, attrs, children⟩, built =>
    built.tagName = name ∧
    (∀ k, built.attributes.find k = attrs.reverse.lookup k) ∧
    (built.attributes.map Prod.fst).Nodup ∧
    (∀ k, k ∈ built.attributes.map Prod.fst ↔ k ∈ attrs.map Prod.fst) ∧
    lastWinsForest children built.children
/-- The forest `built` stands for the forest of tag trees, element by element. -/
def lastWinsForest : List HrmlElement → List HrmlElement → Prop
  | [], built => built = []
  | e :: es, built =>
    ∃ b bs, built = b :: bs ∧ lastWinsElement e b ∧ lastWinsForest es bs
end

/-- The last-child chain below the roots has at least `depth` elements: the
last root, its last child, and so on.  These are the elements that `tagStack`
points to. -/
def hasChain : Nat → List HrmlElement → Bool
  | 0, _ => true
  | d + 1, l =>
    match l.getLast? with
    | none => false
    | some p => hasChain d p.children

/-- The document `<a x="1"><b y="2"></b></a>` as a forest. -/
def doc_a_b : List HrmlElement :=
  [⟨"a".toList, [], [("x".toList, "1".toList)],
    [⟨"b".toList, [], [("y".toList, "2".toList)], []⟩]⟩]

/-- The forest of the builder test of the source: `hrml` with two attributes and
the nested `child`, `childchild`, followed by the root `sibling`. -/
def doc_test : List HrmlElement :=
  [⟨"hrml".toList, [], [("attr".toList, "12 34".toList), ("attr2".toList, "56 78".toList)],
      [⟨"child".toList, [], [], [⟨"childchild".toList, [], [], []⟩]⟩]⟩,
    ⟨"sibling".toList, [], [], []⟩]

/-! ## Driver (source lines 259-296) and the tests it runs first (lines 298-388) -/

/-- An assertion `tokens[i].token == kind && tokens[i].value == value`. -/
def assert_token (tokens : List TokenValuePair) (i : Nat) (kind : TOKENS) (value : Str) : Bool :=
  tokens.get? i = some ⟨kind, value⟩

/-- An assertion `tokens[i].token == kind`. -/
def assert_kind (tokens : List TokenValuePair) (i : Nat) (kind : TOKENS) : Bool :=
  (tokens.get? i).map TokenValuePair.token = some kind

/-- The function `test_tokenize_hrml_line` (lines 298-350): `true` when every
assertion holds. -/
def test_tokenize_hrml_line : Bool :=
  (match tokenize_hrml_string "<hrml tag = \"hello\"></hrml>".toList with
    | none => false
    | some tokens =>
      assert_kind tokens 0 .OPEN_TAG && assert_token tokens 1 .TAG_NAME "hrml".toList
        && assert_token tokens 2 .ATTR_NAME "tag".toList && assert_kind tokens 3 .LQUOTE
        && assert_token tokens 4 .ATTR_VAL "hello".toList && assert_kind tokens 5 .RQUOTE
        && assert_kind tokens 6 .CLOSE_TAG && assert_kind tokens 7 .OPEN_TAG
        && assert_token tokens 8 .END_TAG_SYMBOL "hrml".toList
        && assert_kind tokens 9 .CLOSE_TAG)
  && (match tokenize_hrml_string "<hrml>".toList with
    | none => false
    | some tokens =>
      assert_kind tokens 0 .OPEN_TAG && assert_token tokens 1 .TAG_NAME "hrml".toList
        && assert_kind tokens 2 .CLOSE_TAG)
  && (match tokenize_hrml_string
        " <hrml tag2=\"I can be long>!\" help=\"\" > \n <div> </div>".toList with
    | none => false
    | some tokens =>
      assert_kind tokens 0 .OPEN_TAG && assert_token tokens 1 .TAG_NAME "hrml".toList
        && assert_token tokens 2 .ATTR_NAME "tag2".toList && assert_kind tokens 3 .LQUOTE
        && assert_token tokens 4 .ATTR_VAL "I can be long>!".toList
        && assert_kind tokens 5 .RQUOTE
        && assert_token tokens 6 .ATTR_NAME "help".toList && assert_kind tokens 7 .LQUOTE
        && assert_token tokens 8 .ATTR_VAL [] && assert_kind tokens 9 .RQUOTE
        && assert_kind tokens 10 .CLOSE_TAG && assert_kind tokens 11 .OPEN_TAG
        && assert_token tokens 12 .TAG_NAME "div".toList && assert_kind tokens 13 .CLOSE_TAG
        && assert_kind tokens 14 .OPEN_TAG
        && assert_token tokens 15 .END_TAG_SYMBOL "div".toList
        && assert_kind tokens 16 .CLOSE_TAG)
  && (match tokenize_hrml_string "<hrml\ttag \r\n=\n\"hello\"></hrml\n>".toList with
    | none => false
    | some tokens =>
      assert_kind tokens 0 .OPEN_TAG && assert_token tokens 1 .TAG_NAME "hrml".toList
        && assert_token tokens 2 .ATTR_NAME "tag".toList && assert_kind tokens 3 .LQUOTE
        && assert_token tokens 4 .ATTR_VAL "hello".toList && assert_kind tokens 5 .RQUOTE
        && assert_kind tokens 6 .CLOSE_TAG && assert_kind tokens 7 .OPEN_TAG
        && assert_token tokens 8 .END_TAG_SYMBOL "hrml".toList
        && assert_kind tokens 9 .CLOSE_TAG)

/-- The token vector of the second case of `test_parse_hrml_tokens` (lines 359-371). -/
def test_tokens : List TokenValuePair :=
  [⟨.OPEN_TAG, []⟩, ⟨.TAG_NAME, "hrml".toList⟩,
    ⟨.ATTR_NAME, "attr".toList⟩, ⟨.LQUOTE, []⟩, ⟨.ATTR_VAL, "12 34".toList⟩, ⟨.RQUOTE, []⟩,
    ⟨.ATTR_NAME, "attr2".toList⟩, ⟨.LQUOTE, []⟩, ⟨.ATTR_VAL, "56 78".toList⟩, ⟨.RQUOTE, []⟩,
    ⟨.CLOSE_TAG, []⟩,
    ⟨.OPEN_TAG, []⟩, ⟨.TAG_NAME, "child".toList⟩, ⟨.CLOSE_TAG, []⟩,
    ⟨.OPEN_TAG, []⟩, ⟨.TAG_NAME, "childchild".toList⟩, ⟨.CLOSE_TAG, []⟩,
    ⟨.OPEN_TAG, []⟩, ⟨.END_TAG_SYMBOL, "childchild".toList⟩, ⟨.CLOSE_TAG, []⟩,
    ⟨.OPEN_TAG, []⟩, ⟨.END_TAG_SYMBOL, "child".toList⟩, ⟨.CLOSE_TAG, []⟩,
    ⟨.OPEN_TAG, []⟩, ⟨.END_TAG_SYMBOL, "hrml".toList⟩, ⟨.CLOSE_TAG, []⟩,
    ⟨.OPEN_TAG, []⟩, ⟨.TAG_NAME, "sibling".toList⟩, ⟨.CLOSE_TAG, []⟩,
    ⟨.OPEN_TAG, []⟩, ⟨.END_TAG_SYMBOL, "sibling".toList⟩, ⟨.CLOSE_TAG, []⟩]

/-- The function `test_parse_hrml_tokens` (lines 352-388): `true` when every
assertion holds.  The assertion `m["k"] == v` on a mapping holds exactly when
`k` is mapped to `v` (a missing key reads as the empty string). -/
def test_parse_hrml_tokens : Bool :=
  (match parse_hrml_tokens [⟨.OPEN_TAG, []⟩, ⟨.TAG_NAME, "hrml".toList⟩, ⟨.CLOSE_TAG, []⟩] with
    | some (e :: _) => e.tagName = "hrml".toList && e.attributes.isEmpty && e.children.isEmpty
    | _ => false)
  && (match parse_hrml_tokens test_tokens with
    | some (hrml :: sibling :: _) =>
      hrml.tagName = "hrml".toList
        && (hrml.attributes.find "attr".toList).getD [] = "12 34".toList
        && (hrml.attributes.find "attr2".toList).getD [] = "56 78".toList
        && (match hrml.children with
          | child :: _ =>
            child.tagName = "child".toList
              && (match child.children with
                | childchild :: _ => childchild.tagName = "childchild".toList
                | [] => false)
          | [] => false)
        && sibling.tagName = "sibling".toList && sibling.children.isEmpty
    | _ => false)

/-- The string `lines` of `main` (lines 268-273): every markup line followed by
a newline. -/
def main_lines (markup : List Str) : Str :=
  (markup.map (fun line => line ++ ['\n'])).flatten

/-- The loop `for (int idx = 0; idx < q; idx++)` of `main` (lines 287-292): the
answers to the query lines, in order; `none` when an answer is undefined. -/
def answer_loop (elements : List HrmlElement) : List Str → Option (List Str)
  | [] => some []
  | query :: queries =>
    match query_hrml query elements with
    | none => none
    | some attrContent =>
      match answer_loop elements queries with
      | none => none
      | some answers => some (attrContent :: answers)

/-- The standard output of `main` (lines 259-296) for the input `N Q`, the `N`
markup lines and the `Q` query lines: the tests run first (a failed assertion
aborts the program); then `lines` is written (line 274); then each answer is
written, followed by `std::endl`.  The result is `none` when the program has no
defined output. -/
def main (markup queries : List Str) : Option Str :=
  if test_tokenize_hrml_line && test_parse_hrml_tokens then
    match tokenize_hrml_string (main_lines markup) with
    | none => none
    | some tokens =>
      match parse_hrml_tokens tokens with
      | none => none
      | some elements =>
        match answer_loop elements queries with
        | none => none
        | some answers =>
          some (main_lines markup ++ (answers.map (fun a => a ++ ['\n'])).flatten)
  else none

/-- The output that the contract of the driver describes: one line per query,
holding the answer, and nothing else. -/
def spec_output (answers : List Str) : Str :=
  (answers.map (fun a => a ++ ['\n'])).flatten

/-! ## The shape of the token sequence -/

/-- Where a reader of the token sequence stands: outside a tag, right after an
`OPEN_TAG`, or inside a tag after its name token. -/
inductive Phase where
  | outside
  | afterOpen
  | inTag
  deriving DecidableEq, Repr

/-- Reading one token: outside a tag only `OPEN_TAG` may come; after it exactly
one `TAG_NAME` or `END_TAG_SYMBOL`; then attribute tokens until `CLOSE_TAG`.
Any other token gives `none`. -/
def shape_step : Option Phase → TokenValuePair → Option Phase
  | some .outside, tok => if tok.token = .OPEN_TAG then some .afterOpen else none
  | some .afterOpen, tok =>
    if tok.token = .TAG_NAME ∨ tok.token = .END_TAG_SYMBOL then some .inTag else none
  | some .inTag, tok =>
    match tok.token with
    | .CLOSE_TAG => some .outside
    | .ATTR_NAME => some .inTag
    | .LQUOTE => some .inTag
    | .ATTR_VAL => some .inTag
    | .RQUOTE => some .inTag
    | _ => none
  | none, _ => none

/-- The phase after reading a token sequence from outside a tag. -/
def shape (tokens : List TokenValuePair) : Option Phase :=
  tokens.foldl shape_step (some .outside)

/-- The phase that a state of the tokenizer stands for; the kinds `CLOSE_TAG`,
`LQUOTE` and `RQUOTE` are never the kind of `next`. -/
def phase_of : TOKENS → Option Phase
  | .NONE => some .outside
  | .OPEN_TAG => some .afterOpen
  | .TAG_NAME => some .afterOpen
  | .END_TAG_SYMBOL => some .afterOpen
  | .ATTR_NAME => some .inTag
  | .ATTR_VAL => some .inTag
  | _ => none

/-- The second invariant of the tokenizer loop: the tokens emitted so far have
the shape of tags and end in the phase of the state; in state `NONE` no value is
under construction; in state `ATTR_VAL` the vector of tokens is non-empty and
its last token is `ATTR_NAME`, `LQUOTE` or `RQUOTE`. -/
def TokShape (st : TokState) : Prop :=
  (∃ p, phase_of st.next.token = some p ∧ shape st.tokens = some p) ∧
  (st.next.token = .NONE → st.next.value = []) ∧
  (st.next.token = .ATTR_VAL → ∃ last, st.tokens.getLast? = some last ∧
    (last.token = .ATTR_NAME ∨ last.token = .LQUOTE ∨ last.token = .RQUOTE))

/-- The kinds of the marker tokens `OPEN_TAG` and `CLOSE_TAG` of a sequence, in
order. -/
def markers (tokens : List TokenValuePair) : List TOKENS :=
  (tokens.map TokenValuePair.token).filter (fun k => k = .OPEN_TAG || k = .CLOSE_TAG)

/-- A list of marker kinds that strictly alternates, starting with `OPEN_TAG`
when `expectOpen` and with `CLOSE_TAG` otherwise. -/
def alternates : Bool → List TOKENS → Bool
  | _, [] => true
  | expectOpen, k :: ks =>
    (k = if expectOpen then TOKENS.OPEN_TAG else TOKENS.CLOSE_TAG) && alternates (!expectOpen) ks

/-- Whether the tokenizer is back in state `NONE` after the text. -/
def back_in_none (text : Str) : Bool :=
  match tokenize_loop TokState.init text with
  | some st => st.next.token = .NONE
  | none => false

/-! ## Whitespace inside tags -/

/-- The whitespace of the specification: space, tab, carriage return, line feed. -/
def isBlank (c : Char) : Bool :=
  c = ' ' || c = '\t' || c = '\r' || c = '\n'

/-- A run of whitespace characters of the specification. -/
def isBlankRun (w : Str) : Bool :=
  w.all isBlank

/-- An attribute with the whitespace inserted around it: `gap0` and `gap1` stand
before and after the canonical space in front of the name, `eq0` between the
name and `=`, `eq1` between `=` and the opening quote. -/
structure SpacedAttr where
  gap0 : Str
  gap1 : Str
  name : Str
  eq0 : Str
  eq1 : Str
  value : Str

/-- A tag with the whitespace inserted into it: `lead` stands between `<` (or
`</`) and the tag name, `tail` before the final `>`. -/
inductive SpacedTag where
  | opening (lead name : Str) (attrs : List SpacedAttr) (tail : Str)
  | closing (lead name tail : Str)

/-- The attribute without the inserted whitespace. -/
def SpacedAttr.attr (a : SpacedAttr) : Str × Str :=
  (a.name, a.value)

/-- The tag without the inserted whitespace. -/
def SpacedTag.tag : SpacedTag → Tag
  | .opening _ name attrs _ => .opening name (attrs.map SpacedAttr.attr)
  | .closing _ name _ => .closing name

/-- The text of an attribute with its inserted whitespace. -/
def render_spaced_attr (a : SpacedAttr) : Str :=
  a.gap0 ++ (' ' :: (a.gap1 ++ (a.name ++ (a.eq0 ++ ('=' :: (a.eq1 ++ ('"' :: (a.value
    ++ ['"']))))))))

/-- The text of a tag with its inserted whitespace. -/
def render_spaced_tag : SpacedTag → Str
  | .opening lead name attrs tail =>
    '<' :: (lead ++ (name ++ ((attrs.map render_spaced_attr).flatten ++ (tail ++ ['>']))))
  | .closing lead name tail => '<' :: '/' :: (lead ++ (name ++ (tail ++ ['>'])))

/-- The text of a list of tags with their inserted whitespace. -/
def render_spaced_tags (tags : List SpacedTag) : Str :=
  (tags.map render_spaced_tag).flatten

/-- A valid attribute with whitespace runs inserted. -/
def isSpacedAttr (a : SpacedAttr) : Bool :=
  isBlankRun a.gap0 && isBlankRun a.gap1 && isBlankRun a.eq0 && isBlankRun a.eq1
    && isName a.name && isValue a.value

/-- A valid tag with whitespace runs inserted. -/
def isSpacedTag : SpacedTag → Bool
  | .opening lead name attrs tail =>
    isBlankRun lead && isBlankRun tail && isName name && attrs.all isSpacedAttr
  | .closing lead name tail => isBlankRun lead && isBlankRun tail && isName name

/-- A name character that is not a letter: a digit, `-` or `_`. -/
def isNonLetterNameChar (c : Char) : Bool :=
  isdigit c || c = '-' || c = '_'

/-- A forest whose element `b` below `a` has an attribute named `a.b`. -/
def doc_dotted_key : List HrmlElement :=
  [⟨"a".toList, [], [], [⟨"b".toList, [], [("a.b".toList, "7".toList)], []⟩]⟩]

/-- A tag name of `2^31` letters `a`: as a path it puts the `~` of a query at
index `2^31`, the first index that does not fit the `int` of `attrLoc`. -/
def giant_name : Str := List.replicate (2 ^ 31) 'a'

/-- A forest whose one root carries the tag name `giant_name` and an attribute
of that name. -/
def doc_giant_key : List HrmlElement :=
  [⟨giant_name, [], [(giant_name, "7".toList)], []⟩]

/-- A path of `2^32` letters `a`: it puts the `~` of a query at index `2^32`,
which the `int` of `attrLoc` holds as `0`. -/
def wide_name : Str := List.replicate (2 ^ 32) 'a'

/-- The tokens of `<a></a></a>`: the second closing tag has no open scope. -/
def tokens_unmatched_closer : List TokenValuePair :=
  [⟨.OPEN_TAG, []⟩, ⟨.TAG_NAME, "a".toList⟩, ⟨.CLOSE_TAG, []⟩,
    ⟨.OPEN_TAG, []⟩, ⟨.END_TAG_SYMBOL, "a".toList⟩, ⟨.CLOSE_TAG, []⟩,
    ⟨.OPEN_TAG, []⟩, ⟨.END_TAG_SYMBOL, "a".toList⟩, ⟨.CLOSE_TAG, []⟩]

/-! ## The query resolver against its reference -/

theorem find_char_skip (c : Char) (p r : Str) (hp : ∀ x ∈ p, x ≠ c) :
    find_char c (p ++ c :: r) = some p.length := by
  induction p with
  | nil => simp [find_char]
  | cons x xs ih =>
    have hx : x ≠ c := hp x (by simp)
    have := ih (fun y hy => hp y (by simp [hy]))
    simp [find_char, hx, this]

theorem getline_loop_segment (t rest cur : Str) (ex : Bool) (ht : ∀ x ∈ t, x ≠ '.') :
    getline_loop (t ++ rest) cur ex = getline_loop rest (cur ++ t) (ex || !t.isEmpty) := by
  induction t generalizing cur ex with
  | nil => simp
  | cons x xs ih =>
    have hx : x ≠ '.' := ht x (by simp)
    have := ih (cur ++ [x]) true (fun y hy => ht y (by simp [hy]))
    simp [getline_loop, hx, this]

theorem isSegment_iff (t : Str) :
    isSegment t = true ↔ t ≠ [] ∧ (∀ x ∈ t, x ≠ '.') ∧ (∀ x ∈ t, x ≠ '~') := by
  simp only [isSegment, Bool.and_eq_true, Bool.not_eq_true', List.isEmpty_eq_false,
    List.all_eq_true, bne_iff_ne, ne_eq]
  constructor
  · rintro ⟨h1, h2⟩
    exact ⟨h1, fun x hx => (h2 x hx).1, fun x hx => (h2 x hx).2⟩
  · rintro ⟨h1, h2, h3⟩
    exact ⟨h1, fun x hx => ⟨h2 x hx, h3 x hx⟩⟩

theorem getline_loop_dotted : ∀ path : List Str, path ≠ [] →
    (∀ t ∈ path, isSegment t = true) → getline_loop (dotted path) [] false = path
  | [], h, _ => absurd rfl h
  | [t], _, hs => by
    obtain ⟨h1, h2, _⟩ := (isSegment_iff t).1 (hs t (by simp))
    have := getline_loop_segment t [] [] false h2
    simp only [List.append_nil, List.nil_append, Bool.false_or] at this
    cases t with
    | nil => exact absurd rfl h1
    | cons x xs => simpa [dotted, getline_loop] using this
  | t :: t' :: ts, _, hs => by
    obtain ⟨_, h2, _⟩ := (isSegment_iff t).1 (hs t (by simp))
    have ih := getline_loop_dotted (t' :: ts) (by simp) (fun u hu => hs u (by simp [hu]))
    have := getline_loop_segment t ('.' :: dotted (t' :: ts)) [] false h2
    simp only [List.nil_append] at this
    simp [dotted, this, getline_loop, ih]

theorem dotted_no_tilde : ∀ path : List Str, (∀ t ∈ path, isSegment t = true) →
    ∀ x ∈ dotted path, x ≠ '~'
  | [], _ => by simp [dotted]
  | [t], hs => by
    obtain ⟨_, _, h3⟩ := (isSegment_iff t).1 (hs t (by simp))
    simpa [dotted] using h3
  | t :: t' :: ts, hs => by
    obtain ⟨_, _, h3⟩ := (isSegment_iff t).1 (hs t (by simp))
    have ih := dotted_no_tilde (t' :: ts) (fun u hu => hs u (by simp [hu]))
    intro x hx
    simp only [dotted, List.mem_append, List.mem_cons] at hx
    rcases hx with hx | hx | hx
    · exact h3 x hx
    · subst hx; decide
    · exact ih x hx

theorem find_tag_eq_find (name : Str) (l : List HrmlElement) :
    find_tag name l = l.find? (fun e => e.tagName = name) := by
  induction l with
  | nil => rfl
  | cons e es ih =>
    by_cases h : e.tagName = name <;> simp [find_tag, List.find?, h, ih]

theorem attr_find_eq_lookup (m : AttrMap) (k : Str) : m.find k = m.lookup k := by
  induction m with
  | nil => rfl
  | cons kv rest ih =>
    obtain ⟨k', v'⟩ := kv
    by_cases h : k' = k
    · subst h; simp [AttrMap.find, List.lookup]
    · have h' : (k == k') = false := by simpa using fun e => h e.symm
      simp [AttrMap.find, List.lookup, h, h', ih]

/-- The walk of `query_hrml` (first root, then `descend`) is the reference walk,
as long as the counter `idx` stays below `2^31`. -/
theorem walk_eq_spec_walk : ∀ (names : List Str) (idx : Nat) (t : Str)
    (forest : List HrmlElement), idx + names.length < 2 ^ 31 →
    (match find_tag t forest with
      | none => some none
      | some root => descend idx root names) = some (spec_walk forest (t :: names))
  | [], idx, t, forest, _ => by
    rw [find_tag_eq_find]
    cases h : forest.find? (fun e => e.tagName = t) <;> simp [spec_walk, descend, h]
  | t' :: ts, idx, t, forest, hb => by
    rw [find_tag_eq_find]
    cases h : forest.find? (fun e => e.tagName = t) with
    | none => simp [spec_walk, h]
    | some e =>
      have h1 : idx + 1 < 2 ^ 31 := by
        simp only [List.length_cons] at hb
        omega
      have := walk_eq_spec_walk ts (idx + 1) t' e.children
        (by simp only [List.length_cons] at hb; omega)
      simp only [spec_walk, h, descend]
      cases hf : find_tag t' e.children with
      | none =>
        rw [hf] at this
        simpa using this
      | some child =>
        rw [hf] at this
        simp only [] at this ⊢
        rw [if_pos h1]
        exact this

/-- A path has at most one segment more than its text has characters. -/
theorem length_le_dotted : ∀ path : List Str, path.length ≤ (dotted path).length + 1
  | [] => by simp
  | [t] => by simp
  | t :: t' :: ts => by
    have := length_le_dotted (t' :: ts)
    simp only [dotted, List.length_cons, List.length_append] at this ⊢
    omega

theorem find_char_none (c : Char) (q : Str) (h : ∀ x ∈ q, x ≠ c) : find_char c q = none := by
  induction q with
  | nil => rfl
  | cons x xs ih =>
    have hx : x ≠ c := h x (by simp)
    simp [find_char, hx, ih (fun y hy => h y (by simp [hy]))]

theorem find_char_some (c : Char) : ∀ (q : Str) (i : Nat), find_char c q = some i →
    ∃ p r, q = p ++ c :: r ∧ p.length = i ∧ ∀ x ∈ p, x ≠ c
  | [], _, h => by simp [find_char] at h
  | x :: xs, i, h => by
    by_cases hx : x = c
    · subst hx
      simp only [find_char, if_true, Option.some.injEq] at h
      exact ⟨[], xs, rfl, by simpa using h, by simp⟩
    · simp only [find_char, hx, if_false, Option.map_eq_some'] at h
      obtain ⟨j, hj, rfl⟩ := h
      obtain ⟨p, r, rfl, hl, hp⟩ := find_char_some c xs j hj
      refine ⟨x :: p, r, rfl, by simp [hl], ?_⟩
      intro y hy
      rcases List.mem_cons.1 hy with rfl | hy
      · exact hx
      · exact hp y hy

theorem find_pos_skip (c : Char) (p r : Str) (hp : ∀ x ∈ p, x ≠ c) :
    find_pos c (p ++ c :: r) = p.length := by
  simp only [find_pos, find_char_skip c p r hp]

theorem find_pos_none (c : Char) (q : Str) (h : ∀ x ∈ q, x ≠ c) : find_pos c q = npos := by
  simp only [find_pos, find_char_none c q h]

theorem size_t_to_int_small (n : Nat) (h : n < 2 ^ 31) : size_t_to_int n = (n : Int) := by
  have hm : n % 2 ^ 32 = n := Nat.mod_eq_of_lt (by omega)
  simp only [size_t_to_int, hm, h, if_true]

theorem size_t_to_int_npos : size_t_to_int npos = -1 := by
  decide

theorem int_to_size_t_nat (n : Nat) : int_to_size_t (n : Int) = n := by
  simp [int_to_size_t]

theorem int_to_size_t_neg_one : int_to_size_t (-1) = 2 ^ 64 - 1 := by
  decide

/-- A query with its first `~` at an index below `2^31 - 1` is cut at that `~`. -/
theorem query_split_tilde (p a : Str) (hp : ∀ x ∈ p, x ≠ '~') (hb : p.length + 1 < 2 ^ 31) :
    query_split (p ++ '~' :: a) = some (a, p) := by
  have h1 : size_t_to_int p.length = (p.length : Int) := size_t_to_int_small _ (by omega)
  have h2 : int_add (p.length : Int) 1 = some (((p.length + 1 : Nat)) : Int) := by
    have : -(2 ^ 31) ≤ (p.length : Int) + 1 ∧ (p.length : Int) + 1 < 2 ^ 31 := by
      constructor <;> omega
    simp only [int_add, this, and_self, if_true]
    rfl
  have h3 : List.drop (p.length + 1) (p ++ '~' :: a) = a := by
    rw [← List.drop_drop, List.drop_left]
    rfl
  simp only [query_split, find_pos_skip '~' p a hp, h1, h2, int_to_size_t_nat, substr_from,
    substr, List.length_append, List.length_cons, Nat.zero_le, if_true, List.drop_zero,
    List.take_left', h3]
  simp

/-- A query without `~` is both the attribute name and, up to `npos` characters, the path. -/
theorem query_split_no_tilde (q : Str) (hq : ∀ x ∈ q, x ≠ '~') :
    query_split q = some (q, q.take (2 ^ 64 - 1)) := by
  have h2 : int_add (-1) 1 = some 0 := by decide
  have h3 : int_to_size_t 0 = 0 := by decide
  simp only [query_split, find_pos_none '~' q hq, size_t_to_int_npos, h2, h3,
    int_to_size_t_neg_one, substr_from, substr, Nat.zero_le, if_true, List.drop_zero]

/-- A query whose first `~` stands at index `2^31`: `attrLoc` wraps to `-2^31` and
`substr` throws. -/
theorem query_split_out_of_range (p a : Str) (hp : ∀ x ∈ p, x ≠ '~') (hl : p.length = 2 ^ 31)
    (ha : a.length < 2 ^ 63) : query_split (p ++ '~' :: a) = none := by
  have h1 : size_t_to_int (2 ^ 31) = -(2 ^ 31) := by decide
  have h2 : int_add (-(2 ^ 31)) 1 = some (-(2 ^ 31) + 1) := by decide
  have h3 : int_to_size_t (-(2 ^ 31) + 1) = 2 ^ 64 - 2 ^ 31 + 1 := by decide
  have h4 : ¬ (2 ^ 64 - 2 ^ 31 + 1 ≤ (p ++ '~' :: a).length) := by
    simp only [List.length_append, List.length_cons, hl]
    omega
  simp only [query_split, find_pos_skip '~' p a hp, hl, h1, h2, h3, substr_from, h4, if_false]

/-- A query whose first `~` stands at index `2^31 - 1`: `attrLoc + 1` overflows. -/
theorem query_split_overflow (p a : Str) (hp : ∀ x ∈ p, x ≠ '~') (hl : p.length = 2 ^ 31 - 1) :
    query_split (p ++ '~' :: a) = none := by
  have h1 : size_t_to_int (2 ^ 31 - 1) = 2 ^ 31 - 1 := by decide
  have h2 : int_add (2 ^ 31 - 1) 1 = none := by decide
  simp only [query_split, find_pos_skip '~' p a hp, hl, h1, h2]

/-- A query whose first `~` stands at index `2^32`: `attrLoc` wraps to `0` and the path
is empty. -/
theorem query_split_wrap (p a : Str) (hp : ∀ x ∈ p, x ≠ '~') (hl : p.length = 2 ^ 32) :
    query_split (p ++ '~' :: a) = some ((p ++ '~' :: a).drop 1, []) := by
  have h1 : size_t_to_int (2 ^ 32) = 0 := by decide
  have h2 : int_add 0 1 = some 1 := by decide
  have h3 : int_to_size_t 1 = 1 := by decide
  have h0 : int_to_size_t 0 = 0 := by decide
  have h4 : 1 ≤ (p ++ '~' :: a).length := by
    simp only [List.length_append, List.length_cons]; omega
  simp only [query_split, find_pos_skip '~' p a hp, hl, h1, h2, h3, h0, substr_from, substr, h4,
    if_true, Nat.zero_le, List.drop_zero, List.take_zero]
/-- With no path segment the resolver answers on an empty forest only. -/
theorem resolve_path_nil (attr : Str) (forest : List HrmlElement) :
    resolve_path attr [] forest = if forest.isEmpty then some notFound else none := by
  cases forest <;> rfl

/-- With a first segment and fewer than `2^31` segments in all, the walk and the
lookup are those of the reference. -/
theorem resolve_path_cons (attr t : Str) (names : List Str) (forest : List HrmlElement)
    (hn : names.length + 1 < 2 ^ 31) :
    resolve_path attr (t :: names) forest = some (spec_resolve (t :: names) attr forest) := by
  have hwalk := walk_eq_spec_walk names 1 t forest (by omega)
  simp only [resolve_path, spec_resolve, ← attr_find_eq_lookup]
  cases hr : find_tag t forest with
  | none =>
    rw [hr] at hwalk
    simp only [Option.some.injEq] at hwalk
    simp only [← hwalk]
  | some root =>
    rw [hr] at hwalk
    simp only [] at hwalk
    simp only [hwalk]
    cases hw : spec_walk forest (t :: names) with
    | none => rfl
    | some element =>
      simp only []
      cases hv : element.attributes.find attr <;> rfl

/-- The resolver on a query that `query_split` cuts into `attr` and `sub`. -/
theorem query_hrml_of_split (q attr sub : Str) (forest : List HrmlElement)
    (h : query_split q = some (attr, sub)) :
    query_hrml q forest = resolve_path attr (getline_loop sub [] false) forest := by
  simp only [query_hrml, h]

/-- The resolver on a query for which `query_split` has no result. -/
theorem query_hrml_of_split_none (q : Str) (forest : List HrmlElement)
    (h : query_split q = none) : query_hrml q forest = none := by
  simp only [query_hrml, h]

/-- On a query `t1.t2...tn~attr` whose `~` stands at an index below `2^31 - 1` the
resolver computes the reference result. -/
theorem query_hrml_mk_query (path : List Str) (attr : Str) (forest : List HrmlElement)
    (hne : path ≠ []) (hs : ∀ t ∈ path, isSegment t = true)
    (hb : (dotted path).length + 1 < 2 ^ 31) :
    query_hrml (mk_query path attr) forest = some (spec_resolve path attr forest) := by
  obtain ⟨t, names, rfl⟩ : ∃ t names, path = t :: names := by
    cases path with
    | nil => exact absurd rfl hne
    | cons t names => exact ⟨t, names, rfl⟩
  have hsplit := getline_loop_dotted (t :: names) hne hs
  have hq := query_split_tilde (dotted (t :: names)) attr (dotted_no_tilde _ hs) hb
  have hn := length_le_dotted (t :: names)
  rw [mk_query, query_hrml_of_split _ _ _ forest hq, hsplit,
    resolve_path_cons _ _ _ _ (by simp only [List.length_cons] at hn; omega)]

/-! ## The tokenizer on canonical text -/

theorem isalpha_isValidNameChar (c : Char) (h : isalpha c = true) : isValidNameChar c = true := by
  simp [isValidNameChar, isalnum, h]

theorem tokenize_loop_cons (st st' : TokState) (c : Char) (cs : List Char)
    (h : tokenize_step st c = some st') :
    tokenize_loop st (c :: cs) = tokenize_loop st' cs := by
  simp [tokenize_loop, h]

theorem tokenize_loop_append (st : TokState) (a b : List Char) :
    tokenize_loop st (a ++ b) = (tokenize_loop st a).bind (fun st' => tokenize_loop st' b) := by
  induction a generalizing st with
  | nil => simp [tokenize_loop]
  | cons c cs ih =>
    simp only [List.cons_append, tokenize_loop]
    cases tokenize_step st c with
    | none => rfl
    | some st' => exact ih st'

/-- Name characters are accumulated in the states `TAG_NAME`, `END_TAG_SYMBOL`
and `ATTR_NAME`. -/
theorem tokenize_loop_name (k : TOKENS)
    (hk : k = .TAG_NAME ∨ k = .END_TAG_SYMBOL ∨ k = .ATTR_NAME)
    (toks : List TokenValuePair) (acc n rest : Str)
    (hn : ∀ c ∈ n, isValidNameChar c = true) :
    tokenize_loop ⟨toks, ⟨k, acc⟩⟩ (n ++ rest) = tokenize_loop ⟨toks, ⟨k, acc ++ n⟩⟩ rest := by
  induction n generalizing acc with
  | nil => simp
  | cons c cs ih =>
    have hc : isValidNameChar c = true := hn c (by simp)
    have ih' := ih (acc ++ [c]) (fun x hx => hn x (by simp [hx]))
    rw [List.cons_append, tokenize_loop_cons _ ⟨toks, ⟨k, acc ++ [c]⟩⟩]
    · simpa using ih'
    · rcases hk with rfl | rfl | rfl <;> simp [tokenize_step, hc]

/-- Inside the quotes every character other than the quote is appended. -/
theorem tokenize_loop_value (toks : List TokenValuePair) (acc v rest : Str)
    (hv : ∀ c ∈ v, c ≠ '"') :
    tokenize_loop ⟨toks ++ [⟨.LQUOTE, []⟩], ⟨.ATTR_VAL, acc⟩⟩ (v ++ rest)
      = tokenize_loop ⟨toks ++ [⟨.LQUOTE, []⟩], ⟨.ATTR_VAL, acc ++ v⟩⟩ rest := by
  induction v generalizing acc with
  | nil => simp
  | cons c cs ih =>
    have hc : c ≠ '"' := hv c (by simp)
    have ih' := ih (acc ++ [c]) (fun x hx => hv x (by simp [hx]))
    rw [List.cons_append, tokenize_loop_cons _ ⟨toks ++ [⟨.LQUOTE, []⟩], ⟨.ATTR_VAL, acc ++ [c]⟩⟩]
    · simpa using ih'
    · simp [tokenize_step, attr_val_step, hc]

theorem isName_iff (n : Str) :
    isName n = true ↔ ∃ c cs, n = c :: cs ∧ isalpha c = true ∧ ∀ x ∈ cs, isValidNameChar x = true := by
  cases n with
  | nil => simp [isName]
  | cons c cs =>
    simp only [isName, Bool.and_eq_true, List.all_eq_true]
    constructor
    · intro h
      exact ⟨c, cs, rfl, h⟩
    · rintro ⟨c', cs', h, h'⟩
      cases h
      exact h'

theorem isName_chars (n : Str) (h : isName n = true) : ∀ x ∈ n, isValidNameChar x = true := by
  obtain ⟨c, cs, rfl, hc, hcs⟩ := (isName_iff n).1 h
  intro x hx
  rcases List.mem_cons.1 hx with rfl | hx
  · exact isalpha_isValidNameChar _ hc
  · exact hcs x hx

theorem isValue_iff (v : Str) : isValue v = true ↔ ∀ c ∈ v, c ≠ '"' := by
  simp [isValue]

/-- From `="value"` on: the attribute name is emitted, then the quoted value. -/
theorem tokenize_loop_eq_value (toks : List TokenValuePair) (a v rest : Str)
    (hv : isValue v = true) :
    tokenize_loop ⟨toks, ⟨.ATTR_NAME, a⟩⟩ ('=' :: '"' :: v ++ '"' :: rest)
      = tokenize_loop ⟨toks ++ attr_tokens (a, v), ⟨.ATTR_VAL, v⟩⟩ rest := by
  simp only [List.cons_append]
  rw [tokenize_loop_cons _ ⟨toks ++ [⟨.ATTR_NAME, a⟩], ⟨.ATTR_VAL, []⟩⟩ _ _
    (by simp [tokenize_step, isValidNameChar, isalnum, isalpha, isdigit])]
  rw [tokenize_loop_cons _
    ⟨toks ++ [⟨.ATTR_NAME, a⟩] ++ [⟨.LQUOTE, []⟩], ⟨.ATTR_VAL, []⟩⟩ _ _
    (by simp [tokenize_step, attr_val_step])]
  rw [tokenize_loop_value _ _ _ _ ((isValue_iff v).1 hv)]
  rw [tokenize_loop_cons _ ⟨toks ++ attr_tokens (a, v), ⟨.ATTR_VAL, v⟩⟩ _ _
    (by simp [tokenize_step, attr_val_step, attr_tokens])]

/-- The first attribute of a tag, read in state `TAG_NAME`. -/
theorem tokenize_loop_first_attr (toks : List TokenValuePair) (n a v rest : Str)
    (ha : isName a = true) (hv : isValue v = true) :
    tokenize_loop ⟨toks, ⟨.TAG_NAME, n⟩⟩ (render_attr (a, v) ++ rest)
      = tokenize_loop ⟨toks ++ ⟨.TAG_NAME, n⟩ :: attr_tokens (a, v), ⟨.ATTR_VAL, v⟩⟩ rest := by
  simp only [render_attr, List.cons_append, List.append_assoc]
  rw [tokenize_loop_cons _ ⟨toks ++ [⟨.TAG_NAME, n⟩], ⟨.ATTR_NAME, []⟩⟩ _ _
    (by simp [tokenize_step, isValidNameChar, isalnum, isalpha, isdigit, isspace])]
  rw [tokenize_loop_name .ATTR_NAME (by simp) _ _ _ _ (isName_chars a ha)]
  have := tokenize_loop_eq_value (toks ++ [⟨.TAG_NAME, n⟩]) a v rest hv
  simpa using this

/-- A further attribute, read after a closing quote. -/
theorem tokenize_loop_next_attr (toks : List TokenValuePair) (junk a v rest : Str)
    (ha : isName a = true) (hv : isValue v = true) :
    tokenize_loop ⟨toks ++ [⟨.RQUOTE, []⟩], ⟨.ATTR_VAL, junk⟩⟩ (render_attr (a, v) ++ rest)
      = tokenize_loop ⟨toks ++ ⟨.RQUOTE, []⟩ :: attr_tokens (a, v), ⟨.ATTR_VAL, v⟩⟩ rest := by
  obtain ⟨c, cs, rfl, hc, hcs⟩ := (isName_iff a).1 ha
  simp only [render_attr, List.cons_append, List.append_assoc]
  rw [tokenize_loop_cons _ ⟨toks ++ [⟨.RQUOTE, []⟩], ⟨.ATTR_VAL, junk ++ [' ']⟩⟩ _ _
    (by simp [tokenize_step, attr_val_step, isalpha])]
  have hq : c ≠ '"' := by rintro rfl; simp [isalpha] at hc
  have hg : c ≠ '>' := by rintro rfl; simp [isalpha] at hc
  rw [tokenize_loop_cons _ ⟨toks ++ [⟨.RQUOTE, []⟩], ⟨.ATTR_NAME, [c]⟩⟩ _ _
    (by simp [tokenize_step, attr_val_step, hc, hq, hg])]
  rw [tokenize_loop_name .ATTR_NAME (by simp) _ _ _ _ hcs]
  have := tokenize_loop_eq_value (toks ++ [⟨.RQUOTE, []⟩]) (c :: cs) v rest hv
  simpa using this

/-- The attributes after the first one, read after a closing quote: the state
stays "after a closing quote". -/
theorem tokenize_loop_attrs (attrs : List (Str × Str))
    (h : ∀ a ∈ attrs, isName a.1 = true ∧ isValue a.2 = true) :
    ∀ (toks : List TokenValuePair) (junk rest : Str),
    ∃ toks' junk', toks ++ ⟨.RQUOTE, []⟩ :: (attrs.map attr_tokens).flatten
        = toks' ++ [⟨.RQUOTE, []⟩] ∧
      tokenize_loop ⟨toks ++ [⟨.RQUOTE, []⟩], ⟨.ATTR_VAL, junk⟩⟩
          ((attrs.map render_attr).flatten ++ rest)
        = tokenize_loop ⟨toks' ++ [⟨.RQUOTE, []⟩], ⟨.ATTR_VAL, junk'⟩⟩ rest := by
  induction attrs with
  | nil => intro toks junk rest; exact ⟨toks, junk, by simp, by simp⟩
  | cons a as ih =>
    intro toks junk rest
    obtain ⟨an, av⟩ := a
    obtain ⟨ha, hv⟩ := h (an, av) (by simp)
    obtain ⟨toks', junk', h1, h2⟩ :=
      ih (fun x hx => h x (by simp [hx]))
        (toks ++ [⟨.RQUOTE, []⟩, ⟨.ATTR_NAME, an⟩, ⟨.LQUOTE, []⟩, ⟨.ATTR_VAL, av⟩]) av rest
    refine ⟨toks', junk', ?_, ?_⟩
    · rw [← h1]; simp [attr_tokens]
    · rw [← h2]
      simp only [List.map_cons, List.flatten_cons, List.append_assoc]
      rw [tokenize_loop_next_attr _ _ _ _ _ ha hv]
      simp [attr_tokens]

/-- A closing tag `</name>`, read in state `NONE`. -/
theorem tokenize_loop_closing (toks : List TokenValuePair) (n rest : Str)
    (hn : isName n = true) :
    tokenize_loop ⟨toks, ⟨.NONE, []⟩⟩ (render_tag (.closing n) ++ rest)
      = tokenize_loop ⟨toks ++ tag_tokens (.closing n), ⟨.NONE, []⟩⟩ rest := by
  simp only [render_tag, List.cons_append, List.append_assoc, List.nil_append,
    List.singleton_append]
  rw [tokenize_loop_cons _ ⟨toks ++ [⟨.OPEN_TAG, []⟩], ⟨.OPEN_TAG, []⟩⟩ _ _
    (by simp [tokenize_step])]
  rw [tokenize_loop_cons _ ⟨toks ++ [⟨.OPEN_TAG, []⟩], ⟨.END_TAG_SYMBOL, []⟩⟩ _ _
    (by simp [tokenize_step, isalpha])]
  rw [tokenize_loop_name .END_TAG_SYMBOL (by simp) _ _ _ _ (isName_chars n hn)]
  rw [tokenize_loop_cons _ ⟨toks ++ tag_tokens (.closing n), ⟨.NONE, []⟩⟩ _ _
    (by simp [tokenize_step, tag_tokens, isValidNameChar, isalnum, isalpha, isdigit])]

/-- An opening tag `<name a1="v1" ... ak="vk">`, read in state `NONE`. -/
theorem tokenize_loop_opening (toks : List TokenValuePair) (n : Str) (attrs : List (Str × Str))
    (rest : Str) (hn : isName n = true)
    (h : ∀ a ∈ attrs, isName a.1 = true ∧ isValue a.2 = true) :
    tokenize_loop ⟨toks, ⟨.NONE, []⟩⟩ (render_tag (.opening n attrs) ++ rest)
      = tokenize_loop ⟨toks ++ tag_tokens (.opening n attrs), ⟨.NONE, []⟩⟩ rest := by
  obtain ⟨c, cs, rfl, hc, hcs⟩ := (isName_iff n).1 hn
  simp only [render_tag, List.cons_append, List.append_assoc, List.nil_append,
    List.singleton_append]
  rw [tokenize_loop_cons _ ⟨toks ++ [⟨.OPEN_TAG, []⟩], ⟨.OPEN_TAG, []⟩⟩ _ _
    (by simp [tokenize_step])]
  rw [tokenize_loop_cons _ ⟨toks ++ [⟨.OPEN_TAG, []⟩], ⟨.TAG_NAME, [c]⟩⟩ _ _
    (by simp [tokenize_step, hc])]
  rw [tokenize_loop_name .TAG_NAME (by simp) _ _ _ _ hcs]
  cases attrs with
  | nil =>
    simp only [List.map_nil, List.flatten_nil, List.nil_append, List.singleton_append]
    rw [tokenize_loop_cons _ ⟨toks ++ tag_tokens (.opening (c :: cs) []), ⟨.NONE, []⟩⟩ _ _
      (by simp [tokenize_step, tag_tokens, isValidNameChar, isalnum, isalpha, isdigit, isspace])]
  | cons a as =>
    obtain ⟨an, av⟩ := a
    obtain ⟨ha, hv⟩ := h (an, av) (by simp)
    simp only [List.map_cons, List.flatten_cons, List.append_assoc]
    rw [tokenize_loop_first_attr _ _ _ _ _ ha hv]
    obtain ⟨toks', junk', h1, h2⟩ := tokenize_loop_attrs as (fun x hx => h x (by simp [hx]))
      (toks ++ [⟨.OPEN_TAG, []⟩, ⟨.TAG_NAME, c :: cs⟩, ⟨.ATTR_NAME, an⟩, ⟨.LQUOTE, []⟩,
        ⟨.ATTR_VAL, av⟩]) av ('>' :: rest)
    have e1 : toks ++ [⟨.OPEN_TAG, []⟩] ++ ⟨.TAG_NAME, [c] ++ cs⟩ :: attr_tokens (an, av)
        = (toks ++ [⟨.OPEN_TAG, []⟩, ⟨.TAG_NAME, c :: cs⟩, ⟨.ATTR_NAME, an⟩, ⟨.LQUOTE, []⟩,
          ⟨.ATTR_VAL, av⟩]) ++ [⟨.RQUOTE, []⟩] := by
      simp [attr_tokens]
    rw [e1, h2]
    rw [tokenize_loop_cons _ ⟨toks' ++ [⟨.RQUOTE, []⟩] ++ [⟨.CLOSE_TAG, []⟩], ⟨.NONE, []⟩⟩ _ _
      (by simp [tokenize_step, attr_val_step])]
    rw [← h1]
    simp [tag_tokens, attr_tokens]

theorem isTag_opening (n : Str) (attrs : List (Str × Str)) (h : isTag (.opening n attrs) = true) :
    isName n = true ∧ ∀ a ∈ attrs, isName a.1 = true ∧ isValue a.2 = true := by
  simpa [isTag] using h

/-- A list of canonical tags, read in state `NONE`. -/
theorem tokenize_loop_tags (tags : List Tag) (h : ∀ t ∈ tags, isTag t = true) :
    ∀ (toks : List TokenValuePair) (rest : Str),
    tokenize_loop ⟨toks, ⟨.NONE, []⟩⟩ (render_tags tags ++ rest)
      = tokenize_loop ⟨toks ++ tags_tokens tags, ⟨.NONE, []⟩⟩ rest := by
  induction tags with
  | nil => intro toks rest; simp [render_tags, tags_tokens]
  | cons t ts ih =>
    intro toks rest
    have ht := h t (by simp)
    have ih' := ih (fun x hx => h x (by simp [hx]))
    simp only [render_tags, tags_tokens, List.map_cons, List.flatten_cons, List.append_assoc]
    cases t with
    | opening n attrs =>
      obtain ⟨hn, ha⟩ := isTag_opening n attrs ht
      rw [tokenize_loop_opening _ _ _ _ hn ha]
      simpa [render_tags, tags_tokens] using ih' (toks ++ tag_tokens (.opening n attrs)) rest
    | closing n =>
      rw [tokenize_loop_closing _ _ _ (by simpa [isTag] using ht)]
      simpa [render_tags, tags_tokens] using ih' (toks ++ tag_tokens (.closing n)) rest

/-- The tokenizer on the canonical text of a list of tags. -/
theorem tokenize_render_tags (tags : List Tag) (h : ∀ t ∈ tags, isTag t = true) :
    tokenize_hrml_string (render_tags tags) = some (tags_tokens tags) := by
  have := tokenize_loop_tags tags h [] []
  simp only [List.append_nil, List.nil_append] at this
  simp [tokenize_hrml_string, TokState.init, this, tokenize_loop]

/-! ## The tree builder on serialized forests -/

theorem modifyLast_concat {α : Type} (f : α → α) (l : List α) (a : α) :
    modifyLast f (l ++ [a]) = l ++ [f a] := by
  induction l with
  | nil => rfl
  | cons x xs ih =>
    cases xs with
    | nil => rfl
    | cons y ys =>
      show x :: modifyLast f ((y :: ys) ++ [a]) = x :: ((y :: ys) ++ [f a])
      rw [ih]

theorem modifyLast_modifyLast {α : Type} (f g : α → α) (l : List α) :
    modifyLast g (modifyLast f l) = modifyLast (fun x => g (f x)) l := by
  rcases List.eq_nil_or_concat l with rfl | ⟨l', a, rfl⟩
  · rfl
  · simp [modifyLast_concat]

theorem modifyLast_id {α : Type} (f : α → α) (hf : ∀ x, f x = x) (l : List α) :
    modifyLast f l = l := by
  rcases List.eq_nil_or_concat l with rfl | ⟨l', a, rfl⟩
  · rfl
  · simp [modifyLast_concat, hf]

theorem attach_eq_modifyAt (d : Nat) (roots : List HrmlElement) (el : HrmlElement) :
    attach d roots el = modifyAt d (fun l => l ++ [el]) roots := by
  induction d generalizing roots with
  | zero => rfl
  | succ d ih =>
    simp only [attach, modifyAt]
    congr 1
    funext p
    rw [ih]

theorem modifyAt_comp (d : Nat) (f g : List HrmlElement → List HrmlElement)
    (l : List HrmlElement) :
    modifyAt d g (modifyAt d f l) = modifyAt d (fun x => g (f x)) l := by
  induction d generalizing l with
  | zero => rfl
  | succ d ih =>
    simp only [modifyAt, modifyLast_modifyLast]
    congr 1
    funext p
    simp [ih]

theorem modifyAt_id (d : Nat) (f : List HrmlElement → List HrmlElement) (hf : ∀ x, f x = x)
    (l : List HrmlElement) : modifyAt d f l = l := by
  induction d generalizing l with
  | zero => exact hf l
  | succ d ih =>
    simp only [modifyAt]
    exact modifyLast_id _ (fun p => by cases p; simp [ih]) l

theorem modifyAt_succ (d : Nat) (g : List HrmlElement → List HrmlElement)
    (l : List HrmlElement) :
    modifyAt (d + 1) g l
      = modifyAt d (modifyLast (fun p => { p with children := g p.children })) l := by
  induction d generalizing l with
  | zero => rfl
  | succ d ih =>
    rw [modifyAt]
    conv_rhs => rw [modifyAt]
    congr 1
    funext p
    rw [ih]

/-- Filling the children of the element that was attached last. -/
theorem modifyAt_succ_attach (d : Nat) (g : List HrmlElement → List HrmlElement)
    (e : HrmlElement) (l : List HrmlElement) :
    modifyAt (d + 1) g (modifyAt d (fun x => x ++ [e]) l)
      = modifyAt d (fun x => x ++ [{ e with children := g e.children }]) l := by
  rw [modifyAt_succ, modifyAt_comp]
  congr 1
  funext x
  rw [modifyLast_concat]

theorem hasChain_concat (d : Nat) (l : List HrmlElement) (p : HrmlElement) :
    hasChain (d + 1) (l ++ [p]) = hasChain d p.children := by
  simp [hasChain]

/-- Along the chain of open elements `attach` really appends the element, and
the chain then reaches the new element. -/
theorem hasChain_attach (el : HrmlElement) (d : Nat) :
    ∀ roots : List HrmlElement, hasChain d roots = true →
    hasChain (d + 1) (attach d roots el) = true ∧
      count_forest (attach d roots el) = count_forest roots + count_element el := by
  have happ : ∀ l l' : List HrmlElement,
      count_forest (l ++ l') = count_forest l + count_forest l' := by
    intro l l'
    induction l with
    | nil => simp [count_forest]
    | cons e es ih => simp [count_forest, ih, Nat.add_assoc]
  induction d with
  | zero =>
    intro roots _
    refine ⟨by simp [attach, hasChain], ?_⟩
    simp [attach, happ, count_forest]
  | succ d ih =>
    intro roots h
    rcases List.eq_nil_or_concat roots with rfl | ⟨l, p, rfl⟩
    · simp [hasChain] at h
    · rw [List.concat_eq_append] at h ⊢
      rw [hasChain_concat] at h
      obtain ⟨h1, h2⟩ := ih p.children h
      simp only [attach, modifyLast_concat, hasChain_concat]
      refine ⟨h1, ?_⟩
      obtain ⟨n, t, a, cs⟩ := p
      simp only [happ, count_forest, count_element, Nat.add_zero] at h2 ⊢
      omega

theorem hasChain_pred (d : Nat) : ∀ roots : List HrmlElement,
    hasChain (d + 1) roots = true → hasChain d roots = true := by
  induction d with
  | zero => intro roots _; rfl
  | succ d ih =>
    intro roots h
    rcases List.eq_nil_or_concat roots with rfl | ⟨l, p, rfl⟩
    · simp [hasChain] at h
    · rw [List.concat_eq_append] at h ⊢
      rw [hasChain_concat] at h ⊢
      exact ih p.children h

/-- The stack of the second loop always points along the last-child chain, so
no element is dropped: the forest holds one element per opener record read. -/
theorem nest_loop_chain (recs : List HrmlElement) :
    ∀ s s' : NestState, hasChain s.tagStack s.elements_p = true →
    nest_loop s recs = some s' →
    hasChain s'.tagStack s'.elements_p = true ∧
      count_forest s'.elements_p
        = count_forest s.elements_p + (recs.filter (fun r => !isCloser r)).foldr
            (fun r n => count_element r + n) 0 := by
  induction recs with
  | nil =>
    intro s s' h hs
    simp only [nest_loop, Option.some.injEq] at hs
    subst hs
    exact ⟨h, by simp⟩
  | cons r rs ih =>
    intro s s' h hs
    simp only [nest_loop] at hs
    cases hstep : nest_step s r with
    | none => simp [hstep] at hs
    | some s1 =>
      simp only [hstep] at hs
      simp only [nest_step] at hstep
      cases ho : isCloser r with
      | false =>
        simp only [ho, Bool.not_false, if_true, Option.some.injEq] at hstep
        subst hstep
        obtain ⟨h1, h2⟩ := hasChain_attach r s.tagStack s.elements_p h
        obtain ⟨h3, h4⟩ := ih _ s' h1 hs
        refine ⟨h3, ?_⟩
        simp only [h2] at h4
        simp only [List.filter_cons, ho, Bool.not_false, if_true, List.foldr_cons, h4]
        omega
      | true =>
        simp only [ho, Bool.not_true, Bool.false_eq_true, if_false] at hstep
        cases hd : s.tagStack with
        | zero => simp [hd] at hstep
        | succ d =>
          simp only [hd, Option.some.injEq] at hstep
          subst hstep
          rw [hd] at h
          obtain ⟨h3, h4⟩ := ih ⟨s.elements_p, d⟩ s' (hasChain_pred d _ h) hs
          refine ⟨h3, ?_⟩
          simp only [List.filter_cons, ho, Bool.not_true, Bool.false_eq_true, if_false, h4]

theorem assign_fresh (m : AttrMap) (k v : Str) (hk : k ∉ m.map Prod.fst) :
    m.assign k v = m ++ [(k, v)] := by
  induction m with
  | nil => rfl
  | cons kv rest ih =>
    obtain ⟨k', v'⟩ := kv
    simp only [List.map_cons, List.mem_cons, not_or] at hk
    have h : ¬ k' = k := fun e => hk.1 e.symm
    simp [AttrMap.assign, h, ih hk.2]

/-- Assigning attributes with distinct fresh names appends them in order. -/
theorem assign_all_nodup (attrs : List (Str × Str)) :
    ∀ m : AttrMap, (m.map Prod.fst ++ attrs.map Prod.fst).Nodup → assign_all m attrs = m ++ attrs := by
  induction attrs with
  | nil => intro m _; simp [assign_all]
  | cons a as ih =>
    intro m h
    obtain ⟨k, v⟩ := a
    have hk : k ∉ m.map Prod.fst := by
      intro hmem
      have := (List.nodup_append.1 h).2.2
      exact this hmem (by simp)
    have h' : ((m ++ [(k, v)]).map Prod.fst ++ as.map Prod.fst).Nodup := by
      simpa using h
    have := ih (m ++ [(k, v)]) h'
    simp only [assign_all, List.foldl_cons] at this ⊢
    rw [assign_fresh m k v hk, this]
    simp

theorem foldl_flatten_attrs (attrs : List (Str × Str)) :
    ∀ (cur : HrmlElement) (ca : Str) (recs : List HrmlElement),
    ∃ ca', (attrs.map attr_tokens).flatten.foldl flatten_step ⟨cur, ca, recs⟩
      = ⟨{ cur with attributes := assign_all cur.attributes attrs }, ca', recs⟩ := by
  induction attrs with
  | nil => intro cur ca recs; exact ⟨ca, by cases cur; rfl⟩
  | cons a as ih =>
    intro cur ca recs
    obtain ⟨ca', h⟩ := ih { cur with attributes := cur.attributes.assign a.1 a.2 } [] recs
    refine ⟨ca', ?_⟩
    simp only [List.map_cons, List.flatten_cons, List.foldl_append]
    simpa [attr_tokens, flatten_step, assign_all] using h

/-- The first loop of the builder turns the tokens of a tag into its record. -/
theorem foldl_flatten_tag (t : Tag) (ca : Str) (recs : List HrmlElement) :
    ∃ ca', (tag_tokens t).foldl flatten_step ⟨HrmlElement.empty, ca, recs⟩
      = ⟨HrmlElement.empty, ca', recs ++ [tag_record t]⟩ := by
  cases t with
  | opening n attrs =>
    obtain ⟨ca', h⟩ := foldl_flatten_attrs attrs ⟨n, [], [], []⟩ ca recs
    refine ⟨ca', ?_⟩
    simp only [tag_tokens, List.foldl_cons, List.foldl_append, List.foldl_nil]
    simp only [flatten_step, HrmlElement.empty]
    rw [h]
    simp [tag_record]
  | closing n => exact ⟨ca, rfl⟩

theorem foldl_flatten_tags (tags : List Tag) :
    ∀ (ca : Str) (recs : List HrmlElement),
    ∃ ca', (tags_tokens tags).foldl flatten_step ⟨HrmlElement.empty, ca, recs⟩
      = ⟨HrmlElement.empty, ca', recs ++ tags.map tag_record⟩ := by
  induction tags with
  | nil => intro ca recs; exact ⟨ca, by simp [tags_tokens]⟩
  | cons t ts ih =>
    intro ca recs
    obtain ⟨ca1, h1⟩ := foldl_flatten_tag t ca recs
    obtain ⟨ca2, h2⟩ := ih ca1 (recs ++ [tag_record t])
    refine ⟨ca2, ?_⟩
    simp only [tags_tokens, List.map_cons, List.flatten_cons, List.foldl_append] at h2 ⊢
    rw [h1, h2]
    simp

theorem flatten_tags_tokens (tags : List Tag) :
    flatten (tags_tokens tags) = tags.map tag_record := by
  obtain ⟨ca, h⟩ := foldl_flatten_tags tags [] []
  simp [flatten, FlatState.init, h]

theorem nest_loop_append (s : NestState) (a b : List HrmlElement) :
    nest_loop s (a ++ b) = (nest_loop s a).bind (fun s' => nest_loop s' b) := by
  induction a generalizing s with
  | nil => simp [nest_loop]
  | cons e es ih =>
    simp only [List.cons_append, nest_loop]
    cases nest_step s e with
    | none => rfl
    | some s' => exact ih s'

mutual
/-- The second loop of the builder over the records of an element: the element
is appended where the stack points, and the stack is back at its size. -/
theorem nest_loop_element : ∀ (e : HrmlElement), isOpenElement e = true →
    ∀ (roots : List HrmlElement) (d : Nat),
    nest_loop ⟨roots, d⟩ ((element_tags e).map tag_record)
      = some ⟨modifyAt d (fun l => l ++ [built_element e]) roots, d⟩
  | ⟨n, t, attrs, cs⟩, he, roots, d => by
    simp only [isOpenElement, Bool.and_eq_true, bne_iff_ne, ne_eq] at he
    obtain ⟨hn, hcs⟩ := he
    have ih := nest_loop_forest cs hcs
    have hopen : isCloser ⟨n, [], assign_all [] attrs, []⟩ = false := by
      simpa [isCloser] using hn
    have hclose : isCloser ⟨'/' :: n, [], [], []⟩ = true := by
      simp [isCloser]
    simp only [element_tags, List.map_cons, List.map_append, List.map_nil, tag_record]
    rw [nest_loop, nest_step]
    simp only [hopen, Bool.not_false, if_true, attach_eq_modifyAt]
    rw [nest_loop_append, ih, Option.some_bind, modifyAt_succ_attach]
    simp [nest_loop, nest_step, hclose, built_element]
/-- The second loop of the builder over the records of a forest. -/
theorem nest_loop_forest : ∀ (forest : List HrmlElement), isOpenForest forest = true →
    ∀ (roots : List HrmlElement) (d : Nat),
    nest_loop ⟨roots, d⟩ ((forest_tags forest).map tag_record)
      = some ⟨modifyAt d (fun l => l ++ built_forest forest) roots, d⟩
  | [], _, roots, d => by
    simp [forest_tags, nest_loop, modifyAt_id, built_forest]
  | e :: es, h, roots, d => by
    simp only [isOpenForest, Bool.and_eq_true] at h
    have h1 := nest_loop_element e h.1 roots d
    have h2 := nest_loop_forest es h.2 (modifyAt d (fun l => l ++ [built_element e]) roots) d
    simp only [forest_tags, List.map_append]
    rw [nest_loop_append, h1, Option.some_bind, h2, modifyAt_comp]
    simp [built_forest]
end

/-- The builder on the token sequence of a serialized forest of tags. -/
theorem parse_forest_tokens_built (forest : List HrmlElement) (h : isOpenForest forest = true) :
    parse_hrml_tokens (forest_tokens forest) = some (built_forest forest) := by
  simp [parse_hrml_tokens, forest_tokens, flatten_tags_tokens, nest_loop_forest forest h, modifyAt]

mutual
theorem built_element_eq : ∀ (e : HrmlElement), isElement e = true → built_element e = e
  | ⟨n, t, attrs, cs⟩, he => by
    simp only [isElement, Bool.and_eq_true, bne_iff_ne, ne_eq, List.isEmpty_iff,
      decide_eq_true_eq] at he
    obtain ⟨⟨⟨_, ht⟩, ha⟩, hcs⟩ := he
    subst ht
    have hattrs : assign_all [] attrs = attrs := by
      simpa using assign_all_nodup attrs [] (by simpa using ha)
    simp [built_element, hattrs, built_forest_eq cs hcs]
theorem built_forest_eq : ∀ (forest : List HrmlElement), isForest forest = true →
    built_forest forest = forest
  | [], _ => rfl
  | e :: es, h => by
    simp only [isForest, Bool.and_eq_true] at h
    simp [built_forest, built_element_eq e h.1, built_forest_eq es h.2]
end

mutual
theorem isElement_open : ∀ (e : HrmlElement), isElement e = true → isOpenElement e = true
  | ⟨n, t, attrs, cs⟩, he => by
    simp only [isElement, Bool.and_eq_true] at he
    simp only [isOpenElement, Bool.and_eq_true]
    exact ⟨he.1.1.1, isForest_open cs he.2⟩
theorem isForest_open : ∀ (forest : List HrmlElement), isForest forest = true →
    isOpenForest forest = true
  | [], _ => rfl
  | e :: es, h => by
    simp only [isForest, Bool.and_eq_true] at h
    simp [isOpenForest, isElement_open e h.1, isForest_open es h.2]
end

/-- The builder on the token sequence of a serialized forest returns the forest. -/
theorem parse_forest_tokens (forest : List HrmlElement) (h : isForest forest = true) :
    parse_hrml_tokens (forest_tokens forest) = some forest := by
  rw [parse_forest_tokens_built forest (isForest_open forest h), built_forest_eq forest h]

theorem isName_head (n : Str) (h : isName n = true) : n.headD (Char.ofNat 0) ≠ '/' := by
  obtain ⟨c, cs, rfl, hc, _⟩ := (isName_iff n).1 h
  rintro h'
  simp only [List.headD_cons] at h'
  subst h'
  simp [isalpha] at hc

mutual
theorem isDocElement_element : ∀ (e : HrmlElement), isDocElement e = true → isElement e = true
  | ⟨n, t, attrs, cs⟩, he => by
    simp only [isDocElement, Bool.and_eq_true] at he
    obtain ⟨⟨⟨⟨hn, ht⟩, _⟩, ha⟩, hcs⟩ := he
    simp only [isElement, Bool.and_eq_true, bne_iff_ne, ne_eq]
    exact ⟨⟨⟨isName_head n hn, ht⟩, ha⟩, isDocument_forest cs hcs⟩
theorem isDocument_forest : ∀ (forest : List HrmlElement), isDocument forest = true →
    isForest forest = true
  | [], _ => rfl
  | e :: es, h => by
    simp only [isDocument, Bool.and_eq_true] at h
    simp [isForest, isDocElement_element e h.1, isDocument_forest es h.2]
end

mutual
theorem isDocElement_tags : ∀ (e : HrmlElement), isDocElement e = true →
    ∀ t ∈ element_tags e, isTag t = true
  | ⟨n, t, attrs, cs⟩, he => by
    simp only [isDocElement, Bool.and_eq_true] at he
    obtain ⟨⟨⟨⟨hn, _⟩, hattrs⟩, _⟩, hcs⟩ := he
    have ih := isDocument_tags cs hcs
    intro x hx
    simp only [element_tags, List.mem_cons, List.mem_append, List.mem_singleton,
      List.not_mem_nil, or_false] at hx
    rcases hx with rfl | hx | rfl
    · simp [isTag, hn, hattrs]
    · exact ih x hx
    · simpa [isTag] using hn
theorem isDocument_tags : ∀ (forest : List HrmlElement), isDocument forest = true →
    ∀ t ∈ forest_tags forest, isTag t = true
  | [], _ => by simp [forest_tags]
  | e :: es, h => by
    simp only [isDocument, Bool.and_eq_true] at h
    intro x hx
    simp only [forest_tags, List.mem_append] at hx
    rcases hx with hx | hx
    · exact isDocElement_tags e h.1 x hx
    · exact isDocument_tags es h.2 x hx
end

/-- Tokenizing and building a well-formed document gives back its forest. -/
theorem parse_tokenize_document (forest : List HrmlElement) (h : isDocument forest = true) :
    tokenize_hrml_string (forest_text forest) = some (forest_tokens forest) ∧
      parse_hrml_tokens (forest_tokens forest) = some forest :=
  ⟨tokenize_render_tags _ (isDocument_tags forest h),
    parse_forest_tokens forest (isDocument_forest forest h)⟩

mutual
theorem count_element_tags : ∀ (e : HrmlElement),
    (element_tags e).countP Tag.isOpening = count_element e
  | ⟨n, t, attrs, cs⟩ => by
    simp [element_tags, count_element, List.countP_cons, List.countP_append, Tag.isOpening,
      count_forest_tags cs]
    omega
theorem count_forest_tags : ∀ (forest : List HrmlElement),
    (forest_tags forest).countP Tag.isOpening = count_forest forest
  | [] => rfl
  | e :: es => by
    simp [forest_tags, count_forest, List.countP_append, count_element_tags e,
      count_forest_tags es]
end

/-! ## Reading the tags back from the tokens -/

theorem attrs_tokens_cancel (attrs : List (Str × Str)) :
    ∀ (attrs' : List (Str × Str)) (r r' : List TokenValuePair),
    (attrs.map attr_tokens).flatten ++ ⟨.CLOSE_TAG, []⟩ :: r
      = (attrs'.map attr_tokens).flatten ++ ⟨.CLOSE_TAG, []⟩ :: r' →
    attrs = attrs' ∧ r = r' := by
  induction attrs with
  | nil =>
    intro attrs' r r' h
    cases attrs' with
    | nil => simpa using h
    | cons a as => simp [attr_tokens] at h
  | cons a as ih =>
    intro attrs' r r' h
    cases attrs' with
    | nil => simp [attr_tokens] at h
    | cons b bs =>
      simp only [List.map_cons, List.flatten_cons, attr_tokens, List.cons_append,
        List.nil_append, List.cons.injEq, TokenValuePair.mk.injEq, true_and, and_true] at h
      obtain ⟨h1, h2, h3⟩ := h
      obtain ⟨e1, e2⟩ := ih bs r r' h3
      exact ⟨by rw [Prod.ext h1 h2, e1], e2⟩

theorem tag_tokens_cancel (t t' : Tag) (r r' : List TokenValuePair)
    (h : tag_tokens t ++ r = tag_tokens t' ++ r') : t = t' ∧ r = r' := by
  cases t with
  | opening n attrs =>
    cases t' with
    | opening n' attrs' =>
      simp only [tag_tokens, List.cons_append, List.append_assoc, List.singleton_append,
        List.cons.injEq, TokenValuePair.mk.injEq, true_and] at h
      obtain ⟨h1, h2⟩ := h
      obtain ⟨e1, e2⟩ := attrs_tokens_cancel attrs attrs' r r' h2
      exact ⟨by rw [h1, e1], e2⟩
    | closing n' => simp [tag_tokens] at h
  | closing n =>
    cases t' with
    | opening n' attrs' => simp [tag_tokens] at h
    | closing n' =>
      simp only [tag_tokens, List.cons_append, List.nil_append, List.cons.injEq,
        TokenValuePair.mk.injEq, true_and] at h
      exact ⟨by rw [h.1], h.2⟩

theorem tag_tokens_ne_nil (t : Tag) (r : List TokenValuePair) : tag_tokens t ++ r ≠ [] := by
  cases t <;> simp [tag_tokens]

/-- The token sequence of a list of tags determines the list. -/
theorem tags_tokens_injective (tags : List Tag) :
    ∀ tags' : List Tag, tags_tokens tags' = tags_tokens tags → tags' = tags := by
  induction tags with
  | nil =>
    intro tags' h
    cases tags' with
    | nil => rfl
    | cons t ts =>
      simp only [tags_tokens, List.map_cons, List.flatten_cons, List.map_nil,
        List.flatten_nil] at h
      exact absurd h (tag_tokens_ne_nil t _)
  | cons t ts ih =>
    intro tags' h
    cases tags' with
    | nil =>
      simp only [tags_tokens, List.map_cons, List.flatten_cons, List.map_nil,
        List.flatten_nil] at h
      exact absurd h.symm (tag_tokens_ne_nil t _)
    | cons t' ts' =>
      simp only [tags_tokens, List.map_cons, List.flatten_cons] at h
      obtain ⟨e1, e2⟩ := tag_tokens_cancel t' t _ _ h
      rw [e1, ih ts' e2]

/-! ## First match, and the attribute mapping -/

theorem find_first (pre post : List HrmlElement) (e : HrmlElement) (t : Str)
    (hpre : ∀ x ∈ pre, x.tagName ≠ t) (he : e.tagName = t) :
    (pre ++ e :: post).find? (fun x => x.tagName = t) = some e := by
  induction pre with
  | nil => simp [he]
  | cons x xs ih =>
    have hx : x.tagName ≠ t := hpre x (by simp)
    simpa [hx] using ih (fun y hy => hpre y (by simp [hy]))

/-- The reference walk only looks at the first element with the segment's name. -/
theorem spec_walk_first (pre post : List HrmlElement) (e : HrmlElement) (t : Str)
    (names : List Str) (hpre : ∀ x ∈ pre, x.tagName ≠ t) (he : e.tagName = t) :
    spec_walk (pre ++ e :: post) (t :: names) = spec_walk [e] (t :: names) := by
  have h1 := find_first pre post e t hpre he
  have h2 := find_first [] [] e t (by simp) he
  simp only [List.nil_append] at h2
  cases names with
  | nil => simp only [spec_walk, h1, h2]
  | cons u us => simp only [spec_walk, h1, h2]

/-- Continuing the reference walk from the element reached so far. -/
theorem spec_walk_append : ∀ (pfx : List Str) (forest : List HrmlElement) (p : HrmlElement)
    (t : Str) (names : List Str), spec_walk forest pfx = some p →
    spec_walk forest (pfx ++ t :: names) = spec_walk p.children (t :: names)
  | [], forest, p, t, names, h => by simp [spec_walk] at h
  | [u], forest, p, t, names, h => by
    simp only [spec_walk] at h
    simp only [List.singleton_append, spec_walk, h]
  | u :: u' :: us, forest, p, t, names, h => by
    simp only [spec_walk] at h
    simp only [List.cons_append, spec_walk]
    cases hf : forest.find? (fun e => e.tagName = u) with
    | none => simp [hf] at h
    | some r =>
      simp only [hf] at h ⊢
      exact spec_walk_append (u' :: us) r.children p t names h

theorem find_assign (m : AttrMap) (k v k' : Str) :
    (m.assign k v).find k' = if k = k' then some v else m.find k' := by
  induction m with
  | nil => simp [AttrMap.assign, AttrMap.find]
  | cons kv rest ih =>
    obtain ⟨k0, v0⟩ := kv
    by_cases h0 : k0 = k
    · subst h0
      by_cases h1 : k0 = k' <;> simp [AttrMap.assign, AttrMap.find, h1]
    · by_cases h1 : k0 = k'
      · subst h1
        have : ¬ k = k0 := fun e => h0 e.symm
        simp [AttrMap.assign, AttrMap.find, h0, this]
      · simp [AttrMap.assign, AttrMap.find, h0, h1, ih]

theorem find_append (m m' : AttrMap) (k : Str) :
    AttrMap.find (m ++ m') k = (match m.find k with
      | some v => some v
      | none => m'.find k) := by
  induction m with
  | nil => simp [AttrMap.find]
  | cons kv rest ih =>
    obtain ⟨k0, v0⟩ := kv
    by_cases h0 : k0 = k
    · simp [AttrMap.find, h0]
    · simpa [AttrMap.find, h0] using ih

/-- After the assignments the value found for a name is that of its last
occurrence in the list, else the value it had before. -/
theorem find_assign_all (attrs : List (Str × Str)) :
    ∀ (m : AttrMap) (k : Str), (assign_all m attrs).find k = (match AttrMap.find attrs.reverse k with
      | some v => some v
      | none => m.find k) := by
  induction attrs with
  | nil => intro m k; simp [assign_all, AttrMap.find]
  | cons a as ih =>
    intro m k
    obtain ⟨k0, v0⟩ := a
    have h := ih (m.assign k0 v0) k
    simp only [assign_all, List.foldl_cons] at h ⊢
    rw [h, List.reverse_cons, find_append, find_assign]
    cases AttrMap.find as.reverse k with
    | some v => rfl
    | none =>
      by_cases h0 : k0 = k <;> simp [AttrMap.find, h0]

theorem keys_assign (m : AttrMap) (k v : Str) :
    (m.assign k v).map Prod.fst = if k ∈ m.map Prod.fst then m.map Prod.fst
      else m.map Prod.fst ++ [k] := by
  induction m with
  | nil => simp [AttrMap.assign]
  | cons kv rest ih =>
    obtain ⟨k0, v0⟩ := kv
    by_cases h0 : k0 = k
    · subst h0
      simp [AttrMap.assign]
    · have h0' : ¬ k = k0 := fun e => h0 e.symm
      by_cases hk : k ∈ rest.map Prod.fst
      · simp only [AttrMap.assign, h0, if_false, List.map_cons, ih, hk, if_true, List.mem_cons,
          or_true]
      · simp only [AttrMap.assign, h0, if_false, List.map_cons, ih, hk, List.mem_cons, h0',
          or_self, List.cons_append]

theorem keys_assign_all (attrs : List (Str × Str)) :
    ∀ m : AttrMap, (m.map Prod.fst).Nodup →
    ((assign_all m attrs).map Prod.fst).Nodup ∧
      ∀ k, k ∈ (assign_all m attrs).map Prod.fst ↔ k ∈ m.map Prod.fst ∨ k ∈ attrs.map Prod.fst := by
  induction attrs with
  | nil => intro m hm; simpa [assign_all] using hm
  | cons a as ih =>
    intro m hm
    obtain ⟨k0, v0⟩ := a
    have hnd : ((m.assign k0 v0).map Prod.fst).Nodup := by
      rw [keys_assign]
      split
      · exact hm
      · rename_i hk
        exact List.nodup_append.2 ⟨hm, by simp, by
          intro x hx hx'
          simp only [List.mem_singleton] at hx'
          subst hx'
          exact hk hx⟩
    obtain ⟨h1, h2⟩ := ih (m.assign k0 v0) hnd
    simp only [assign_all, List.foldl_cons] at h1 h2 ⊢
    refine ⟨h1, fun k => ?_⟩
    rw [h2 k, keys_assign]
    split
    · rename_i hk
      simp only [List.map_cons, List.mem_cons]
      constructor
      · rintro (h | h)
        · exact Or.inl h
        · exact Or.inr (Or.inr h)
      · rintro (h | h | h)
        · exact Or.inl h
        · subst h; exact Or.inl hk
        · exact Or.inr h
    · simp only [List.mem_append, List.mem_singleton, List.map_cons, List.mem_cons]
      tauto

/-! ## The tag names of the final tree -/

theorem isName_snoc (v : Str) (c : Char) (hv : isName v = true) (hc : isValidNameChar c = true) :
    isName (v ++ [c]) = true := by
  obtain ⟨x, xs, rfl, hx, hxs⟩ := (isName_iff v).1 hv
  simp only [List.cons_append, isName, Bool.and_eq_true, List.all_eq_true, hx, true_and]
  intro y hy
  rcases List.mem_append.1 hy with hy | hy
  · exact hxs y hy
  · simp only [List.mem_singleton] at hy
    subst hy
    exact hc

theorem flat_state_append (toks more : List TokenValuePair) :
    flat_state (toks ++ more) = more.foldl flatten_step (flat_state toks) := by
  simp [flat_state, List.foldl_append]

theorem flatten_eq_flat_state (toks : List TokenValuePair) :
    flatten toks = (flat_state toks).nonTreedElements := rfl

theorem isRecord_closer (e : HrmlElement) (v : Str) (h : e.children = []) :
    isRecord { e with tagName := '/' :: v } = true := by
  simp [isRecord, isCloser, h]

theorem isRecord_name (e : HrmlElement) (h : e.children = []) (hn : isName e.tagName = true) :
    isRecord e = true := by
  simp [isRecord, h, hn]

/-- Every step of the tokenizer is defined and keeps the invariant. -/
theorem TokInv_step (st : TokState) (c : Char) (h : TokInv st) :
    ∃ st', tokenize_step st c = some st' ∧ TokInv st' := by
  obtain ⟨toks, ⟨k, v⟩⟩ := st
  obtain ⟨hrec, hch, hk⟩ := h
  simp only at hrec hch hk
  cases k with
  | NONE =>
    simp only [tokenize_step]
    split
    · exact ⟨_, rfl, by simpa [TokInv, flat_state_append, flatten_step] using ⟨hrec, hch⟩⟩
    · exact ⟨_, rfl, hrec, hch, trivial⟩
  | OPEN_TAG =>
    simp only [tokenize_step]
    split
    · rename_i hc
      exact ⟨_, rfl, hrec, hch, by simp [isName, hc]⟩
    · split
      · exact ⟨_, rfl, hrec, hch, trivial⟩
      · exact ⟨_, rfl, hrec, hch, trivial⟩
  | END_TAG_SYMBOL =>
    simp only [tokenize_step]
    split
    · exact ⟨_, rfl, hrec, hch, trivial⟩
    · split
      · refine ⟨_, rfl, ?_, ?_, trivial⟩
        · intro r hr
          simp only [List.append_assoc, List.singleton_append, flat_state_append,
            List.foldl_cons, List.foldl_nil, flatten_step, List.mem_append,
            List.mem_singleton] at hr
          rcases hr with hr | hr
          · exact hrec r hr
          · subst hr
            exact isRecord_closer _ _ hch
        · simp [flat_state_append, flatten_step, HrmlElement.empty]
      · exact ⟨_, rfl, hrec, hch, trivial⟩
  | TAG_NAME =>
    simp only [tokenize_step]
    split
    · rename_i hc
      exact ⟨_, rfl, hrec, hch, isName_snoc v c hk hc⟩
    · split
      · refine ⟨_, rfl, ?_, ?_, ?_⟩
        · simpa [flat_state_append, flatten_step] using hrec
        · simpa [flat_state_append, flatten_step] using hch
        · simpa [flat_state_append, flatten_step] using hk
      · split
        · refine ⟨_, rfl, ?_, ?_, trivial⟩
          · intro r hr
            simp only [List.append_assoc, List.singleton_append, flat_state_append,
              List.foldl_cons, List.foldl_nil, flatten_step, List.mem_append,
              List.mem_singleton] at hr
            rcases hr with hr | hr
            · exact hrec r hr
            · subst hr
              exact isRecord_name _ hch hk
          · simp [flat_state_append, flatten_step, HrmlElement.empty]
        · exact ⟨_, rfl, hrec, hch, hk⟩
  | ATTR_NAME =>
    simp only [tokenize_step]
    split
    · exact ⟨_, rfl, hrec, hch, hk⟩
    · split
      · refine ⟨_, rfl, ?_, ?_, ?_⟩
        · simpa [flat_state_append, flatten_step] using hrec
        · simpa [flat_state_append, flatten_step] using hch
        · simpa [flat_state_append, flatten_step] using hk
      · split
        · refine ⟨_, rfl, ?_, ?_, trivial⟩
          · intro r hr
            simp only [flat_state_append, List.foldl_cons, List.foldl_nil, flatten_step,
              List.mem_append, List.mem_singleton] at hr
            rcases hr with hr | hr
            · exact hrec r hr
            · subst hr
              exact isRecord_name _ hch hk
          · simp [flat_state_append, flatten_step, HrmlElement.empty]
        · exact ⟨_, rfl, hrec, hch, hk⟩
  | ATTR_VAL =>
    obtain ⟨hname, hne⟩ := hk
    obtain ⟨last, hlast⟩ : ∃ last, toks.getLast? = some last := by
      cases hl : toks.getLast? with
      | none => exact absurd (List.getLast?_eq_none_iff.1 hl) hne
      | some last => exact ⟨last, rfl⟩
    simp only [tokenize_step, hlast]
    refine ⟨_, rfl, ?_⟩
    simp only [attr_val_step]
    split
    · split
      · refine ⟨?_, ?_, ?_, ?_⟩
        · simpa [flat_state_append, flatten_step] using hrec
        · simpa [flat_state_append, flatten_step] using hch
        · simpa [flat_state_append, flatten_step] using hname
        · simp
      · refine ⟨?_, ?_, ?_, ?_⟩
        · simpa [flat_state_append, flatten_step] using hrec
        · simpa [flat_state_append, flatten_step] using hch
        · simpa [flat_state_append, flatten_step] using hname
        · simp
    · split
      · refine ⟨?_, ?_, trivial⟩
        · intro r hr
          simp only [flat_state_append, List.foldl_cons, List.foldl_nil, flatten_step,
            List.mem_append, List.mem_singleton] at hr
          rcases hr with hr | hr
          · exact hrec r hr
          · subst hr
            exact isRecord_name _ hch hname
        · simp [flat_state_append, flatten_step, HrmlElement.empty]
      · split
        · exact ⟨hrec, hch, hname⟩
        · split
          · exact ⟨hrec, hch, hname, hne⟩
          · exact ⟨hrec, hch, hname, hne⟩
  | CLOSE_TAG => exact ⟨_, rfl, hrec, hch, trivial⟩
  | LQUOTE => exact ⟨_, rfl, hrec, hch, trivial⟩
  | RQUOTE => exact ⟨_, rfl, hrec, hch, trivial⟩

theorem TokInv_loop (cs : List Char) : ∀ st : TokState, TokInv st →
    ∃ st', tokenize_loop st cs = some st' ∧ TokInv st' := by
  induction cs with
  | nil => intro st h; exact ⟨st, rfl, h⟩
  | cons c cs ih =>
    intro st h
    obtain ⟨st1, h1, hinv1⟩ := TokInv_step st c h
    obtain ⟨st2, h2, hinv2⟩ := ih st1 hinv1
    exact ⟨st2, by simp [tokenize_loop, h1, h2], hinv2⟩

theorem TokInv_init : TokInv TokState.init :=
  ⟨by simp [TokState.init, flat_state, FlatState.init], rfl, trivial⟩

/-- The tokenizer returns on every text, and the builder makes records of its
tokens that are closers or openers with a name. -/
theorem tokenize_records (text : Str) :
    ∃ toks, tokenize_hrml_string text = some toks ∧ ∀ r ∈ flatten toks, isRecord r = true := by
  obtain ⟨st, h, hinv⟩ := TokInv_loop text TokState.init TokInv_init
  exact ⟨st.tokens, by simp [tokenize_hrml_string, h], hinv.1⟩

theorem allNames_append (l l' : List HrmlElement) :
    allNames (l ++ l') = (allNames l && allNames l') := by
  induction l with
  | nil => simp [allNames]
  | cons e es ih => simp [allNames, ih, Bool.and_assoc]

theorem allNames_modifyLast (f : HrmlElement → HrmlElement)
    (hf : ∀ p, allNamesElement p = true → allNamesElement (f p) = true)
    (l : List HrmlElement) (h : allNames l = true) : allNames (modifyLast f l) = true := by
  rcases List.eq_nil_or_concat l with rfl | ⟨l', a, rfl⟩
  · rfl
  · rw [List.concat_eq_append] at h ⊢
    rw [modifyLast_concat]
    simp only [allNames_append, allNames, Bool.and_true, Bool.and_eq_true] at h ⊢
    exact ⟨h.1, hf a h.2⟩

theorem allNames_attach (el : HrmlElement) (hel : allNamesElement el = true) (d : Nat) :
    ∀ roots : List HrmlElement, allNames roots = true → allNames (attach d roots el) = true := by
  induction d with
  | zero =>
    intro roots h
    simp [attach, allNames_append, allNames, h, hel]
  | succ d ih =>
    intro roots h
    refine allNames_modifyLast _ (fun p hp => ?_) roots h
    obtain ⟨n, t, a, cs⟩ := p
    simp only [allNamesElement, Bool.and_eq_true] at hp ⊢
    exact ⟨hp.1, ih cs hp.2⟩

theorem isRecord_opener (r : HrmlElement) (hr : isRecord r = true) (ho : isCloser r = false) :
    allNamesElement r = true := by
  obtain ⟨n, t, a, cs⟩ := r
  simp only [isRecord, Bool.and_eq_true, List.isEmpty_iff, ho, Bool.false_or] at hr
  obtain ⟨hcs, hn⟩ := hr
  subst hcs
  simp [allNamesElement, hn, allNames]

/-- The second loop of the builder keeps the tag names of the forest names. -/
theorem nest_loop_allNames (recs : List HrmlElement) (hrecs : ∀ r ∈ recs, isRecord r = true) :
    ∀ s s' : NestState, allNames s.elements_p = true → nest_loop s recs = some s' →
    allNames s'.elements_p = true := by
  induction recs with
  | nil =>
    intro s s' h hs
    simp only [nest_loop, Option.some.injEq] at hs
    subst hs
    exact h
  | cons r rs ih =>
    intro s s' h hs
    have hr := hrecs r (by simp)
    have ih' := ih (fun x hx => hrecs x (by simp [hx]))
    simp only [nest_loop] at hs
    cases hstep : nest_step s r with
    | none => simp [hstep] at hs
    | some s1 =>
      simp only [hstep] at hs
      refine ih' s1 s' ?_ hs
      simp only [nest_step] at hstep
      cases ho : isCloser r with
      | false =>
        simp only [ho, Bool.not_false, if_true, Option.some.injEq] at hstep
        subst hstep
        exact allNames_attach r (isRecord_opener r hr ho) _ _ h
      | true =>
        simp only [ho, Bool.not_true, Bool.false_eq_true, if_false] at hstep
        cases hd : s.tagStack with
        | zero => simp [hd] at hstep
        | succ d =>
          simp only [hd, Option.some.injEq] at hstep
          subst hstep
          exact h

mutual
theorem allNamesElement_open : ∀ e : HrmlElement, allNamesElement e = true →
    isOpenElement e = true
  | ⟨n, t, a, cs⟩, h => by
    simp only [allNamesElement, Bool.and_eq_true] at h
    simp only [isOpenElement, Bool.and_eq_true, bne_iff_ne, ne_eq]
    exact ⟨isName_head n h.1, allNames_open cs h.2⟩
theorem allNames_open : ∀ forest : List HrmlElement, allNames forest = true →
    isOpenForest forest = true
  | [], _ => rfl
  | e :: es, h => by
    simp only [allNames, Bool.and_eq_true] at h
    simp [isOpenForest, allNamesElement_open e h.1, allNames_open es h.2]
end

/-! ## Closers: their names, and the empty stack -/

theorem sameRecord_refl (e : HrmlElement) : SameRecord e e :=
  ⟨rfl, rfl, rfl, Or.inl rfl⟩

theorem sameFlat_refl (s : FlatState) : SameFlat s s :=
  ⟨sameRecord_refl _, rfl, List.forall₂_same.2 (fun e _ => sameRecord_refl e)⟩

theorem SameFlat_step (s s' : FlatState) (tok : TokenValuePair) (h : SameFlat s s') :
    SameFlat (flatten_step s tok) (flatten_step s' tok) := by
  obtain ⟨⟨h1, h2, h3, h4⟩, hca, hrecs⟩ := h
  obtain ⟨k, v⟩ := tok
  cases k
  case OPEN_TAG => exact ⟨⟨h1, h2, h3, h4⟩, hca, hrecs⟩
  case LQUOTE => exact ⟨⟨h1, h2, h3, h4⟩, hca, hrecs⟩
  case RQUOTE => exact ⟨⟨h1, h2, h3, h4⟩, hca, hrecs⟩
  case NONE => exact ⟨⟨h1, h2, h3, h4⟩, hca, hrecs⟩
  case END_TAG_SYMBOL => exact ⟨⟨h1, h2, h3, Or.inl rfl⟩, hca, hrecs⟩
  case TAG_NAME => exact ⟨⟨h1, h2, h3, Or.inl rfl⟩, hca, hrecs⟩
  case ATTR_NAME => exact ⟨⟨h1, h2, h3, h4⟩, rfl, hrecs⟩
  case ATTR_VAL =>
    refine ⟨⟨h1, ?_, h3, h4⟩, rfl, hrecs⟩
    simp only [flatten_step, h2, hca]
  case CLOSE_TAG =>
    refine ⟨sameRecord_refl _, hca, ?_⟩
    simp only [flatten_step]
    exact List.rel_append hrecs (List.Forall₂.cons ⟨h1, h2, h3, h4⟩ List.Forall₂.nil)

theorem SameFlat_foldl (toks : List TokenValuePair) :
    ∀ s s' : FlatState, SameFlat s s' →
    SameFlat (toks.foldl flatten_step s) (toks.foldl flatten_step s') := by
  induction toks with
  | nil => intro s s' h; exact h
  | cons t ts ih => intro s s' h; exact ih _ _ (SameFlat_step s s' t h)

/-- The payload of an `END_TAG_SYMBOL` token only reaches the name of a closer. -/
theorem SameFlat_end_tag (s : FlatState) (x y : Str) :
    SameFlat (flatten_step s ⟨.END_TAG_SYMBOL, x⟩) (flatten_step s ⟨.END_TAG_SYMBOL, y⟩) :=
  ⟨⟨rfl, rfl, rfl, Or.inr ⟨by simp [flatten_step, isCloser], by simp [flatten_step, isCloser]⟩⟩,
    rfl, List.forall₂_same.2 (fun e _ => sameRecord_refl e)⟩

theorem nest_step_closer (s : NestState) (el el' : HrmlElement)
    (h : isCloser el = true) (h' : isCloser el' = true) : nest_step s el = nest_step s el' := by
  simp [nest_step, h, h']

theorem nest_step_same (s : NestState) (el el' : HrmlElement) (h : SameRecord el el') :
    nest_step s el = nest_step s el' := by
  obtain ⟨h1, h2, h3, h4⟩ := h
  rcases h4 with h4 | ⟨h4, h5⟩
  · obtain ⟨n, t, a, cs⟩ := el
    obtain ⟨n', t', a', cs'⟩ := el'
    simp only at h1 h2 h3 h4
    rw [h1, h2, h3, h4]
  · exact nest_step_closer s el el' h4 h5

theorem nest_loop_same (recs recs' : List HrmlElement) (h : List.Forall₂ SameRecord recs recs') :
    ∀ s : NestState, nest_loop s recs = nest_loop s recs' := by
  induction h with
  | nil => intro s; rfl
  | cons hr _ ih =>
    intro s
    simp only [nest_loop, nest_step_same s _ _ hr]
    cases nest_step s _ with
    | none => rfl
    | some s1 => exact ih s1

/-- The builder does not read the payload of an `END_TAG_SYMBOL` token. -/
theorem parse_end_tag_payload (pre post : List TokenValuePair) (x y : Str) :
    parse_hrml_tokens (pre ++ ⟨.END_TAG_SYMBOL, x⟩ :: post)
      = parse_hrml_tokens (pre ++ ⟨.END_TAG_SYMBOL, y⟩ :: post) := by
  have h : SameFlat
      ((pre ++ ⟨.END_TAG_SYMBOL, x⟩ :: post).foldl flatten_step FlatState.init)
      ((pre ++ ⟨.END_TAG_SYMBOL, y⟩ :: post).foldl flatten_step FlatState.init) := by
    simp only [List.foldl_append, List.foldl_cons]
    exact SameFlat_foldl post _ _ (SameFlat_end_tag _ x y)
  simp only [parse_hrml_tokens, flatten]
  rw [nest_loop_same _ _ h.2.2]

/-- The second loop fails exactly when some prefix of the records holds more
closers than the stack size plus its openers. -/
theorem nest_loop_eq_none (recs : List HrmlElement) :
    ∀ (roots : List HrmlElement) (d : Nat),
    nest_loop ⟨roots, d⟩ recs = none ↔
      ∃ k, k ≤ recs.length ∧ d + openers (recs.take k) < closers (recs.take k) := by
  induction recs with
  | nil =>
    intro roots d
    simp [nest_loop, openers, closers]
  | cons r rs ih =>
    intro roots d
    cases hr : isCloser r with
    | false =>
      have hstep : nest_step ⟨roots, d⟩ r = some ⟨attach d roots r, d + 1⟩ := by
        simp [nest_step, hr]
      simp only [nest_loop, hstep, ih]
      constructor
      · rintro ⟨k, hk, h⟩
        refine ⟨k + 1, by simpa using hk, ?_⟩
        simp only [List.take_succ_cons, openers, closers, List.countP_cons, hr,
          Bool.not_false, if_true, Bool.false_eq_true, if_false] at h ⊢
        omega
      · rintro ⟨k, hk, h⟩
        cases k with
        | zero => simp [openers, closers] at h
        | succ k =>
          refine ⟨k, by simpa using hk, ?_⟩
          simp only [List.take_succ_cons, openers, closers, List.countP_cons, hr,
            Bool.not_false, if_true, Bool.false_eq_true, if_false] at h ⊢
          omega
    | true =>
      cases d with
      | zero =>
        have hstep : nest_step ⟨roots, 0⟩ r = none := by
          simp [nest_step, hr]
        simp only [nest_loop, hstep, true_iff]
        refine ⟨1, by simp, ?_⟩
        simp [openers, closers, List.countP_cons, hr]
      | succ d =>
        have hstep : nest_step ⟨roots, d + 1⟩ r = some ⟨roots, d⟩ := by
          simp [nest_step, hr]
        simp only [nest_loop, hstep, ih]
        constructor
        · rintro ⟨k, hk, h⟩
          refine ⟨k + 1, by simpa using hk, ?_⟩
          simp only [List.take_succ_cons, openers, closers, List.countP_cons, hr,
            Bool.not_true, if_true, Bool.false_eq_true, if_false] at h ⊢
          omega
        · rintro ⟨k, hk, h⟩
          cases k with
          | zero => simp [openers, closers] at h
          | succ k =>
            refine ⟨k, by simpa using hk, ?_⟩
            simp only [List.take_succ_cons, openers, closers, List.countP_cons, hr,
              Bool.not_true, if_true, Bool.false_eq_true, if_false] at h ⊢
            omega

theorem assign_all_last_wins (attrs : List (Str × Str)) :
    (∀ k, (assign_all [] attrs).find k = attrs.reverse.lookup k) ∧
      ((assign_all [] attrs).map Prod.fst).Nodup ∧
      ∀ k, k ∈ (assign_all [] attrs).map Prod.fst ↔ k ∈ attrs.map Prod.fst := by
  refine ⟨fun k => ?_, ?_⟩
  · rw [find_assign_all, ← attr_find_eq_lookup]
    cases AttrMap.find attrs.reverse k <;> rfl
  · simpa using keys_assign_all attrs [] (by simp)

mutual
theorem lastWins_built_element : ∀ e : HrmlElement, lastWinsElement e (built_element e)
  | ⟨n, t, attrs, cs⟩ => by
    obtain ⟨h1, h2, h3⟩ := assign_all_last_wins attrs
    rw [lastWinsElement, built_element]
    exact ⟨rfl, h1, h2, h3, lastWins_built_forest cs⟩
theorem lastWins_built_forest : ∀ forest : List HrmlElement,
    lastWinsForest forest (built_forest forest)
  | [] => by simp [lastWinsForest, built_forest]
  | e :: es => by
    simp only [lastWinsForest, built_forest]
    exact ⟨_, _, rfl, lastWins_built_element e, lastWins_built_forest es⟩
end

theorem foldl_flatten_length (toks : List TokenValuePair) :
    ∀ s : FlatState, (toks.foldl flatten_step s).nonTreedElements.length
      = s.nonTreedElements.length + toks.countP (fun t => t.token = .CLOSE_TAG) := by
  induction toks with
  | nil => intro s; simp
  | cons t ts ih =>
    intro s
    obtain ⟨k, v⟩ := t
    rw [List.foldl_cons, ih]
    cases k <;> simp [flatten_step, List.countP_cons, Nat.add_assoc, Nat.add_comm]

/-- The first loop of the builder makes one record per `CLOSE_TAG` token. -/
theorem flatten_length (toks : List TokenValuePair) :
    (flatten toks).length = toks.countP (fun t => t.token = .CLOSE_TAG) := by
  simp [flatten, foldl_flatten_length, FlatState.init]

/-- The whole pipeline on a well-formed document and a well-formed query. -/
theorem end_to_end_lookup_aux (forest : List HrmlElement) (path : List Str) (attr : Str)
    (hdoc : isDocument forest = true) (hne : path ≠ [])
    (hs : ∀ t ∈ path, isSegment t = true) (hb : (dotted path).length + 1 < 2 ^ 31) :
    run_query (forest_text forest) (mk_query path attr)
      = some (spec_resolve path attr forest) := by
  obtain ⟨h1, h2⟩ := parse_tokenize_document forest hdoc
  simp only [run_query, h1, h2]
  exact query_hrml_mk_query path attr forest hne hs hb

/-- The pipeline on a well-formed document and a query that `query_split` rejects. -/
theorem run_query_of_split_none (forest : List HrmlElement) (q : Str)
    (hdoc : isDocument forest = true) (h : query_split q = none) :
    run_query (forest_text forest) q = none := by
  obtain ⟨h1, h2⟩ := parse_tokenize_document forest hdoc
  simp only [run_query, h1, h2]
  exact query_hrml_of_split_none q forest h

/-- The reference result at a single root that carries the name and the attribute. -/
theorem spec_resolve_single (t a v i : Str) (c : List HrmlElement) :
    spec_resolve [t] a [⟨t, i, [(a, v)], c⟩] = v := by
  simp [spec_resolve, spec_walk]

/-- The reference result at a single root with another name. -/
theorem spec_resolve_other (t a : Str) (e : HrmlElement) (h : e.tagName ≠ t) :
    spec_resolve [t] a [e] = notFound := by
  simp [spec_resolve, spec_walk, h]

theorem giant_name_length : giant_name.length = 2 ^ 31 := List.length_replicate _ _

theorem giant_name_mem (x : Char) (h : x ∈ giant_name) : x = 'a' := List.eq_of_mem_replicate h

theorem giant_name_no_tilde : ∀ x ∈ giant_name, x ≠ '~' := by
  intro x hx
  rw [giant_name_mem x hx]
  decide

theorem giant_name_ne_nil : giant_name ≠ [] := by
  intro h
  have := giant_name_length
  rw [h] at this
  simp at this

theorem giant_name_segment : isSegment giant_name = true := by
  refine (isSegment_iff giant_name).2 ⟨giant_name_ne_nil, ?_, giant_name_no_tilde⟩
  intro x hx
  rw [giant_name_mem x hx]
  decide

/-- A query with the path `giant_name` has its `~` at index `2^31`; `attrLoc` is
`-2^31` and `query.substr(attrLoc + 1)` throws. -/
theorem query_split_giant (attr : Str) (ha : attr.length < 2 ^ 63) :
    query_split (mk_query [giant_name] attr) = none :=
  query_split_out_of_range giant_name attr giant_name_no_tilde giant_name_length ha

/-! ## The properties of the specification -/

/-- C1 (end-to-end lookup), amended.  For every well-formed document, given as
the canonical text of its forest, and every query `t1.t2...tn~attr` with
`n >= 1` segments that are non-empty and free of `.` and `~` and with the `~` at
an index below `2^31 - 1`, tokenizing, building and
resolving returns the reference result: the value of `attr` at the element
reached through the first root named `t1` and then the first direct child named
by each further segment, and `"Not Found!"` when a segment or the attribute is
missing. -/
theorem end_to_end_lookup (forest : List HrmlElement) (path : List Str) (attr : Str)
    (hdoc : isDocument forest = true) (hne : path ≠ [])
    (hs : ∀ t ∈ path, isSegment t = true) (hb : (dotted path).length + 1 < 2 ^ 31) :
    run_query (forest_text forest) (mk_query path attr)
      = some (spec_resolve path attr forest) :=
  end_to_end_lookup_aux forest path attr hdoc hne hs hb

/-- C1 at `<a x="1"><b y="2"></b></a>`: `a.b~y` gives `2`, `a~x` gives `1`,
`a.c~y` and `a~z` give `Not Found!`. -/
theorem end_to_end_lookup_witness :
    run_query "<a x=\"1\"><b y=\"2\"></b></a>".toList "a.b~y".toList = some "2".toList ∧
    run_query "<a x=\"1\"><b y=\"2\"></b></a>".toList "a~x".toList = some "1".toList ∧
    run_query "<a x=\"1\"><b y=\"2\"></b></a>".toList "a.c~y".toList
      = some "Not Found!".toList ∧
    run_query "<a x=\"1\"><b y=\"2\"></b></a>".toList "a~z".toList
      = some "Not Found!".toList :=
  ⟨end_to_end_lookup doc_a_b ["a".toList, "b".toList] "y".toList (by decide) (by decide)
      (by decide) (by decide),
    end_to_end_lookup doc_a_b ["a".toList] "x".toList (by decide) (by decide) (by decide)
      (by decide),
    end_to_end_lookup doc_a_b ["a".toList, "c".toList] "y".toList (by decide) (by decide)
      (by decide) (by decide),
    end_to_end_lookup doc_a_b ["a".toList] "z".toList (by decide) (by decide) (by decide)
      (by decide)⟩

/-- C1 as stated fails on the document `<a x="1"><b y="2"></b></a>` and the query
`t~x` whose one segment `t` is `2^31` letters `a`: the segment is non-empty and
free of `.` and `~`, the reference result is `Not Found!`, and the run ends in
the exception of `substr` instead of returning it. -/
theorem end_to_end_lookup_counterexample :
    isDocument doc_a_b = true ∧ isSegment giant_name = true ∧
      spec_resolve [giant_name] "x".toList doc_a_b = notFound ∧
      run_query (forest_text doc_a_b) (mk_query [giant_name] "x".toList) = none ∧
      run_query (forest_text doc_a_b) (mk_query [giant_name] "x".toList)
        ≠ some (spec_resolve [giant_name] "x".toList doc_a_b) := by
  have h : run_query (forest_text doc_a_b) (mk_query [giant_name] "x".toList) = none :=
    run_query_of_split_none doc_a_b _ (by decide) (query_split_giant _ (by decide))
  have hn : ("a".toList : Str) ≠ giant_name := by
    intro e
    have := giant_name_length
    rw [← e] at this
    simp at this
  exact ⟨by decide, giant_name_segment, spec_resolve_other _ _ _ hn, h, by rw [h]; simp⟩

/-- C2 (tokenizer round trip).  For every list of tags whose names are made of
name characters and start with a letter and whose values are free of the double
quote, the tokenizer applied to the canonical text returns exactly the tokens of
the tags: `OPEN_TAG, TAG_NAME name`, then `ATTR_NAME, LQUOTE, ATTR_VAL, RQUOTE`
per attribute, then `CLOSE_TAG`; and `OPEN_TAG, END_TAG_SYMBOL name, CLOSE_TAG`
for a closing tag.  That token sequence determines the tag list. -/
theorem tokenizer_round_trip (tags : List Tag) (h : ∀ t ∈ tags, isTag t = true) :
    tokenize_hrml_string (render_tags tags) = some (tags_tokens tags) ∧
      ∀ tags' : List Tag, tags_tokens tags' = tags_tokens tags → tags' = tags :=
  ⟨tokenize_render_tags tags h, tags_tokens_injective tags⟩

/-- C2 at the text `<hrml tag2="I can be long>!" help=""><div></div>` of the
tokenizer test of the source. -/
theorem tokenizer_round_trip_witness :
    tokenize_hrml_string "<hrml tag2=\"I can be long>!\" help=\"\"><div></div>".toList
      = some [⟨.OPEN_TAG, []⟩, ⟨.TAG_NAME, "hrml".toList⟩,
          ⟨.ATTR_NAME, "tag2".toList⟩, ⟨.LQUOTE, []⟩, ⟨.ATTR_VAL, "I can be long>!".toList⟩,
          ⟨.RQUOTE, []⟩,
          ⟨.ATTR_NAME, "help".toList⟩, ⟨.LQUOTE, []⟩, ⟨.ATTR_VAL, []⟩, ⟨.RQUOTE, []⟩,
          ⟨.CLOSE_TAG, []⟩,
          ⟨.OPEN_TAG, []⟩, ⟨.TAG_NAME, "div".toList⟩, ⟨.CLOSE_TAG, []⟩,
          ⟨.OPEN_TAG, []⟩, ⟨.END_TAG_SYMBOL, "div".toList⟩, ⟨.CLOSE_TAG, []⟩] :=
  (tokenizer_round_trip
    [.opening "hrml".toList [("tag2".toList, "I can be long>!".toList), ("help".toList, [])],
      .opening "div".toList [], .closing "div".toList] (by decide)).1

/-- C3 (tree-builder round trip).  For every forest of elements (tag names not
starting with `/`, attribute names distinct within an element, inner text
empty), the builder applied to the token sequence of the balanced pre-order
serialization returns exactly the forest; and the number of elements of the
forest is the number of opening tags of the serialization. -/
theorem tree_builder_round_trip (forest : List HrmlElement) (h : isForest forest = true) :
    parse_hrml_tokens (forest_tokens forest) = some forest ∧
      count_forest forest = (forest_tags forest).countP Tag.isOpening :=
  ⟨parse_forest_tokens forest h, (count_forest_tags forest).symm⟩

/-- C3 at the token sequence of the builder test of the source. -/
theorem tree_builder_round_trip_witness :
    parse_hrml_tokens
      [⟨.OPEN_TAG, []⟩, ⟨.TAG_NAME, "hrml".toList⟩,
        ⟨.ATTR_NAME, "attr".toList⟩, ⟨.LQUOTE, []⟩, ⟨.ATTR_VAL, "12 34".toList⟩, ⟨.RQUOTE, []⟩,
        ⟨.ATTR_NAME, "attr2".toList⟩, ⟨.LQUOTE, []⟩, ⟨.ATTR_VAL, "56 78".toList⟩, ⟨.RQUOTE, []⟩,
        ⟨.CLOSE_TAG, []⟩,
        ⟨.OPEN_TAG, []⟩, ⟨.TAG_NAME, "child".toList⟩, ⟨.CLOSE_TAG, []⟩,
        ⟨.OPEN_TAG, []⟩, ⟨.TAG_NAME, "childchild".toList⟩, ⟨.CLOSE_TAG, []⟩,
        ⟨.OPEN_TAG, []⟩, ⟨.END_TAG_SYMBOL, "childchild".toList⟩, ⟨.CLOSE_TAG, []⟩,
        ⟨.OPEN_TAG, []⟩, ⟨.END_TAG_SYMBOL, "child".toList⟩, ⟨.CLOSE_TAG, []⟩,
        ⟨.OPEN_TAG, []⟩, ⟨.END_TAG_SYMBOL, "hrml".toList⟩, ⟨.CLOSE_TAG, []⟩,
        ⟨.OPEN_TAG, []⟩, ⟨.TAG_NAME, "sibling".toList⟩, ⟨.CLOSE_TAG, []⟩,
        ⟨.OPEN_TAG, []⟩, ⟨.END_TAG_SYMBOL, "sibling".toList⟩, ⟨.CLOSE_TAG, []⟩]
      = some doc_test ∧ count_forest doc_test = 4 :=
  ⟨(tree_builder_round_trip doc_test (by decide)).1, by decide⟩

/-- C4 (the resolver against its reference definition), amended.  For every
forest and every query `t1.t2...tn~attr` with `n >= 1` segments that are
non-empty and free of `.` and `~` and with the `~` at an index below `2^31 - 1`,
`query_hrml` returns the reference result: `"Not Found!"` if no
root has tag name `t1`; otherwise the walk starts at the first such root and
moves for each further segment to the first direct child with that tag name,
with `"Not Found!"` if there is none; at the final element the value mapped to
`attr` (everything after the first `~`) if `attr` is a key, else `"Not Found!"`. -/
theorem query_hrml_refines_reference (forest : List HrmlElement) (path : List Str) (attr : Str)
    (hne : path ≠ []) (hs : ∀ t ∈ path, isSegment t = true)
    (hb : (dotted path).length + 1 < 2 ^ 31) :
    query_hrml (mk_query path attr) forest = some (spec_resolve path attr forest) :=
  query_hrml_mk_query path attr forest hne hs hb

/-- C4 at the test forest: `hrml~attr2` is `56 78`, and an attribute name may
itself contain `~` and `.` (`hrml~a~b.c` looks up the key `a~b.c`). -/
theorem query_hrml_refines_reference_witness :
    query_hrml "hrml~attr2".toList doc_test = some "56 78".toList ∧
    query_hrml "hrml.child.childchild~a~b.c".toList doc_test = some "Not Found!".toList :=
  ⟨query_hrml_refines_reference doc_test ["hrml".toList] "attr2".toList (by decide) (by decide)
      (by decide),
    query_hrml_refines_reference doc_test
      ["hrml".toList, "child".toList, "childchild".toList] "a~b.c".toList (by decide)
      (by decide) (by decide)⟩

/-- C4 as stated fails on the empty forest and the query `t~attr` whose one
segment `t` is `2^31` letters `a`: no root has that tag name, the reference
result is `Not Found!`, and `query_hrml` ends in the exception of `substr`. -/
theorem query_hrml_refines_reference_counterexample :
    isSegment giant_name = true ∧
      spec_resolve [giant_name] "attr".toList [] = notFound ∧
      query_hrml (mk_query [giant_name] "attr".toList) [] = none ∧
      query_hrml (mk_query [giant_name] "attr".toList) []
        ≠ some (spec_resolve [giant_name] "attr".toList []) := by
  have h : query_hrml (mk_query [giant_name] "attr".toList) [] = none :=
    query_hrml_of_split_none _ [] (query_split_giant _ (by decide))
  exact ⟨giant_name_segment, rfl, h, by rw [h]; simp⟩

/-- C5 (first-match tie-break without backtracking), amended.  For a query whose
`~` stands at an index below `2^31 - 1`: when `e` is the first root carrying the
tag name of the first segment (`pre` holds the roots before it, `post` the roots
after it, same-named ones included), the answer is the one determined by `e`
alone, the reference result on `e`.  The same holds below the roots: when the
element reached so far has children `pre ++ e :: post` and `e` is the first of
them carrying the name of the current segment, the answer is the one determined
by `e` alone, whatever `post` holds. -/
theorem first_match_tie_break (pre post : List HrmlElement) (e : HrmlElement) (t : Str)
    (names : List Str) (attr : Str) (hpre : ∀ x ∈ pre, x.tagName ≠ t) (he : e.tagName = t)
    (hs : ∀ u ∈ t :: names, isSegment u = true)
    (hb : (dotted (t :: names)).length + 1 < 2 ^ 31) :
    query_hrml (mk_query (t :: names) attr) (pre ++ e :: post)
        = some (spec_resolve (t :: names) attr [e]) ∧
      query_hrml (mk_query (t :: names) attr) [e]
        = some (spec_resolve (t :: names) attr [e]) ∧
      ∀ (forest : List HrmlElement) (pfx : List Str) (p : HrmlElement),
        (∀ u ∈ pfx, isSegment u = true) → spec_walk forest pfx = some p →
        p.children = pre ++ e :: post →
        (dotted (pfx ++ t :: names)).length + 1 < 2 ^ 31 →
        query_hrml (mk_query (pfx ++ t :: names) attr) forest
          = some (spec_resolve (t :: names) attr [e]) := by
  have hq : ∀ forest : List HrmlElement, query_hrml (mk_query (t :: names) attr) forest
      = some (spec_resolve (t :: names) attr forest) :=
    fun forest => query_hrml_mk_query _ attr forest (by simp) hs hb
  refine ⟨?_, hq [e], ?_⟩
  · rw [hq]
    simp only [spec_resolve, spec_walk_first pre post e t names hpre he]
  · intro forest pfx p hpfx hp hch hb'
    have hs' : ∀ u ∈ pfx ++ t :: names, isSegment u = true := by
      intro u hu
      rcases List.mem_append.1 hu with hu | hu
      · exact hpfx u hu
      · exact hs u hu
    rw [query_hrml_mk_query _ attr forest (by simp) hs' hb']
    simp only [spec_resolve, spec_walk_append pfx forest p t names hp, hch,
      spec_walk_first pre post e t names hpre he]

/-- C5 at `<a v="1"></a><a v="2"></a>`: `a~v` gives `1`; and a first element that
lacks the attribute or the rest of the path gives `Not Found!` although a later
element with the same name has it. -/
theorem first_match_tie_break_witness :
    query_hrml "a~v".toList
        [⟨"a".toList, [], [("v".toList, "1".toList)], []⟩,
          ⟨"a".toList, [], [("v".toList, "2".toList)], []⟩] = some "1".toList ∧
    run_query "<a v=\"1\"></a><a v=\"2\"></a>".toList "a~v".toList = some "1".toList ∧
    run_query "<a></a><a v=\"2\"></a>".toList "a~v".toList = some "Not Found!".toList ∧
    run_query "<a></a><a><b v=\"2\"></b></a>".toList "a.b~v".toList
      = some "Not Found!".toList ∧
    run_query "<r><a></a><a v=\"2\"></a></r>".toList "r.a~v".toList
      = some "Not Found!".toList :=
  ⟨(first_match_tie_break [] [⟨"a".toList, [], [("v".toList, "2".toList)], []⟩]
      ⟨"a".toList, [], [("v".toList, "1".toList)], []⟩ "a".toList [] "v".toList
      (by decide) (by decide) (by decide) (by decide)).1.trans (by decide),
    by decide, by decide, by decide, by decide⟩

/-- C5 as stated fails on two roots that both carry a tag name of `2^31` letters
`a`, with `v="1"` and `v="2"`: the first root has the attribute, the answer
determined by it is `1`, and the query `name~v` ends in the exception of
`substr` instead of returning `1`. -/
theorem first_match_tie_break_counterexample :
    spec_resolve [giant_name] "v".toList [⟨giant_name, [], [("v".toList, "1".toList)], []⟩]
        = "1".toList ∧
      query_hrml (mk_query [giant_name] "v".toList)
        [⟨giant_name, [], [("v".toList, "1".toList)], []⟩,
          ⟨giant_name, [], [("v".toList, "2".toList)], []⟩] = none ∧
      query_hrml (mk_query [giant_name] "v".toList)
        [⟨giant_name, [], [("v".toList, "1".toList)], []⟩,
          ⟨giant_name, [], [("v".toList, "2".toList)], []⟩] ≠ some "1".toList := by
  have h : query_hrml (mk_query [giant_name] "v".toList)
      [⟨giant_name, [], [("v".toList, "1".toList)], []⟩,
        ⟨giant_name, [], [("v".toList, "2".toList)], []⟩] = none :=
    query_hrml_of_split_none _ _ (query_split_giant _ (by decide))
  exact ⟨spec_resolve_single _ _ _ _ _, h, by rw [h]; simp⟩

/-- C6 (attribute values are returned verbatim).  For every string `v` free of
the double quote, the document `<a t="v"></a>` and the query `a~t` give exactly
`v`. -/
theorem attribute_value_verbatim (v : Str) (hv : isValue v = true) :
    run_query ("<a t=\"".toList ++ v ++ "\"></a>".toList) "a~t".toList = some v := by
  have h := end_to_end_lookup_aux [⟨"a".toList, [], [("t".toList, v)], []⟩] ["a".toList]
    "t".toList (by simp [isDocument, isDocElement, hv]; decide) (by simp) (by decide)
    (by decide)
  have e1 : forest_text [⟨"a".toList, [], [("t".toList, v)], []⟩]
      = "<a t=\"".toList ++ v ++ "\"></a>".toList := by
    simp [forest_text, forest_tags, element_tags, render_tags, render_tag, render_attr]
  have e2 : spec_resolve ["a".toList] "t".toList [⟨"a".toList, [], [("t".toList, v)], []⟩]
      = v := by
    simp [spec_resolve, spec_walk]
  rw [e1, e2] at h
  exact h

/-- C6 at `x>y`, at a value with surrounding blanks and at the empty value,
which is returned as the empty string and not as `Not Found!`. -/
theorem attribute_value_verbatim_witness :
    run_query "<a t=\"x>y\"></a>".toList "a~t".toList = some "x>y".toList ∧
    run_query "<a t=\" </a =\t\"></a>".toList "a~t".toList = some " </a =\t".toList ∧
    run_query "<a t=\"\"></a>".toList "a~t".toList = some [] ∧
    ([] : Str) ≠ "Not Found!".toList :=
  ⟨attribute_value_verbatim "x>y".toList (by decide),
    attribute_value_verbatim " </a =\t".toList (by decide),
    attribute_value_verbatim [] (by decide), by decide⟩

/-- C7 (duplicate attribute names are last-write-wins).  For every forest of tags
with arbitrary attribute lists (names may repeat within a tag), the builder
returns a forest of the same shape in which the element built for each opening
tag maps every attribute name to the value of its last occurrence in the tag,
with one entry per distinct name. -/
theorem duplicate_attributes_last_wins (forest : List HrmlElement)
    (h : isOpenForest forest = true) :
    ∃ built, parse_hrml_tokens (forest_tokens forest) = some built ∧
      lastWinsForest forest built :=
  ⟨built_forest forest, parse_forest_tokens_built forest h, lastWins_built_forest forest⟩

/-- C7 at `<a t="1" t="2"></a>`: the element maps `t` to `2` only, and the query
`a~t` returns `2`. -/
theorem duplicate_attributes_last_wins_witness :
    (∃ built, parse_hrml_tokens
      [⟨.OPEN_TAG, []⟩, ⟨.TAG_NAME, "a".toList⟩,
        ⟨.ATTR_NAME, "t".toList⟩, ⟨.LQUOTE, []⟩, ⟨.ATTR_VAL, "1".toList⟩, ⟨.RQUOTE, []⟩,
        ⟨.ATTR_NAME, "t".toList⟩, ⟨.LQUOTE, []⟩, ⟨.ATTR_VAL, "2".toList⟩, ⟨.RQUOTE, []⟩,
        ⟨.CLOSE_TAG, []⟩, ⟨.OPEN_TAG, []⟩, ⟨.END_TAG_SYMBOL, "a".toList⟩, ⟨.CLOSE_TAG, []⟩]
      = some built ∧
      lastWinsForest
        [⟨"a".toList, [], [("t".toList, "1".toList), ("t".toList, "2".toList)], []⟩] built) ∧
    parse_hrml_tokens
      [⟨.OPEN_TAG, []⟩, ⟨.TAG_NAME, "a".toList⟩,
        ⟨.ATTR_NAME, "t".toList⟩, ⟨.LQUOTE, []⟩, ⟨.ATTR_VAL, "1".toList⟩, ⟨.RQUOTE, []⟩,
        ⟨.ATTR_NAME, "t".toList⟩, ⟨.LQUOTE, []⟩, ⟨.ATTR_VAL, "2".toList⟩, ⟨.RQUOTE, []⟩,
        ⟨.CLOSE_TAG, []⟩, ⟨.OPEN_TAG, []⟩, ⟨.END_TAG_SYMBOL, "a".toList⟩, ⟨.CLOSE_TAG, []⟩]
      = some [⟨"a".toList, [], [("t".toList, "2".toList)], []⟩] ∧
    run_query "<a t=\"1\" t=\"2\"></a>".toList "a~t".toList = some "2".toList :=
  ⟨duplicate_attributes_last_wins
      [⟨"a".toList, [], [("t".toList, "1".toList), ("t".toList, "2".toList)], []⟩]
      (by decide),
    rfl, by decide⟩

/-- C8 (tag-name invariant of the final tree).  On every input text the
tokenizer returns, and whenever the builder returns a forest for its tokens
(it does not pop an empty stack), every element at every depth has a tag name
that is non-empty, starts with a letter and consists of alphanumeric characters,
`-` and `_`; in particular no tag name starts with the closer prefix `/`. -/
theorem tag_name_invariant (text : Str) :
    ∃ toks, tokenize_hrml_string text = some toks ∧
      ∀ forest, parse_hrml_tokens toks = some forest →
        allNames forest = true ∧ isOpenForest forest = true := by
  obtain ⟨toks, h1, h2⟩ := tokenize_records text
  refine ⟨toks, h1, fun forest hp => ?_⟩
  simp only [parse_hrml_tokens, Option.map_eq_some'] at hp
  obtain ⟨s', hs', rfl⟩ := hp
  have := nest_loop_allNames (flatten toks) h2 ⟨[], 0⟩ s' rfl hs'
  exact ⟨this, allNames_open _ this⟩

/-- C8 at a malformed text: stray characters, a closer with an empty name, an
attribute without value and a tag left open.  The builder returns the forest
`a-1` with the children `b` and `c_2`. -/
theorem tag_name_invariant_witness :
    ∃ toks forest, tokenize_hrml_string "x<a-1 q><b></>9<c_2 k=\"v\"><d".toList = some toks ∧
      parse_hrml_tokens toks = some forest ∧ forest.map HrmlElement.tagName = ["a-1".toList] ∧
      allNames forest = true ∧ isOpenForest forest = true := by
  obtain ⟨toks, h1, h2⟩ := tag_name_invariant "x<a-1 q><b></>9<c_2 k=\"v\"><d".toList
  have e : tokenize_hrml_string "x<a-1 q><b></>9<c_2 k=\"v\"><d".toList
      = some [⟨.OPEN_TAG, []⟩, ⟨.TAG_NAME, "a-1".toList⟩, ⟨.CLOSE_TAG, []⟩,
          ⟨.OPEN_TAG, []⟩, ⟨.TAG_NAME, "b".toList⟩, ⟨.CLOSE_TAG, []⟩,
          ⟨.OPEN_TAG, []⟩, ⟨.END_TAG_SYMBOL, []⟩, ⟨.CLOSE_TAG, []⟩,
          ⟨.OPEN_TAG, []⟩, ⟨.TAG_NAME, "c_2".toList⟩, ⟨.ATTR_NAME, "k".toList⟩, ⟨.LQUOTE, []⟩,
          ⟨.ATTR_VAL, "v".toList⟩, ⟨.RQUOTE, []⟩, ⟨.CLOSE_TAG, []⟩, ⟨.OPEN_TAG, []⟩] := by
    decide
  rw [e] at h1
  cases h1
  exact ⟨_, _, e, rfl, rfl, h2 _ rfl⟩

/-- C9 (the builder does not verify closing names).  In every token sequence,
replacing the payload of an `END_TAG_SYMBOL` token by any other string leaves
the result of `parse_hrml_tokens` unchanged; and in the second loop any two
closer records do the same, whatever their names: they pop the innermost open
element. -/
theorem closing_names_not_verified (pre post : List TokenValuePair) (x y : Str) :
    parse_hrml_tokens (pre ++ ⟨.END_TAG_SYMBOL, x⟩ :: post)
        = parse_hrml_tokens (pre ++ ⟨.END_TAG_SYMBOL, y⟩ :: post) ∧
      ∀ (s : NestState) (el el' : HrmlElement), isCloser el = true → isCloser el' = true →
        nest_step s el = nest_step s el' ∧
          nest_step s el = (match s.tagStack with
            | 0 => none
            | d + 1 => some ⟨s.elements_p, d⟩) :=
  ⟨parse_end_tag_payload pre post x y, fun s el el' h h' =>
    ⟨nest_step_closer s el el' h h', by simp [nest_step, h]⟩⟩

/-- C9 at `<a><b></zzz></>`: the closers `zzz` and the empty name close `b` and
`a` as `</b></a>` does. -/
theorem closing_names_not_verified_witness :
    parse_hrml_tokens
      [⟨.OPEN_TAG, []⟩, ⟨.TAG_NAME, "a".toList⟩, ⟨.CLOSE_TAG, []⟩,
        ⟨.OPEN_TAG, []⟩, ⟨.TAG_NAME, "b".toList⟩, ⟨.CLOSE_TAG, []⟩,
        ⟨.OPEN_TAG, []⟩, ⟨.END_TAG_SYMBOL, "zzz".toList⟩, ⟨.CLOSE_TAG, []⟩,
        ⟨.OPEN_TAG, []⟩, ⟨.END_TAG_SYMBOL, []⟩, ⟨.CLOSE_TAG, []⟩]
      = some [⟨"a".toList, [], [], [⟨"b".toList, [], [], []⟩]⟩] :=
  ((closing_names_not_verified
      [⟨.OPEN_TAG, []⟩, ⟨.TAG_NAME, "a".toList⟩, ⟨.CLOSE_TAG, []⟩,
        ⟨.OPEN_TAG, []⟩, ⟨.TAG_NAME, "b".toList⟩, ⟨.CLOSE_TAG, []⟩, ⟨.OPEN_TAG, []⟩]
      [⟨.CLOSE_TAG, []⟩, ⟨.OPEN_TAG, []⟩, ⟨.END_TAG_SYMBOL, []⟩, ⟨.CLOSE_TAG, []⟩]
      "zzz".toList "b".toList).1).trans rfl

/-- C10 as stated fails at the tokens of `<a></a></a>`: the prefix of all three
records holds two closers and one opener, and the call does not end in a
structural error: after the records `a` and `/a` the stack is empty, the second
`/a` pops it, and that is undefined. -/
theorem structural_failure_counterexample :
    tokenize_hrml_string "<a></a></a>".toList = some tokens_unmatched_closer ∧
    flatten tokens_unmatched_closer
      = [⟨"a".toList, [], [], []⟩, ⟨"/a".toList, [], [], []⟩, ⟨"/a".toList, [], [], []⟩] ∧
    (∃ k, k ≤ (flatten tokens_unmatched_closer).length ∧
      openers ((flatten tokens_unmatched_closer).take k)
        < closers ((flatten tokens_unmatched_closer).take k)) ∧
    nest_loop ⟨[], 0⟩ [⟨"a".toList, [], [], []⟩, ⟨"/a".toList, [], [], []⟩]
      = some ⟨[⟨"a".toList, [], [], []⟩], 0⟩ ∧
    nest_step ⟨[⟨"a".toList, [], [], []⟩], 0⟩ ⟨"/a".toList, [], [], []⟩ = none ∧
    parse_outcome tokens_unmatched_closer = .undefined ∧
    ¬ (parse_outcome tokens_unmatched_closer = .throws ↔
      ∃ k, k ≤ (flatten tokens_unmatched_closer).length ∧
        openers ((flatten tokens_unmatched_closer).take k)
          < closers ((flatten tokens_unmatched_closer).take k)) := by
  have hk : ∃ k, k ≤ (flatten tokens_unmatched_closer).length ∧
      openers ((flatten tokens_unmatched_closer).take k)
        < closers ((flatten tokens_unmatched_closer).take k) := ⟨3, by decide, by decide⟩
  have hu : parse_outcome tokens_unmatched_closer = .undefined := rfl
  refine ⟨by decide, rfl, hk, rfl, rfl, hu, ?_⟩
  intro h
  have ht := h.2 hk
  rw [hu] at ht
  cases ht

/-- C10, amended (stack underflow on a closing tag with no open scope).  The
builder never ends in a structural error or any other defined failure.  It pops
the empty stack, which is undefined, if and only if some prefix of the flat
record list (one record per `CLOSE_TAG` token) holds more closer records than
opener records; on every other token sequence the stack is non-empty at each
pop and a forest is returned. -/
theorem stack_underflow_iff (tokens : List TokenValuePair) :
    parse_outcome tokens ≠ .throws ∧
    (parse_outcome tokens = .undefined ↔
      ∃ k, k ≤ (flatten tokens).length ∧
        openers ((flatten tokens).take k) < closers ((flatten tokens).take k)) ∧
    ((¬ ∃ k, k ≤ (flatten tokens).length ∧
        openers ((flatten tokens).take k) < closers ((flatten tokens).take k)) →
      ∃ forest, parse_hrml_tokens tokens = some forest ∧
        parse_outcome tokens = .returns forest) ∧
    (flatten tokens).length = tokens.countP (fun t => t.token = .CLOSE_TAG) := by
  have h : parse_hrml_tokens tokens = none ↔
      ∃ k, k ≤ (flatten tokens).length ∧
        openers ((flatten tokens).take k) < closers ((flatten tokens).take k) := by
    have := nest_loop_eq_none (flatten tokens) [] 0
    simpa [parse_hrml_tokens] using this
  refine ⟨?_, ?_, fun hno => ?_, flatten_length tokens⟩
  · unfold parse_outcome
    cases parse_hrml_tokens tokens <;> simp
  · rw [← h]
    unfold parse_outcome
    cases parse_hrml_tokens tokens <;> simp
  · cases hp : parse_hrml_tokens tokens with
    | none => exact absurd (h.1 hp) hno
    | some forest => exact ⟨forest, rfl, by simp [parse_outcome, hp]⟩

/-- C10, amended, at `<a></a></a>` (the second closer finds the stack empty: the
pop is undefined) and at `<a><b>` (two tags left open: the forest `a` with the
child `b`). -/
theorem stack_underflow_iff_witness :
    parse_outcome tokens_unmatched_closer = .undefined ∧
    ∃ forest, parse_hrml_tokens
        [⟨.OPEN_TAG, []⟩, ⟨.TAG_NAME, "a".toList⟩, ⟨.CLOSE_TAG, []⟩,
          ⟨.OPEN_TAG, []⟩, ⟨.TAG_NAME, "b".toList⟩, ⟨.CLOSE_TAG, []⟩] = some forest ∧
      parse_outcome
        [⟨.OPEN_TAG, []⟩, ⟨.TAG_NAME, "a".toList⟩, ⟨.CLOSE_TAG, []⟩,
          ⟨.OPEN_TAG, []⟩, ⟨.TAG_NAME, "b".toList⟩, ⟨.CLOSE_TAG, []⟩] = .returns forest :=
  ⟨(stack_underflow_iff _).2.1.2 ⟨3, by decide, by decide⟩,
    (stack_underflow_iff _).2.2.1 (by decide)⟩

/-! ## The driver -/

/-- The assertions of both tests of the source hold, so `main` goes on to read
its input. -/
theorem tests_pass : test_tokenize_hrml_line = true ∧ test_parse_hrml_tokens = true := by
  constructor <;> decide

/-- The driver writes the markup lines before the answers. -/
theorem main_output (markup queries : List Str) (out : Str) (h : main markup queries = some out) :
    ∃ tokens elements answers,
      tokenize_hrml_string (main_lines markup) = some tokens ∧
      parse_hrml_tokens tokens = some elements ∧
      answer_loop elements queries = some answers ∧
      out = main_lines markup ++ spec_output answers := by
  simp only [main, tests_pass.1, tests_pass.2, Bool.and_self, if_true] at h
  cases ht : tokenize_hrml_string (main_lines markup) with
  | none => simp [ht] at h
  | some tokens =>
    simp only [ht] at h
    cases hp : parse_hrml_tokens tokens with
    | none => simp [hp] at h
    | some elements =>
      simp only [hp] at h
      cases hq : answer_loop elements queries with
      | none => simp [hq] at h
      | some answers =>
        simp only [hq, Option.some.injEq] at h
        exact ⟨tokens, elements, answers, rfl, hp, hq, h.symm⟩

/-- C11 (driver output contract), at the input `1 1`, `<a x="1"></a>`, `a~x`:
the driver writes the markup line and then the answer, two lines where the
contract has the single line `1`. -/
theorem driver_echoes_markup :
    main ["<a x=\"1\"></a>".toList] ["a~x".toList] = some "<a x=\"1\"></a>\n1\n".toList ∧
    spec_output ["1".toList] = "1\n".toList ∧
    "<a x=\"1\"></a>\n1\n".toList ≠ spec_output ["1".toList] := by
  refine ⟨by decide, by decide, by decide⟩

/-! ## The shape of the tokenizer's output -/

theorem shape_append (toks more : List TokenValuePair) :
    shape (toks ++ more) = more.foldl shape_step (shape toks) := by
  simp [shape, List.foldl_append]

/-- Every step of the tokenizer is defined and keeps the second invariant. -/
theorem TokShape_step (st : TokState) (c : Char) (h : TokShape st) :
    ∃ st', tokenize_step st c = some st' ∧ TokShape st' := by
  obtain ⟨toks, ⟨k, v⟩⟩ := st
  obtain ⟨⟨p, hp, hs⟩, hv, hl⟩ := h
  simp only at hp hs hv hl
  cases k with
  | NONE =>
    simp only [phase_of, Option.some.injEq] at hp
    subst hp
    simp only [tokenize_step]
    split
    · refine ⟨_, rfl, ⟨.afterOpen, rfl, ?_⟩, by simp, by simp⟩
      simp [shape_append, hs, shape_step]
    · exact ⟨_, rfl, ⟨.outside, rfl, hs⟩, hv, by simp⟩
  | OPEN_TAG =>
    simp only [phase_of, Option.some.injEq] at hp
    subst hp
    simp only [tokenize_step]
    split
    · exact ⟨_, rfl, ⟨.afterOpen, rfl, hs⟩, by simp, by simp⟩
    · split
      · exact ⟨_, rfl, ⟨.afterOpen, rfl, hs⟩, by simp, by simp⟩
      · exact ⟨_, rfl, ⟨.afterOpen, rfl, hs⟩, by simp, by simp⟩
  | END_TAG_SYMBOL =>
    simp only [phase_of, Option.some.injEq] at hp
    subst hp
    simp only [tokenize_step]
    split
    · exact ⟨_, rfl, ⟨.afterOpen, rfl, hs⟩, by simp, by simp⟩
    · split
      · refine ⟨_, rfl, ⟨.outside, rfl, ?_⟩, by simp, by simp⟩
        simp [shape_append, hs, shape_step]
      · exact ⟨_, rfl, ⟨.afterOpen, rfl, hs⟩, by simp, by simp⟩
  | TAG_NAME =>
    simp only [phase_of, Option.some.injEq] at hp
    subst hp
    simp only [tokenize_step]
    split
    · exact ⟨_, rfl, ⟨.afterOpen, rfl, hs⟩, by simp, by simp⟩
    · split
      · refine ⟨_, rfl, ⟨.inTag, rfl, ?_⟩, by simp, by simp⟩
        simp [shape_append, hs, shape_step]
      · split
        · refine ⟨_, rfl, ⟨.outside, rfl, ?_⟩, by simp, by simp⟩
          simp [shape_append, hs, shape_step]
        · exact ⟨_, rfl, ⟨.afterOpen, rfl, hs⟩, by simp, by simp⟩
  | ATTR_NAME =>
    simp only [phase_of, Option.some.injEq] at hp
    subst hp
    simp only [tokenize_step]
    split
    · exact ⟨_, rfl, ⟨.inTag, rfl, hs⟩, by simp, by simp⟩
    · split
      · refine ⟨_, rfl, ⟨.inTag, rfl, ?_⟩, by simp, by simp⟩
        simp [shape_append, hs, shape_step]
      · split
        · refine ⟨_, rfl, ⟨.outside, rfl, ?_⟩, by simp, by simp⟩
          simp [shape_append, hs, shape_step]
        · exact ⟨_, rfl, ⟨.inTag, rfl, hs⟩, by simp, by simp⟩
  | ATTR_VAL =>
    simp only [phase_of, Option.some.injEq] at hp
    subst hp
    obtain ⟨last, hlast, hkind⟩ := hl rfl
    simp only [tokenize_step, hlast]
    refine ⟨_, rfl, ?_⟩
    simp only [attr_val_step]
    split
    · split
      · refine ⟨⟨.inTag, rfl, ?_⟩, by simp, fun _ => ⟨_, List.getLast?_concat _, by simp⟩⟩
        simp [shape_append, hs, shape_step]
      · refine ⟨⟨.inTag, rfl, ?_⟩, by simp, fun _ => ⟨_, List.getLast?_concat _, by simp⟩⟩
        simp [shape_append, hs, shape_step]
    · split
      · refine ⟨⟨.outside, rfl, ?_⟩, by simp, by simp⟩
        simp [shape_append, hs, shape_step]
      · split
        · exact ⟨⟨.inTag, rfl, hs⟩, by simp, by simp⟩
        · split
          · exact ⟨⟨.inTag, rfl, hs⟩, by simp, fun _ => ⟨last, hlast, hkind⟩⟩
          · exact ⟨⟨.inTag, rfl, hs⟩, by simp, fun _ => ⟨last, hlast, hkind⟩⟩
  | CLOSE_TAG => simp [phase_of] at hp
  | LQUOTE => simp [phase_of] at hp
  | RQUOTE => simp [phase_of] at hp

theorem TokShape_loop (cs : List Char) : ∀ st : TokState, TokShape st →
    ∃ st', tokenize_loop st cs = some st' ∧ TokShape st' := by
  induction cs with
  | nil => intro st h; exact ⟨st, rfl, h⟩
  | cons c cs ih =>
    intro st h
    obtain ⟨st1, h1, hinv1⟩ := TokShape_step st c h
    obtain ⟨st2, h2, hinv2⟩ := ih st1 hinv1
    exact ⟨st2, by simp [tokenize_loop, h1, h2], hinv2⟩

theorem TokShape_init : TokShape TokState.init :=
  ⟨⟨.outside, rfl, rfl⟩, fun _ => rfl, by simp [TokState.init]⟩

/-- The state reached on any text satisfies the second invariant. -/
theorem TokShape_reach (text : Str) :
    ∃ st, tokenize_loop TokState.init text = some st ∧ TokShape st :=
  TokShape_loop text TokState.init TokShape_init

theorem shape_fold_none (toks : List TokenValuePair) : toks.foldl shape_step none = none := by
  induction toks with
  | nil => rfl
  | cons t ts ih => simpa [List.foldl_cons, shape_step] using ih

/-- The four ways of reading a token: open a tag, read its name, close it, or
read an attribute token. -/
theorem shape_step_cases (p q : Phase) (t : TokenValuePair)
    (h : shape_step (some p) t = some q) :
    (p = .outside ∧ t.token = .OPEN_TAG ∧ q = .afterOpen) ∨
    (p = .afterOpen ∧ (t.token = .TAG_NAME ∨ t.token = .END_TAG_SYMBOL) ∧ q = .inTag) ∨
    (p = .inTag ∧ t.token = .CLOSE_TAG ∧ q = .outside) ∨
    (p = .inTag ∧ (t.token = .ATTR_NAME ∨ t.token = .LQUOTE ∨ t.token = .ATTR_VAL ∨
      t.token = .RQUOTE) ∧ q = .inTag) := by
  obtain ⟨k, v⟩ := t
  cases p <;> cases k <;> simp [shape_step] at h <;> simp [h]

theorem shape_fold_cons (p p' : Phase) (t : TokenValuePair) (ts : List TokenValuePair)
    (h : (t :: ts).foldl shape_step (some p) = some p') :
    ∃ q, shape_step (some p) t = some q ∧ ts.foldl shape_step (some q) = some p' := by
  rw [List.foldl_cons] at h
  cases hq : shape_step (some p) t with
  | none => rw [hq, shape_fold_none] at h; cases h
  | some q => exact ⟨q, rfl, by rw [hq] at h; exact h⟩

/-- In a well-shaped sequence the markers alternate, and the counts of
`OPEN_TAG` and `CLOSE_TAG` differ by the phases at both ends. -/
theorem shape_markers (toks : List TokenValuePair) :
    ∀ p p' : Phase, toks.foldl shape_step (some p) = some p' →
    alternates (decide (p = .outside)) (markers toks) = true ∧
      toks.countP (fun t => t.token = .OPEN_TAG) + (if p = .outside then 0 else 1)
        = toks.countP (fun t => t.token = .CLOSE_TAG) + (if p' = .outside then 0 else 1) := by
  induction toks with
  | nil =>
    intro p p' h
    simp only [List.foldl_nil, Option.some.injEq] at h
    subst h
    simp [markers, alternates]
  | cons t ts ih =>
    intro p p' h
    obtain ⟨q, hq, hrest⟩ := shape_fold_cons p p' t ts h
    obtain ⟨ih1, ih2⟩ := ih q p' hrest
    rcases shape_step_cases p q t hq with ⟨rfl, ht, rfl⟩ | ⟨rfl, ht, rfl⟩ | ⟨rfl, ht, rfl⟩ |
      ⟨rfl, ht, rfl⟩
    · simp only [markers, List.map_cons, ht, List.filter_cons, List.countP_cons] at ih1 ih2 ⊢
      simp only [decide_True, Bool.true_or, if_true, alternates, Bool.not_true] at ih1 ih2 ⊢
      simp at ih1 ih2 ⊢
      exact ⟨ih1, by omega⟩
    · simp only [markers, List.map_cons, List.filter_cons, List.countP_cons] at ih1 ih2 ⊢
      rcases ht with ht | ht <;> simp [ht] at ih1 ih2 ⊢ <;> exact ⟨ih1, by omega⟩
    · simp only [markers, List.map_cons, ht, List.filter_cons, List.countP_cons] at ih1 ih2 ⊢
      simp [alternates] at ih1 ih2 ⊢
      exact ⟨ih1, by omega⟩
    · simp only [markers, List.map_cons, List.filter_cons, List.countP_cons] at ih1 ih2 ⊢
      rcases ht with ht | ht | ht | ht <;> simp [ht] at ih1 ih2 ⊢ <;> exact ⟨ih1, by omega⟩

theorem shape_fold_append (p p' : Phase) (a b : List TokenValuePair)
    (h : (a ++ b).foldl shape_step (some p) = some p') :
    ∃ q, a.foldl shape_step (some p) = some q ∧ b.foldl shape_step (some q) = some p' := by
  rw [List.foldl_append] at h
  cases hq : a.foldl shape_step (some p) with
  | none => rw [hq, shape_fold_none] at h; cases h
  | some q => exact ⟨q, rfl, by rw [hq] at h; exact h⟩

/-- Inside a tag, up to the next `CLOSE_TAG`, only attribute tokens come. -/
theorem shape_inTag (rest : List TokenValuePair) :
    ∀ (more : List TokenValuePair) (p' : Phase),
    (rest ++ more).foldl shape_step (some .inTag) = some p' →
    (∀ x ∈ rest, x.token ≠ .CLOSE_TAG) →
    ∀ x ∈ rest, x.token ≠ .TAG_NAME ∧ x.token ≠ .END_TAG_SYMBOL ∧ x.token ≠ .OPEN_TAG := by
  induction rest with
  | nil => intro more p' _ _ x hx; cases hx
  | cons t ts ih =>
    intro more p' h hno x hx
    obtain ⟨q, hq, hrest⟩ := shape_fold_cons .inTag p' t (ts ++ more) h
    have ht := hno t (by simp)
    rcases shape_step_cases .inTag q t hq with ⟨h1, _⟩ | ⟨h1, _⟩ | ⟨_, h2, _⟩ | ⟨_, h2, rfl⟩
    · cases h1
    · cases h1
    · exact absurd h2 ht
    · rcases List.mem_cons.1 hx with rfl | hx
      · rcases h2 with h2 | h2 | h2 | h2 <;> simp [h2]
      · exact ih more p' hrest (fun y hy => hno y (by simp [hy])) x hx

/-- Between an `OPEN_TAG` and the following `CLOSE_TAG` of a well-shaped
sequence stands one name token, first, and then attribute tokens only. -/
theorem shape_between (pre mid post : List TokenValuePair) (o c : TokenValuePair) (p' : Phase)
    (h : shape (pre ++ o :: mid ++ c :: post) = some p')
    (ho : o.token = .OPEN_TAG) (hc : c.token = .CLOSE_TAG)
    (hmid : ∀ x ∈ mid, x.token ≠ .CLOSE_TAG) :
    ∃ name rest, mid = name :: rest ∧
      (name.token = .TAG_NAME ∨ name.token = .END_TAG_SYMBOL) ∧
      ∀ x ∈ rest, x.token ≠ .TAG_NAME ∧ x.token ≠ .END_TAG_SYMBOL ∧ x.token ≠ .OPEN_TAG := by
  simp only [shape, List.append_assoc, List.cons_append] at h
  obtain ⟨q, _, h1⟩ := shape_fold_append .outside p' pre _ h
  obtain ⟨q1, hq1, h2⟩ := shape_fold_cons q p' o _ h1
  have hq1' : q1 = .afterOpen := by
    rcases shape_step_cases q q1 o hq1 with ⟨_, _, e⟩ | ⟨_, e, _⟩ | ⟨_, e, _⟩ | ⟨_, e, _⟩
    · exact e
    · rcases e with e | e <;> simp [ho] at e
    · simp [ho] at e
    · rcases e with e | e | e | e <;> simp [ho] at e
  subst hq1'
  cases mid with
  | nil =>
    obtain ⟨q2, hq2, _⟩ := shape_fold_cons .afterOpen p' c _ h2
    rcases shape_step_cases .afterOpen q2 c hq2 with ⟨e, _⟩ | ⟨_, e, _⟩ | ⟨e, _⟩ | ⟨e, _⟩
    · cases e
    · rcases e with e | e <;> simp [hc] at e
    · cases e
    · cases e
  | cons name rest =>
    obtain ⟨q2, hq2, h3⟩ := shape_fold_cons .afterOpen p' name _ h2
    rcases shape_step_cases .afterOpen q2 name hq2 with ⟨e, _⟩ | ⟨_, e, rfl⟩ | ⟨e, _⟩ | ⟨e, _⟩
    · cases e
    · exact ⟨name, rest, rfl, e,
        shape_inTag rest (c :: post) p' h3 (fun x hx => hmid x (by simp [hx]))⟩
    · cases e
    · cases e

/-! ## Tokenizing piece by piece -/

/-- A step does not look at the tokens emitted long ago: it only reads the last
one, in state `ATTR_VAL`. -/
theorem tokenize_step_prefix (pre : List TokenValuePair) (st : TokState) (c : Char)
    (h : st.next.token = .ATTR_VAL → st.tokens ≠ []) :
    tokenize_step ⟨pre ++ st.tokens, st.next⟩ c
      = (tokenize_step st c).map (fun s => ⟨pre ++ s.tokens, s.next⟩) := by
  obtain ⟨toks, ⟨k, v⟩⟩ := st
  cases k with
  | ATTR_VAL =>
    have hne := h rfl
    obtain ⟨last, hlast⟩ : ∃ last, toks.getLast? = some last := by
      cases hl : toks.getLast? with
      | none => exact absurd (List.getLast?_eq_none_iff.1 hl) hne
      | some last => exact ⟨last, rfl⟩
    have hlast' : (pre ++ toks).getLast? = some last := by
      simp [List.getLast?_append, hlast]
    simp only [tokenize_step, hlast, hlast', Option.map_some', attr_val_step]
    split
    · split <;> simp
    · split
      · simp
      · split
        · rfl
        · split <;> rfl
  | NONE => simp only [tokenize_step]; split <;> simp
  | OPEN_TAG => simp only [tokenize_step]; split <;> [rfl; (split <;> rfl)]
  | END_TAG_SYMBOL => simp only [tokenize_step]; split <;> [rfl; (split <;> simp)]
  | TAG_NAME =>
    simp only [tokenize_step]
    split <;> [rfl; (split <;> [simp; (split <;> simp)])]
  | ATTR_NAME =>
    simp only [tokenize_step]
    split <;> [rfl; (split <;> [simp; (split <;> simp)])]
  | CLOSE_TAG => rfl
  | LQUOTE => rfl
  | RQUOTE => rfl

theorem TokShape_nonempty (st : TokState) (h : TokShape st) :
    st.next.token = .ATTR_VAL → st.tokens ≠ [] := by
  intro hk hnil
  obtain ⟨last, hlast, _⟩ := h.2.2 hk
  simp [hnil] at hlast

theorem tokenize_loop_prefix (pre : List TokenValuePair) (cs : List Char) :
    ∀ st : TokState, TokShape st →
    tokenize_loop ⟨pre ++ st.tokens, st.next⟩ cs
      = (tokenize_loop st cs).map (fun s => ⟨pre ++ s.tokens, s.next⟩) := by
  induction cs with
  | nil => intro st _; rfl
  | cons c cs ih =>
    intro st h
    obtain ⟨st1, h1, hinv1⟩ := TokShape_step st c h
    simp only [tokenize_loop, tokenize_step_prefix pre st c (TokShape_nonempty st h), h1,
      Option.map_some']
    exact ih st1 hinv1

/-- Outside a tag every character other than `<` is skipped. -/
theorem tokenize_loop_outside (toks : List TokenValuePair) (v g rest : Str)
    (hg : ∀ c ∈ g, c ≠ '<') :
    tokenize_loop ⟨toks, ⟨.NONE, v⟩⟩ (g ++ rest) = tokenize_loop ⟨toks, ⟨.NONE, v⟩⟩ rest := by
  induction g with
  | nil => rfl
  | cons c cs ih =>
    have hc : c ≠ '<' := hg c (by simp)
    rw [List.cons_append, tokenize_loop_cons _ ⟨toks, ⟨.NONE, v⟩⟩ _ _
      (by simp [tokenize_step, hc])]
    exact ih (fun x hx => hg x (by simp [hx]))

/-- Tokenizing a text that follows a text ending outside a tag and a stretch
free of `<`. -/
theorem tokenize_after_none (d g t : Str) (hd : back_in_none d = true)
    (hg : ∀ c ∈ g, c ≠ '<') :
    ∃ a b, tokenize_hrml_string d = some a ∧ tokenize_hrml_string t = some b ∧
      tokenize_hrml_string (d ++ g ++ t) = some (a ++ b) := by
  obtain ⟨std, hstd, hshape⟩ := TokShape_reach d
  obtain ⟨stt, hstt, _⟩ := TokShape_reach t
  simp only [back_in_none, hstd, decide_eq_true_eq] at hd
  obtain ⟨toks, ⟨k, v⟩⟩ := std
  simp only at hd
  subst hd
  have hv : v = [] := hshape.2.1 rfl
  subst hv
  refine ⟨toks, stt.tokens, by simp [tokenize_hrml_string, hstd],
    by simp [tokenize_hrml_string, hstt], ?_⟩
  have h1 := tokenize_loop_prefix toks t TokState.init TokShape_init
  simp only [TokState.init, List.append_nil] at h1
  simp only [tokenize_hrml_string, List.append_assoc, tokenize_loop_append _ d, hstd,
    Option.some_bind, tokenize_loop_outside toks [] g t hg, h1]
  simp only [TokState.init] at hstt
  simp [hstt]

/-- After a list of canonical tags the tokenizer is back in state `NONE`. -/
theorem back_in_none_tags (tags : List Tag) (h : ∀ t ∈ tags, isTag t = true) :
    back_in_none (render_tags tags) = true := by
  have := tokenize_loop_tags tags h [] []
  simp only [List.append_nil] at this
  simp [back_in_none, TokState.init, this, tokenize_loop]

/-! ## Whitespace and other skipped characters inside tags -/

theorem isBlank_isspace (c : Char) (h : isBlank c = true) : isspace c = true := by
  simp only [isBlank, Bool.or_eq_true, decide_eq_true_eq] at h
  rcases h with ((rfl | rfl) | rfl) | rfl <;> decide

theorem isspace_not_alpha (c : Char) (h : isspace c = true) : isalpha c = false := by
  simp only [isspace, Bool.or_eq_true, decide_eq_true_eq, Bool.and_eq_true] at h
  simp only [isalpha, Bool.or_eq_false_iff, Bool.and_eq_false_iff, decide_eq_false_iff_not]
  omega

theorem isspace_not_name (c : Char) (h : isspace c = true) : isValidNameChar c = false := by
  have ha := isspace_not_alpha c h
  have hd : isdigit c = false := by
    simp only [isspace, Bool.or_eq_true, decide_eq_true_eq, Bool.and_eq_true] at h
    simp only [isdigit, Bool.and_eq_false_iff, decide_eq_false_iff_not]
    omega
  have h1 : c ≠ '-' := by rintro rfl; revert h; decide
  have h2 : c ≠ '_' := by rintro rfl; revert h; decide
  simp [isValidNameChar, isalnum, ha, hd, h1, h2]

theorem isspace_ne (c : Char) (h : isspace c = true) :
    c ≠ '<' ∧ c ≠ '>' ∧ c ≠ '=' ∧ c ≠ '"' ∧ c ≠ '/' := by
  refine ⟨?_, ?_, ?_, ?_, ?_⟩ <;> (rintro rfl; revert h; decide)

/-- A run of characters on each of which the step leaves the state as it is. -/
theorem tokenize_loop_skip (st : TokState) (w rest : Str)
    (h : ∀ c ∈ w, tokenize_step st c = some st) :
    tokenize_loop st (w ++ rest) = tokenize_loop st rest := by
  induction w with
  | nil => rfl
  | cons c cs ih =>
    rw [List.cons_append, tokenize_loop_cons _ st _ _ (h c (by simp))]
    exact ih (fun x hx => h x (by simp [hx]))

theorem skip_open (toks : List TokenValuePair) (v w rest : Str)
    (hw : ∀ c ∈ w, isspace c = true) :
    tokenize_loop ⟨toks, ⟨.OPEN_TAG, v⟩⟩ (w ++ rest)
      = tokenize_loop ⟨toks, ⟨.OPEN_TAG, v⟩⟩ rest :=
  tokenize_loop_skip _ w rest (fun c hc => by
    simp [tokenize_step, isspace_not_alpha c (hw c hc), (isspace_ne c (hw c hc)).2.2.2.2])

theorem skip_end (toks : List TokenValuePair) (v w rest : Str)
    (hw : ∀ c ∈ w, isspace c = true) :
    tokenize_loop ⟨toks, ⟨.END_TAG_SYMBOL, v⟩⟩ (w ++ rest)
      = tokenize_loop ⟨toks, ⟨.END_TAG_SYMBOL, v⟩⟩ rest :=
  tokenize_loop_skip _ w rest (fun c hc => by
    simp [tokenize_step, isspace_not_name c (hw c hc), (isspace_ne c (hw c hc)).2.1])

theorem skip_attr_name (toks : List TokenValuePair) (v w rest : Str)
    (hw : ∀ c ∈ w, isspace c = true) :
    tokenize_loop ⟨toks, ⟨.ATTR_NAME, v⟩⟩ (w ++ rest)
      = tokenize_loop ⟨toks, ⟨.ATTR_NAME, v⟩⟩ rest :=
  tokenize_loop_skip _ w rest (fun c hc => by
    simp [tokenize_step, isspace_not_name c (hw c hc), (isspace_ne c (hw c hc)).2.1,
      (isspace_ne c (hw c hc)).2.2.1])

theorem skip_before_quote (toks : List TokenValuePair) (a v w rest : Str)
    (hw : ∀ c ∈ w, isspace c = true) :
    tokenize_loop ⟨toks ++ [⟨.ATTR_NAME, a⟩], ⟨.ATTR_VAL, v⟩⟩ (w ++ rest)
      = tokenize_loop ⟨toks ++ [⟨.ATTR_NAME, a⟩], ⟨.ATTR_VAL, v⟩⟩ rest :=
  tokenize_loop_skip _ w rest (fun c hc => by
    simp [tokenize_step, attr_val_step, hw c hc, (isspace_ne c (hw c hc)).2.2.2.1])

/-- After a closing quote every character other than a quote, `>` and a letter
is appended to the value that was emitted, which stays under construction. -/
theorem tokenize_loop_junk (toks : List TokenValuePair) (junk w rest : Str)
    (hw : ∀ c ∈ w, c ≠ '"' ∧ c ≠ '>' ∧ isalpha c = false) :
    tokenize_loop ⟨toks ++ [⟨.RQUOTE, []⟩], ⟨.ATTR_VAL, junk⟩⟩ (w ++ rest)
      = tokenize_loop ⟨toks ++ [⟨.RQUOTE, []⟩], ⟨.ATTR_VAL, junk ++ w⟩⟩ rest := by
  induction w generalizing junk with
  | nil => simp
  | cons c cs ih =>
    obtain ⟨h1, h2, h3⟩ := hw c (by simp)
    rw [List.cons_append, tokenize_loop_cons _
      ⟨toks ++ [⟨.RQUOTE, []⟩], ⟨.ATTR_VAL, junk ++ [c]⟩⟩ _ _
      (by simp [tokenize_step, attr_val_step, h1, h2, h3])]
    simpa using ih (junk ++ [c]) (fun x hx => hw x (by simp [hx]))

theorem isspace_junk (w : Str) (hw : ∀ c ∈ w, isspace c = true) :
    ∀ c ∈ w, c ≠ '"' ∧ c ≠ '>' ∧ isalpha c = false :=
  fun c hc => ⟨(isspace_ne c (hw c hc)).2.2.2.1, (isspace_ne c (hw c hc)).2.1,
    isspace_not_alpha c (hw c hc)⟩

/-- A non-empty run of whitespace after a tag name: the name is emitted and the
state becomes `ATTR_NAME`. -/
theorem tokenize_loop_name_end (toks : List TokenValuePair) (n w rest : Str)
    (hw : ∀ c ∈ w, isspace c = true) (hne : w ≠ []) :
    tokenize_loop ⟨toks, ⟨.TAG_NAME, n⟩⟩ (w ++ rest)
      = tokenize_loop ⟨toks ++ [⟨.TAG_NAME, n⟩], ⟨.ATTR_NAME, []⟩⟩ rest := by
  cases w with
  | nil => exact absurd rfl hne
  | cons c cs =>
    have hc := hw c (by simp)
    rw [List.cons_append, tokenize_loop_cons _ ⟨toks ++ [⟨.TAG_NAME, n⟩], ⟨.ATTR_NAME, []⟩⟩ _ _
      (by simp [tokenize_step, isspace_not_name c hc, hc])]
    exact skip_attr_name _ _ cs rest (fun x hx => hw x (by simp [hx]))

/-- From the end of an attribute name on, with whitespace around `=`. -/
theorem tokenize_loop_spaced_value (toks : List TokenValuePair) (a e0 e1 v rest : Str)
    (h0 : ∀ c ∈ e0, isspace c = true) (h1 : ∀ c ∈ e1, isspace c = true)
    (hv : isValue v = true) :
    tokenize_loop ⟨toks, ⟨.ATTR_NAME, a⟩⟩ (e0 ++ ('=' :: (e1 ++ ('"' :: (v ++ '"' :: rest)))))
      = tokenize_loop ⟨toks ++ attr_tokens (a, v), ⟨.ATTR_VAL, v⟩⟩ rest := by
  rw [skip_attr_name _ _ _ _ h0]
  rw [tokenize_loop_cons _ ⟨toks ++ [⟨.ATTR_NAME, a⟩], ⟨.ATTR_VAL, []⟩⟩ _ _
    (by simp [tokenize_step, isValidNameChar, isalnum, isalpha, isdigit])]
  rw [skip_before_quote _ _ _ _ _ h1]
  rw [tokenize_loop_cons _
    ⟨toks ++ [⟨.ATTR_NAME, a⟩] ++ [⟨.LQUOTE, []⟩], ⟨.ATTR_VAL, []⟩⟩ _ _
    (by simp [tokenize_step, attr_val_step])]
  rw [tokenize_loop_value _ _ _ _ ((isValue_iff v).1 hv)]
  rw [tokenize_loop_cons _ ⟨toks ++ attr_tokens (a, v), ⟨.ATTR_VAL, v⟩⟩ _ _
    (by simp [tokenize_step, attr_val_step, attr_tokens])]

theorem isBlankRun_isspace (w : Str) (h : isBlankRun w = true) : ∀ c ∈ w, isspace c = true := by
  simp only [isBlankRun, List.all_eq_true] at h
  exact fun c hc => isBlank_isspace c (h c hc)

theorem isSpacedAttr_iff (a : SpacedAttr) (h : isSpacedAttr a = true) :
    (∀ c ∈ a.gap0, isspace c = true) ∧ (∀ c ∈ a.gap1, isspace c = true) ∧
    (∀ c ∈ a.eq0, isspace c = true) ∧ (∀ c ∈ a.eq1, isspace c = true) ∧
    isName a.name = true ∧ isValue a.value = true := by
  simp only [isSpacedAttr, Bool.and_eq_true] at h
  obtain ⟨⟨⟨⟨⟨h1, h2⟩, h3⟩, h4⟩, h5⟩, h6⟩ := h
  exact ⟨isBlankRun_isspace _ h1, isBlankRun_isspace _ h2, isBlankRun_isspace _ h3,
    isBlankRun_isspace _ h4, h5, h6⟩

theorem gap_isspace (a : SpacedAttr) (h0 : ∀ c ∈ a.gap0, isspace c = true)
    (h1 : ∀ c ∈ a.gap1, isspace c = true) : ∀ c ∈ a.gap0 ++ ' ' :: a.gap1, isspace c = true := by
  intro c hc
  simp only [List.mem_append, List.mem_cons] at hc
  rcases hc with hc | rfl | hc
  · exact h0 c hc
  · decide
  · exact h1 c hc

theorem render_spaced_attr_eq (a : SpacedAttr) (rest : Str) :
    render_spaced_attr a ++ rest
      = (a.gap0 ++ ' ' :: a.gap1) ++ (a.name ++ (a.eq0 ++ ('=' :: (a.eq1 ++ ('"' :: (a.value
        ++ '"' :: rest)))))) := by
  simp [render_spaced_attr, List.append_assoc]

/-- The first attribute of a tag with its inserted whitespace, read in state
`TAG_NAME`. -/
theorem tokenize_loop_spaced_first (toks : List TokenValuePair) (n : Str) (a : SpacedAttr)
    (rest : Str) (h : isSpacedAttr a = true) :
    tokenize_loop ⟨toks, ⟨.TAG_NAME, n⟩⟩ (render_spaced_attr a ++ rest)
      = tokenize_loop ⟨toks ++ ⟨.TAG_NAME, n⟩ :: attr_tokens a.attr, ⟨.ATTR_VAL, a.value⟩⟩
          rest := by
  obtain ⟨h0, h1, h2, h3, hn, hv⟩ := isSpacedAttr_iff a h
  rw [render_spaced_attr_eq, tokenize_loop_name_end _ _ _ _ (gap_isspace a h0 h1) (by simp)]
  rw [tokenize_loop_name .ATTR_NAME (by simp) _ _ _ _ (isName_chars a.name hn)]
  rw [List.nil_append, tokenize_loop_spaced_value _ _ _ _ _ _ h2 h3 hv]
  simp [SpacedAttr.attr]

/-- A further attribute with its inserted whitespace, read after a closing
quote. -/
theorem tokenize_loop_spaced_next (toks : List TokenValuePair) (junk : Str) (a : SpacedAttr)
    (rest : Str) (h : isSpacedAttr a = true) :
    tokenize_loop ⟨toks ++ [⟨.RQUOTE, []⟩], ⟨.ATTR_VAL, junk⟩⟩ (render_spaced_attr a ++ rest)
      = tokenize_loop
          ⟨toks ++ ⟨.RQUOTE, []⟩ :: attr_tokens a.attr, ⟨.ATTR_VAL, a.value⟩⟩ rest := by
  obtain ⟨h0, h1, h2, h3, hn, hv⟩ := isSpacedAttr_iff a h
  obtain ⟨c, cs, hname, hc, hcs⟩ := (isName_iff a.name).1 hn
  rw [render_spaced_attr_eq, tokenize_loop_junk _ _ _ _ (isspace_junk _ (gap_isspace a h0 h1))]
  rw [hname, List.cons_append]
  have hq : c ≠ '"' := by rintro rfl; simp [isalpha] at hc
  have hg : c ≠ '>' := by rintro rfl; simp [isalpha] at hc
  rw [tokenize_loop_cons _ ⟨toks ++ [⟨.RQUOTE, []⟩], ⟨.ATTR_NAME, [c]⟩⟩ _ _
    (by simp [tokenize_step, attr_val_step, hc, hq, hg])]
  rw [tokenize_loop_name .ATTR_NAME (by simp) _ _ _ _ hcs]
  rw [tokenize_loop_spaced_value _ _ _ _ _ _ h2 h3 hv]
  simp [SpacedAttr.attr, hname]

/-- The attributes after the first one, with their inserted whitespace. -/
theorem tokenize_loop_spaced_attrs (attrs : List SpacedAttr)
    (h : ∀ a ∈ attrs, isSpacedAttr a = true) :
    ∀ (toks : List TokenValuePair) (junk rest : Str),
    ∃ toks' junk',
      toks ++ ⟨.RQUOTE, []⟩ :: ((attrs.map SpacedAttr.attr).map attr_tokens).flatten
        = toks' ++ [⟨.RQUOTE, []⟩] ∧
      tokenize_loop ⟨toks ++ [⟨.RQUOTE, []⟩], ⟨.ATTR_VAL, junk⟩⟩
          ((attrs.map render_spaced_attr).flatten ++ rest)
        = tokenize_loop ⟨toks' ++ [⟨.RQUOTE, []⟩], ⟨.ATTR_VAL, junk'⟩⟩ rest := by
  induction attrs with
  | nil => intro toks junk rest; exact ⟨toks, junk, by simp, by simp⟩
  | cons a as ih =>
    intro toks junk rest
    obtain ⟨toks', junk', h1, h2⟩ :=
      ih (fun x hx => h x (by simp [hx]))
        (toks ++ [⟨.RQUOTE, []⟩, ⟨.ATTR_NAME, a.name⟩, ⟨.LQUOTE, []⟩, ⟨.ATTR_VAL, a.value⟩])
        a.value rest
    refine ⟨toks', junk', ?_, ?_⟩
    · rw [← h1]; simp [attr_tokens, SpacedAttr.attr]
    · rw [← h2]
      simp only [List.map_cons, List.flatten_cons, List.append_assoc]
      rw [tokenize_loop_spaced_next _ _ _ _ (h a (by simp))]
      simp [attr_tokens, SpacedAttr.attr]

/-- A closing tag with its inserted whitespace, read in state `NONE`. -/
theorem tokenize_loop_spaced_closing (toks : List TokenValuePair) (lead n tail rest : Str)
    (hl : ∀ c ∈ lead, isspace c = true) (ht : ∀ c ∈ tail, isspace c = true)
    (hn : isName n = true) :
    tokenize_loop ⟨toks, ⟨.NONE, []⟩⟩ (render_spaced_tag (.closing lead n tail) ++ rest)
      = tokenize_loop ⟨toks ++ tag_tokens (.closing n), ⟨.NONE, []⟩⟩ rest := by
  simp only [render_spaced_tag, List.cons_append, List.append_assoc, List.nil_append,
    List.singleton_append]
  rw [tokenize_loop_cons _ ⟨toks ++ [⟨.OPEN_TAG, []⟩], ⟨.OPEN_TAG, []⟩⟩ _ _
    (by simp [tokenize_step])]
  rw [tokenize_loop_cons _ ⟨toks ++ [⟨.OPEN_TAG, []⟩], ⟨.END_TAG_SYMBOL, []⟩⟩ _ _
    (by simp [tokenize_step, isalpha])]
  rw [skip_end _ _ _ _ hl]
  rw [tokenize_loop_name .END_TAG_SYMBOL (by simp) _ _ _ _ (isName_chars n hn)]
  rw [skip_end _ _ _ _ ht]
  rw [tokenize_loop_cons _ ⟨toks ++ tag_tokens (.closing n), ⟨.NONE, []⟩⟩ _ _
    (by simp [tokenize_step, tag_tokens, isValidNameChar, isalnum, isalpha, isdigit])]

/-- The end of an opening tag without attributes: whitespace, then `>`. -/
theorem tokenize_loop_name_close (toks : List TokenValuePair) (n tail rest : Str)
    (ht : ∀ c ∈ tail, isspace c = true) :
    tokenize_loop ⟨toks, ⟨.TAG_NAME, n⟩⟩ (tail ++ '>' :: rest)
      = tokenize_loop ⟨toks ++ [⟨.TAG_NAME, n⟩, ⟨.CLOSE_TAG, []⟩], ⟨.NONE, []⟩⟩ rest := by
  cases tail with
  | nil =>
    rw [List.nil_append, tokenize_loop_cons _
      ⟨toks ++ [⟨.TAG_NAME, n⟩, ⟨.CLOSE_TAG, []⟩], ⟨.NONE, []⟩⟩ _ _
      (by simp [tokenize_step, isValidNameChar, isalnum, isalpha, isdigit, isspace])]
  | cons c cs =>
    rw [tokenize_loop_name_end _ _ _ _ ht (by simp)]
    rw [tokenize_loop_cons _ ⟨toks ++ [⟨.TAG_NAME, n⟩, ⟨.CLOSE_TAG, []⟩], ⟨.NONE, []⟩⟩ _ _
      (by simp [tokenize_step, isValidNameChar, isalnum, isalpha, isdigit])]

/-- The end of an opening tag after its last attribute: whitespace, then `>`. -/
theorem tokenize_loop_quote_close (toks : List TokenValuePair) (junk tail rest : Str)
    (ht : ∀ c ∈ tail, isspace c = true) :
    tokenize_loop ⟨toks ++ [⟨.RQUOTE, []⟩], ⟨.ATTR_VAL, junk⟩⟩ (tail ++ '>' :: rest)
      = tokenize_loop ⟨toks ++ [⟨.RQUOTE, []⟩, ⟨.CLOSE_TAG, []⟩], ⟨.NONE, []⟩⟩ rest := by
  rw [tokenize_loop_junk _ _ _ _ (isspace_junk _ ht)]
  rw [tokenize_loop_cons _ ⟨toks ++ [⟨.RQUOTE, []⟩, ⟨.CLOSE_TAG, []⟩], ⟨.NONE, []⟩⟩ _ _
    (by simp [tokenize_step, attr_val_step])]

/-- An opening tag with its inserted whitespace, read in state `NONE`. -/
theorem tokenize_loop_spaced_opening (toks : List TokenValuePair) (lead n : Str)
    (attrs : List SpacedAttr) (tail rest : Str)
    (hl : ∀ c ∈ lead, isspace c = true) (ht : ∀ c ∈ tail, isspace c = true)
    (hn : isName n = true) (h : ∀ a ∈ attrs, isSpacedAttr a = true) :
    tokenize_loop ⟨toks, ⟨.NONE, []⟩⟩ (render_spaced_tag (.opening lead n attrs tail) ++ rest)
      = tokenize_loop
          ⟨toks ++ tag_tokens (.opening n (attrs.map SpacedAttr.attr)), ⟨.NONE, []⟩⟩ rest := by
  obtain ⟨c, cs, rfl, hc, hcs⟩ := (isName_iff n).1 hn
  simp only [render_spaced_tag, List.cons_append, List.append_assoc, List.nil_append,
    List.singleton_append]
  rw [tokenize_loop_cons _ ⟨toks ++ [⟨.OPEN_TAG, []⟩], ⟨.OPEN_TAG, []⟩⟩ _ _
    (by simp [tokenize_step])]
  rw [skip_open _ _ _ _ hl]
  rw [tokenize_loop_cons _ ⟨toks ++ [⟨.OPEN_TAG, []⟩], ⟨.TAG_NAME, [c]⟩⟩ _ _
    (by simp [tokenize_step, hc])]
  rw [tokenize_loop_name .TAG_NAME (by simp) _ _ _ _ hcs]
  cases attrs with
  | nil =>
    simp only [List.map_nil, List.flatten_nil, List.nil_append]
    rw [tokenize_loop_name_close _ _ _ _ ht]
    simp [tag_tokens]
  | cons a as =>
    simp only [List.map_cons, List.flatten_cons, List.append_assoc]
    rw [tokenize_loop_spaced_first _ _ _ _ (h a (by simp))]
    obtain ⟨toks', junk', h1, h2⟩ := tokenize_loop_spaced_attrs as
      (fun x hx => h x (by simp [hx]))
      (toks ++ [⟨.OPEN_TAG, []⟩, ⟨.TAG_NAME, c :: cs⟩, ⟨.ATTR_NAME, a.name⟩, ⟨.LQUOTE, []⟩,
        ⟨.ATTR_VAL, a.value⟩]) a.value (tail ++ '>' :: rest)
    have e1 : toks ++ [⟨.OPEN_TAG, []⟩] ++ ⟨.TAG_NAME, [c] ++ cs⟩ :: attr_tokens a.attr
        = (toks ++ [⟨.OPEN_TAG, []⟩, ⟨.TAG_NAME, c :: cs⟩, ⟨.ATTR_NAME, a.name⟩, ⟨.LQUOTE, []⟩,
          ⟨.ATTR_VAL, a.value⟩]) ++ [⟨.RQUOTE, []⟩] := by
      simp [attr_tokens, SpacedAttr.attr]
    rw [e1, h2, tokenize_loop_quote_close _ _ _ _ ht]
    have e2 : toks' ++ [⟨.RQUOTE, []⟩, ⟨.CLOSE_TAG, []⟩]
        = (toks' ++ [⟨.RQUOTE, []⟩]) ++ [⟨.CLOSE_TAG, []⟩] := by simp
    rw [e2, ← h1]
    simp [tag_tokens, attr_tokens, SpacedAttr.attr]

/-- A list of tags with their inserted whitespace, read in state `NONE`. -/
theorem tokenize_loop_spaced_tags (tags : List SpacedTag)
    (h : ∀ t ∈ tags, isSpacedTag t = true) :
    ∀ (toks : List TokenValuePair) (rest : Str),
    tokenize_loop ⟨toks, ⟨.NONE, []⟩⟩ (render_spaced_tags tags ++ rest)
      = tokenize_loop ⟨toks ++ tags_tokens (tags.map SpacedTag.tag), ⟨.NONE, []⟩⟩ rest := by
  induction tags with
  | nil => intro toks rest; simp [render_spaced_tags, tags_tokens]
  | cons t ts ih =>
    intro toks rest
    have ht := h t (by simp)
    have ih' := ih (fun x hx => h x (by simp [hx]))
    simp only [render_spaced_tags, tags_tokens, List.map_cons, List.flatten_cons,
      List.append_assoc]
    cases t with
    | opening lead n attrs tail =>
      simp only [isSpacedTag, Bool.and_eq_true, List.all_eq_true] at ht
      obtain ⟨⟨⟨hl, htl⟩, hn⟩, ha⟩ := ht
      rw [tokenize_loop_spaced_opening _ _ _ _ _ _ (isBlankRun_isspace _ hl)
        (isBlankRun_isspace _ htl) hn ha]
      simpa [render_spaced_tags, tags_tokens, SpacedTag.tag] using
        ih' (toks ++ tag_tokens (.opening n (attrs.map SpacedAttr.attr))) rest
    | closing lead n tail =>
      simp only [isSpacedTag, Bool.and_eq_true] at ht
      obtain ⟨⟨hl, htl⟩, hn⟩ := ht
      rw [tokenize_loop_spaced_closing _ _ _ _ _ (isBlankRun_isspace _ hl)
        (isBlankRun_isspace _ htl) hn]
      simpa [render_spaced_tags, tags_tokens, SpacedTag.tag] using
        ih' (toks ++ tag_tokens (.closing n)) rest

theorem isSpacedTag_tag (t : SpacedTag) (h : isSpacedTag t = true) : isTag t.tag = true := by
  cases t with
  | opening lead n attrs tail =>
    simp only [isSpacedTag, Bool.and_eq_true, List.all_eq_true] at h
    simp only [SpacedTag.tag, isTag, Bool.and_eq_true, List.all_eq_true, h.1.2, true_and]
    intro x hx
    obtain ⟨a, ha, rfl⟩ := List.mem_map.1 hx
    obtain ⟨_, _, _, _, hn, hv⟩ := isSpacedAttr_iff a (h.2 a ha)
    exact ⟨hn, hv⟩
  | closing lead n tail =>
    simp only [isSpacedTag, Bool.and_eq_true] at h
    simpa [SpacedTag.tag, isTag] using h.2

/-- The tokenizer on tags with inserted whitespace. -/
theorem tokenize_spaced_tags (tags : List SpacedTag) (h : ∀ t ∈ tags, isSpacedTag t = true) :
    tokenize_hrml_string (render_spaced_tags tags)
      = some (tags_tokens (tags.map SpacedTag.tag)) := by
  have := tokenize_loop_spaced_tags tags h [] []
  simp only [List.append_nil, List.nil_append] at this
  simp [tokenize_hrml_string, TokState.init, this, tokenize_loop]

/-! ## Stray quotes, the whitespace class, and names after a closing quote -/

/-- The canonical start `<a t="v"` of a tag: the state is `ATTR_VAL`, the last
token is `RQUOTE` and the value `v` is still under construction. -/
theorem tokenize_loop_a_t (v rest : Str) (hv : isValue v = true) :
    tokenize_loop TokState.init ("<a t=\"".toList ++ v ++ '"' :: rest)
      = tokenize_loop
          ⟨[⟨.OPEN_TAG, []⟩, ⟨.TAG_NAME, "a".toList⟩, ⟨.ATTR_NAME, "t".toList⟩, ⟨.LQUOTE, []⟩,
            ⟨.ATTR_VAL, v⟩, ⟨.RQUOTE, []⟩], ⟨.ATTR_VAL, v⟩⟩ rest := by
  have h0 : tokenize_loop TokState.init ("<a t=\"".toList ++ v ++ '"' :: rest)
      = tokenize_loop ⟨[⟨.OPEN_TAG, []⟩, ⟨.TAG_NAME, "a".toList⟩, ⟨.ATTR_NAME, "t".toList⟩,
          ⟨.LQUOTE, []⟩], ⟨.ATTR_VAL, []⟩⟩ (v ++ '"' :: rest) := by
    have e : "<a t=\"".toList = ['<', 'a', ' ', 't', '=', '"'] := by decide
    rw [e, List.append_assoc, tokenize_loop_append]
    have : tokenize_loop TokState.init ['<', 'a', ' ', 't', '=', '"']
        = some ⟨[⟨.OPEN_TAG, []⟩, ⟨.TAG_NAME, "a".toList⟩, ⟨.ATTR_NAME, "t".toList⟩,
          ⟨.LQUOTE, []⟩], ⟨.ATTR_VAL, []⟩⟩ := by decide
    rw [this, Option.some_bind]
  rw [h0]
  have h1 := tokenize_loop_value
    [⟨.OPEN_TAG, []⟩, ⟨.TAG_NAME, "a".toList⟩, ⟨.ATTR_NAME, "t".toList⟩] [] v ('"' :: rest)
    ((isValue_iff v).1 hv)
  simp only [List.cons_append, List.nil_append] at h1
  rw [h1]
  rw [tokenize_loop_cons _ ⟨[⟨.OPEN_TAG, []⟩, ⟨.TAG_NAME, "a".toList⟩,
    ⟨.ATTR_NAME, "t".toList⟩, ⟨.LQUOTE, []⟩, ⟨.ATTR_VAL, v⟩, ⟨.RQUOTE, []⟩], ⟨.ATTR_VAL, v⟩⟩ _ _
    (by simp [tokenize_step, attr_val_step])]

/-- A quote read in state `ATTR_VAL`: `LQUOTE` when the last token is
`ATTR_NAME`; otherwise the token under construction and `RQUOTE` are emitted
and the token under construction stays as it is. -/
theorem tokenize_step_quote (st : TokState) (last : TokenValuePair)
    (hk : st.next.token = .ATTR_VAL) (hl : st.tokens.getLast? = some last) :
    tokenize_step st '"' = some (if last.token = .ATTR_NAME
      then { st with tokens := st.tokens ++ [⟨.LQUOTE, []⟩] }
      else { st with tokens := st.tokens ++ [st.next, ⟨.RQUOTE, []⟩] }) := by
  obtain ⟨toks, ⟨k, v⟩⟩ := st
  simp only at hk hl
  subst hk
  simp only [tokenize_step, hl, attr_val_step, if_true]
  split <;> simp

/-- The text `<a t="v"">`: the second quote emits the value `v` again. -/
theorem tokenize_double_quote (v : Str) (hv : isValue v = true) :
    tokenize_hrml_string ("<a t=\"".toList ++ v ++ "\"\">".toList)
      = some [⟨.OPEN_TAG, []⟩, ⟨.TAG_NAME, "a".toList⟩, ⟨.ATTR_NAME, "t".toList⟩, ⟨.LQUOTE, []⟩,
          ⟨.ATTR_VAL, v⟩, ⟨.RQUOTE, []⟩, ⟨.ATTR_VAL, v⟩, ⟨.RQUOTE, []⟩, ⟨.CLOSE_TAG, []⟩] := by
  have e : "\"\">".toList = '"' :: ['"', '>'] := by decide
  rw [tokenize_hrml_string, e, tokenize_loop_a_t v _ hv]
  simp [tokenize_loop, tokenize_step, attr_val_step]

theorem isspace_iff (c : Char) :
    isspace c = true ↔ c = ' ' ∨ c = '\t' ∨ c = '\n' ∨ c = '\x0b' ∨ c = '\x0c' ∨ c = '\r' := by
  constructor
  · intro h
    simp only [isspace, Bool.or_eq_true, decide_eq_true_eq, Bool.and_eq_true] at h
    have hc : Char.ofNat c.toNat = c := Char.ofNat_toNat c
    have : c.toNat = 32 ∨ c.toNat = 9 ∨ c.toNat = 10 ∨ c.toNat = 11 ∨ c.toNat = 12
        ∨ c.toNat = 13 := by omega
    rcases this with h | h | h | h | h | h <;> rw [h] at hc <;> rw [← hc] <;> decide
  · rintro (rfl | rfl | rfl | rfl | rfl | rfl) <;> decide

/-- In state `TAG_NAME` exactly the characters of `isspace` end the name. -/
theorem tokenize_step_tag_name_space (toks : List TokenValuePair) (n : Str) (c : Char) :
    tokenize_step ⟨toks, ⟨.TAG_NAME, n⟩⟩ c = some ⟨toks ++ [⟨.TAG_NAME, n⟩], ⟨.ATTR_NAME, []⟩⟩
      ↔ isspace c = true := by
  constructor
  · intro h
    simp only [tokenize_step] at h
    split at h
    · simp at h
    · split at h
      · assumption
      · split at h <;> simp at h
  · intro h
    simp [tokenize_step, isspace_not_name c h, h]

/-- In state `ATTR_VAL` before the opening quote exactly the characters of
`isspace` are skipped, and exactly these and the quote are not appended. -/
theorem tokenize_step_before_quote (toks : List TokenValuePair) (a v : Str) (c : Char) :
    (tokenize_step ⟨toks ++ [⟨.ATTR_NAME, a⟩], ⟨.ATTR_VAL, v⟩⟩ c
        = some ⟨toks ++ [⟨.ATTR_NAME, a⟩], ⟨.ATTR_VAL, v⟩⟩ ↔ isspace c = true) ∧
    (tokenize_step ⟨toks ++ [⟨.ATTR_NAME, a⟩], ⟨.ATTR_VAL, v⟩⟩ c
        = some ⟨toks ++ [⟨.ATTR_NAME, a⟩], ⟨.ATTR_VAL, v ++ [c]⟩⟩
      ↔ ¬ (isspace c = true ∨ c = '"')) := by
  by_cases hq : c = '"'
  · subst hq
    simp [tokenize_step, attr_val_step, isspace]
  · by_cases hs : isspace c = true
    · simp [tokenize_step, attr_val_step, hq, hs]
    · simp [tokenize_step, attr_val_step, hq, hs]

theorem isNonLetterNameChar_facts (c : Char) (h : isNonLetterNameChar c = true) :
    isValidNameChar c = true ∧ c ≠ '"' ∧ c ≠ '>' ∧ isalpha c = false := by
  simp only [isNonLetterNameChar, Bool.or_eq_true, decide_eq_true_eq] at h
  rcases h with (h | rfl) | rfl
  · refine ⟨by simp [isValidNameChar, isalnum, h], ?_, ?_, ?_⟩
    · rintro rfl; revert h; decide
    · rintro rfl; revert h; decide
    · simp only [isdigit, Bool.and_eq_true, decide_eq_true_eq] at h
      simp only [isalpha, Bool.or_eq_false_iff, Bool.and_eq_false_iff, decide_eq_false_iff_not]
      omega
  · decide
  · decide

/-! ## Queries without a separator, and the path segments -/

/-- A query without `~` and shorter than `npos` is both the attribute name and
the path. -/
theorem query_split_whole (q : Str) (hq : ∀ c ∈ q, c ≠ '~') (hlen : q.length < 2 ^ 64) :
    query_split q = some (q, q) := by
  rw [query_split_no_tilde q hq, List.take_of_length_le (by omega)]

theorem query_hrml_no_tilde (q : Str) (forest : List HrmlElement) (hq : ∀ c ∈ q, c ≠ '~')
    (hb : q.length + 1 < 2 ^ 31) :
    query_hrml q forest = query_hrml (q ++ '~' :: q) forest := by
  rw [query_hrml_of_split _ _ _ forest (query_split_whole q hq (by omega)),
    query_hrml_of_split _ _ _ forest (query_split_tilde q q hq hb)]

/-- A query `t1.t2...tn` without `~` looks up the attribute named by the whole
query at the element reached by the path. -/
theorem query_hrml_no_tilde_path (path : List Str) (forest : List HrmlElement)
    (hne : path ≠ []) (hs : ∀ t ∈ path, isSegment t = true)
    (hlen : (dotted path).length < 2 ^ 64) (hn : path.length < 2 ^ 31) :
    query_hrml (dotted path) forest = some (spec_resolve path (dotted path) forest) := by
  obtain ⟨t, names, rfl⟩ : ∃ t names, path = t :: names := by
    cases path with
    | nil => exact absurd rfl hne
    | cons t names => exact ⟨t, names, rfl⟩
  rw [query_hrml_of_split _ _ _ forest (query_split_whole _ (dotted_no_tilde _ hs) hlen),
    getline_loop_dotted _ hne hs, resolve_path_cons _ _ _ _ (by simpa using hn)]

theorem getline_loop_extracted (s cur : Str) : getline_loop s cur true ≠ [] := by
  induction s generalizing cur with
  | nil => simp [getline_loop]
  | cons c cs ih =>
    by_cases hc : c = '.'
    · simp [getline_loop, hc]
    · simpa [getline_loop, hc] using ih (cur ++ [c])

/-- The path segments are none exactly for the empty path. -/
theorem getline_loop_eq_nil (s : Str) : getline_loop s [] false = [] ↔ s = [] := by
  cases s with
  | nil => simp [getline_loop]
  | cons c cs =>
    by_cases hc : c = '.'
    · simp [getline_loop, hc]
    · simpa [getline_loop, hc] using getline_loop_extracted cs [c]

/-- The path of a text has at most one segment more than the text has
characters. -/
theorem getline_loop_length (s : Str) :
    ∀ (cur : Str) (ex : Bool), (getline_loop s cur ex).length ≤ s.length + 1 := by
  induction s with
  | nil =>
    intro cur ex
    cases ex <;> simp [getline_loop]
  | cons c cs ih =>
    intro cur ex
    by_cases hc : c = '.'
    · have := ih [] false
      simp only [getline_loop, hc, if_true, List.length_cons]
      omega
    · have := ih (cur ++ [c]) true
      simp only [getline_loop, hc, if_false, List.length_cons]
      omega

/-- With at least one path segment and fewer than `2^31` the walk returns a
result. -/
theorem resolve_path_defined (attr : Str) (names : List Str) (forest : List HrmlElement)
    (h : names ≠ []) (hn : names.length < 2 ^ 31) :
    ∃ r, resolve_path attr names forest = some r := by
  cases names with
  | nil => exact absurd rfl h
  | cons t ts => exact ⟨_, resolve_path_cons attr t ts forest (by simpa using hn)⟩

/-- A non-empty query that does not begin with `~` and is shorter than `2^31 - 1`
characters has a result. -/
theorem query_hrml_defined (q : Str) (forest : List HrmlElement) (hne : q ≠ [])
    (hh : q.head? ≠ some '~') (hb : q.length + 1 < 2 ^ 31) :
    ∃ r, query_hrml q forest = some r := by
  cases hf : find_char '~' q with
  | none =>
    have hq : ∀ c ∈ q, c ≠ '~' := by
      intro c hc e
      subst e
      obtain ⟨p, r, rfl⟩ := List.append_of_mem hc
      by_cases hp : ∀ x ∈ p, x ≠ '~'
      · rw [find_char_skip '~' p r hp] at hf
        exact Option.noConfusion hf
      · obtain ⟨x, hx, hx'⟩ : ∃ x ∈ p, x = '~' := by
          by_contra hcon
          exact hp (fun x hx e => hcon ⟨x, hx, e⟩)
        subst hx'
        obtain ⟨p1, p2, hp12, hfirst⟩ : ∃ p1 p2, p = p1 ++ '~' :: p2 ∧ ∀ x ∈ p1, x ≠ '~' := by
          clear hf hc hp hne hh hb
          induction p with
          | nil => simp at hx
          | cons y ys ih =>
            by_cases hy : y = '~'
            · exact ⟨[], ys, by simp [hy], by simp⟩
            · have hx2 : '~' ∈ ys := by
                rcases List.mem_cons.1 hx with e | e
                · exact absurd e.symm hy
                · exact e
              obtain ⟨p1, p2, e, hfirst⟩ := ih hx2
              refine ⟨y :: p1, p2, by simp [e], ?_⟩
              intro z hz
              rcases List.mem_cons.1 hz with rfl | hz
              · exact hy
              · exact hfirst z hz
        subst hp12
        rw [List.append_assoc, List.cons_append, find_char_skip '~' p1 _ hfirst] at hf
        exact Option.noConfusion hf
    rw [query_hrml_of_split _ _ _ forest (query_split_whole q hq (by omega))]
    refine resolve_path_defined _ _ forest ?_ ?_
    · rw [Ne, getline_loop_eq_nil]
      exact hne
    · have := getline_loop_length q [] false
      omega
  | some i =>
    obtain ⟨p, a, rfl, hl, hp⟩ := find_char_some '~' q i hf
    have hpl : p.length + 1 < 2 ^ 31 := by
      simp only [List.length_append, List.length_cons] at hb
      omega
    rw [query_hrml_of_split _ _ _ forest (query_split_tilde p a hp hpl)]
    refine resolve_path_defined _ _ forest ?_ ?_
    · rw [Ne, getline_loop_eq_nil]
      rintro rfl
      exact hh rfl
    · have := getline_loop_length p [] false
      omega

/-- Without a path segment the resolver reads `tagNames[0]` when it visits the
first root; with no root it answers `Not Found!`. -/
theorem query_hrml_no_segment (q : Str) (forest : List HrmlElement)
    (h : q = [] ∨ q.head? = some '~') :
    query_hrml q forest = (if forest.isEmpty then some notFound else none) := by
  have hs : ∃ attr, query_split q = some (attr, []) := by
    rcases h with rfl | h
    · exact ⟨[], by decide⟩
    · cases q with
      | nil => simp at h
      | cons c cs =>
        have hc : c = '~' := by simpa using h
        subst hc
        exact ⟨cs, query_split_tilde [] cs (by simp) (by decide)⟩
  obtain ⟨attr, hs⟩ := hs
  rw [query_hrml_of_split _ _ _ forest hs]
  exact resolve_path_nil attr forest

/-- After a path of segments and a `.` the splitting starts afresh. -/
theorem getline_loop_dotted_dot : ∀ (path : List Str) (s : Str), path ≠ [] →
    (∀ t ∈ path, isSegment t = true) →
    getline_loop (dotted path ++ '.' :: s) [] false = path ++ getline_loop s [] false
  | [], _, h, _ => absurd rfl h
  | [t], s, _, hs => by
    obtain ⟨_, h2, _⟩ := (isSegment_iff t).1 (hs t (by simp))
    have := getline_loop_segment t ('.' :: s) [] false h2
    simp only [List.nil_append] at this
    simp [dotted, this, getline_loop]
  | t :: t' :: ts, s, _, hs => by
    obtain ⟨_, h2, _⟩ := (isSegment_iff t).1 (hs t (by simp))
    have ih := getline_loop_dotted_dot (t' :: ts) s (by simp) (fun u hu => hs u (by simp [hu]))
    have := getline_loop_segment t ('.' :: (dotted (t' :: ts) ++ '.' :: s)) [] false h2
    simp only [List.nil_append] at this
    simp only [dotted, List.append_assoc, List.cons_append, this, getline_loop, if_true, ih]

/-- A trailing `.` of the path adds no segment: `t1...tn.~attr` is resolved like
`t1...tn~attr`, when the `~` of the longer query stands at an index below
`2^31 - 1`. -/
theorem query_hrml_trailing_dot (path : List Str) (attr : Str) (forest : List HrmlElement)
    (hne : path ≠ []) (hs : ∀ t ∈ path, isSegment t = true)
    (hb : (dotted path).length + 2 < 2 ^ 31) :
    query_hrml (dotted path ++ '.' :: '~' :: attr) forest
      = query_hrml (mk_query path attr) forest := by
  have hp : ∀ c ∈ dotted path ++ ['.'], c ≠ '~' := by
    intro c hc
    rcases List.mem_append.1 hc with hc | hc
    · exact dotted_no_tilde path hs c hc
    · simp only [List.mem_singleton] at hc
      subst hc
      decide
  have a := query_split_tilde (dotted path ++ ['.']) attr hp
    (by simp only [List.length_append, List.length_singleton]; omega)
  have b := query_split_tilde (dotted path) attr (dotted_no_tilde path hs) (by omega)
  have e : dotted path ++ '.' :: '~' :: attr = (dotted path ++ ['.']) ++ '~' :: attr := by simp
  rw [e, mk_query, query_hrml_of_split _ _ _ forest a, query_hrml_of_split _ _ _ forest b,
    getline_loop_dotted_dot path [] hne hs, getline_loop_dotted path hne hs]
  simp [getline_loop]

/-- The end `="2">` of a tag after an attribute name. -/
theorem tokenize_loop_eq_2 (toks : List TokenValuePair) (a : Str) :
    tokenize_loop ⟨toks, ⟨.ATTR_NAME, a⟩⟩ "=\"2\">".toList
      = some ⟨toks ++ attr_tokens (a, "2".toList) ++ [⟨.CLOSE_TAG, []⟩], ⟨.NONE, []⟩⟩ := by
  have e : "=\"2\">".toList = '=' :: '"' :: "2".toList ++ '"' :: ['>'] := by decide
  rw [e, tokenize_loop_eq_value _ _ _ _ (by decide)]
  simp [tokenize_loop, tokenize_step, attr_val_step, attr_tokens]

/-- The first attribute name of a tag keeps every name character. -/
theorem tokenize_first_attr_name (n : Str) (hn : ∀ c ∈ n, isValidNameChar c = true) :
    tokenize_hrml_string ("<a ".toList ++ n ++ "=\"2\">".toList)
      = some [⟨.OPEN_TAG, []⟩, ⟨.TAG_NAME, "a".toList⟩, ⟨.ATTR_NAME, n⟩, ⟨.LQUOTE, []⟩,
          ⟨.ATTR_VAL, "2".toList⟩, ⟨.RQUOTE, []⟩, ⟨.CLOSE_TAG, []⟩] := by
  have h0 : tokenize_loop TokState.init "<a ".toList
      = some ⟨[⟨.OPEN_TAG, []⟩, ⟨.TAG_NAME, "a".toList⟩], ⟨.ATTR_NAME, []⟩⟩ := by decide
  rw [tokenize_hrml_string, List.append_assoc, tokenize_loop_append, h0, Option.some_bind]
  rw [tokenize_loop_name .ATTR_NAME (by simp) _ _ _ _ hn, List.nil_append, tokenize_loop_eq_2]
  simp [attr_tokens]

/-- An attribute name after a closing quote starts at its first letter: the
name characters before it are dropped. -/
theorem tokenize_next_attr_name (p r : Str) (hp : ∀ c ∈ p, isNonLetterNameChar c = true)
    (hr : isName r = true) :
    tokenize_hrml_string ("<a x=\"1\" ".toList ++ (p ++ r) ++ "=\"2\">".toList)
      = some [⟨.OPEN_TAG, []⟩, ⟨.TAG_NAME, "a".toList⟩, ⟨.ATTR_NAME, "x".toList⟩, ⟨.LQUOTE, []⟩,
          ⟨.ATTR_VAL, "1".toList⟩, ⟨.RQUOTE, []⟩, ⟨.ATTR_NAME, r⟩, ⟨.LQUOTE, []⟩,
          ⟨.ATTR_VAL, "2".toList⟩, ⟨.RQUOTE, []⟩, ⟨.CLOSE_TAG, []⟩] := by
  obtain ⟨c, cs, rfl, hc, hcs⟩ := (isName_iff r).1 hr
  have h0 : tokenize_loop TokState.init "<a x=\"1\" ".toList
      = some ⟨[⟨.OPEN_TAG, []⟩, ⟨.TAG_NAME, "a".toList⟩, ⟨.ATTR_NAME, "x".toList⟩,
          ⟨.LQUOTE, []⟩, ⟨.ATTR_VAL, "1".toList⟩] ++ [⟨.RQUOTE, []⟩],
          ⟨.ATTR_VAL, "1 ".toList⟩⟩ := by decide
  rw [tokenize_hrml_string, List.append_assoc, List.append_assoc, tokenize_loop_append, h0,
    Option.some_bind]
  rw [tokenize_loop_junk _ _ _ _ (fun x hx => (isNonLetterNameChar_facts x (hp x hx)).2)]
  have hq : c ≠ '"' := by rintro rfl; simp [isalpha] at hc
  have hg : c ≠ '>' := by rintro rfl; simp [isalpha] at hc
  have e : (c :: cs) ++ "=\"2\">".toList = c :: (cs ++ "=\"2\">".toList) := rfl
  rw [e, tokenize_loop_cons _
    ⟨[⟨.OPEN_TAG, []⟩, ⟨.TAG_NAME, "a".toList⟩, ⟨.ATTR_NAME, "x".toList⟩,
      ⟨.LQUOTE, []⟩, ⟨.ATTR_VAL, "1".toList⟩] ++ [⟨.RQUOTE, []⟩], ⟨.ATTR_NAME, [c]⟩⟩ _ _
    (by simp [tokenize_step, attr_val_step, hc, hq, hg])]
  rw [tokenize_loop_name .ATTR_NAME (by simp) _ _ _ _ hcs, tokenize_loop_eq_2]
  simp [attr_tokens]

/-- The element built from the tokens of `<a x="1" r="2">` has the key `r` and
no key that differs from `x` and `r`. -/
theorem parse_two_attrs (r : Str) :
    ∃ e, parse_hrml_tokens
      [⟨.OPEN_TAG, []⟩, ⟨.TAG_NAME, "a".toList⟩, ⟨.ATTR_NAME, "x".toList⟩, ⟨.LQUOTE, []⟩,
        ⟨.ATTR_VAL, "1".toList⟩, ⟨.RQUOTE, []⟩, ⟨.ATTR_NAME, r⟩, ⟨.LQUOTE, []⟩,
        ⟨.ATTR_VAL, "2".toList⟩, ⟨.RQUOTE, []⟩, ⟨.CLOSE_TAG, []⟩] = some [e] ∧
      e.attributes.find r = some "2".toList ∧
      ∀ k, k ≠ "x".toList → k ≠ r → e.attributes.find k = none := by
  refine ⟨⟨"a".toList, [], (AttrMap.assign [("x".toList, "1".toList)] r "2".toList), []⟩,
    ?_, ?_, ?_⟩
  · have hc : isCloser ⟨"a".toList, [], (AttrMap.assign [("x".toList, "1".toList)] r
        "2".toList), []⟩ = false := rfl
    have hf : flatten [⟨.OPEN_TAG, []⟩, ⟨.TAG_NAME, "a".toList⟩, ⟨.ATTR_NAME, "x".toList⟩,
        ⟨.LQUOTE, []⟩, ⟨.ATTR_VAL, "1".toList⟩, ⟨.RQUOTE, []⟩, ⟨.ATTR_NAME, r⟩, ⟨.LQUOTE, []⟩,
        ⟨.ATTR_VAL, "2".toList⟩, ⟨.RQUOTE, []⟩, ⟨.CLOSE_TAG, []⟩]
        = [⟨"a".toList, [], (AttrMap.assign [("x".toList, "1".toList)] r "2".toList), []⟩] :=
      rfl
    rw [parse_hrml_tokens, hf]
    simp only [nest_loop, nest_step, hc, Bool.not_false, if_true, attach, List.nil_append,
      Option.map_some']
  · simp [find_assign]
  · intro k hk1 hk2
    rw [find_assign, if_neg (Ne.symm hk2)]
    simp only [AttrMap.find, ite_eq_right_iff]
    intro h
    exact absurd h.symm hk1

/-! ## The properties of the specification, continued -/

/-- C12 (whitespace tolerance inside tags).  For every list of valid tags with
runs of space, tab, carriage return and line feed inserted between `<` or `</`
and the tag name, before the final `>`, around the space in front of an
attribute name, between an attribute name and `=`, and between `=` and the
opening quote, the tokenizer returns the token sequence of the canonical text. -/
theorem whitespace_tolerance (tags : List SpacedTag) (h : ∀ t ∈ tags, isSpacedTag t = true) :
    tokenize_hrml_string (render_spaced_tags tags)
        = tokenize_hrml_string (render_tags (tags.map SpacedTag.tag)) ∧
      tokenize_hrml_string (render_spaced_tags tags)
        = some (tags_tokens (tags.map SpacedTag.tag)) := by
  have h1 := tokenize_spaced_tags tags h
  have h2 := tokenize_render_tags (tags.map SpacedTag.tag) (fun t ht => by
    obtain ⟨s, hs, rfl⟩ := List.mem_map.1 ht
    exact isSpacedTag_tag s (h s hs))
  exact ⟨h1.trans h2.symm, h1⟩

/-- C12 at a text with whitespace in each of the places. -/
theorem whitespace_tolerance_witness :
    tokenize_hrml_string
        "< hrml\r \ttag \r\n=\n\"hello\"\n k\t=\"\" ></\thrml\n>".toList
      = some [⟨.OPEN_TAG, []⟩, ⟨.TAG_NAME, "hrml".toList⟩,
          ⟨.ATTR_NAME, "tag".toList⟩, ⟨.LQUOTE, []⟩, ⟨.ATTR_VAL, "hello".toList⟩, ⟨.RQUOTE, []⟩,
          ⟨.ATTR_NAME, "k".toList⟩, ⟨.LQUOTE, []⟩, ⟨.ATTR_VAL, []⟩, ⟨.RQUOTE, []⟩,
          ⟨.CLOSE_TAG, []⟩,
          ⟨.OPEN_TAG, []⟩, ⟨.END_TAG_SYMBOL, "hrml".toList⟩, ⟨.CLOSE_TAG, []⟩] :=
  (whitespace_tolerance
    [.opening " ".toList "hrml".toList
        [⟨"\r".toList, "\t".toList, "tag".toList, " \r\n".toList, "\n".toList, "hello".toList⟩,
          ⟨"\n".toList, [], "k".toList, "\t".toList, [], []⟩] " ".toList,
      .closing "\t".toList "hrml".toList "\n".toList] (by decide)).2

/-- C13 (text outside tags is ignored, tokenizing is compositional at tag
boundaries).  For every text `d` after which the tokenizer is back in state
`NONE`, every `g` without `<` and every text `t`, the tokens of `d ++ g ++ t`
are the tokens of `d` followed by the tokens of `t`; the empty text and every
sequence of complete canonical tags leave the tokenizer in state `NONE`. -/
theorem tokenize_compositional (d g t : Str) (hd : back_in_none d = true)
    (hg : ∀ c ∈ g, c ≠ '<') :
    (∃ a b, tokenize_hrml_string d = some a ∧ tokenize_hrml_string t = some b ∧
      tokenize_hrml_string (d ++ g ++ t) = some (a ++ b)) ∧
    back_in_none [] = true ∧
    ∀ tags : List Tag, (∀ x ∈ tags, isTag x = true) → back_in_none (render_tags tags) = true :=
  ⟨tokenize_after_none d g t hd hg, rfl, back_in_none_tags⟩

/-- C13 at `<a></a>`, the stretch ` text > ` and `<b x="1">`. -/
theorem tokenize_compositional_witness :
    tokenize_hrml_string "<a></a> text > <b x=\"1\">".toList
      = some ([⟨.OPEN_TAG, []⟩, ⟨.TAG_NAME, "a".toList⟩, ⟨.CLOSE_TAG, []⟩,
          ⟨.OPEN_TAG, []⟩, ⟨.END_TAG_SYMBOL, "a".toList⟩, ⟨.CLOSE_TAG, []⟩]
        ++ [⟨.OPEN_TAG, []⟩, ⟨.TAG_NAME, "b".toList⟩, ⟨.ATTR_NAME, "x".toList⟩, ⟨.LQUOTE, []⟩,
          ⟨.ATTR_VAL, "1".toList⟩, ⟨.RQUOTE, []⟩, ⟨.CLOSE_TAG, []⟩]) := by
  obtain ⟨⟨a, b, ha, hb, hab⟩, _⟩ :=
    tokenize_compositional "<a></a>".toList " text > ".toList "<b x=\"1\">".toList
      (by decide) (by decide)
  have ea : tokenize_hrml_string "<a></a>".toList
      = some [⟨.OPEN_TAG, []⟩, ⟨.TAG_NAME, "a".toList⟩, ⟨.CLOSE_TAG, []⟩,
          ⟨.OPEN_TAG, []⟩, ⟨.END_TAG_SYMBOL, "a".toList⟩, ⟨.CLOSE_TAG, []⟩] := by decide
  have eb : tokenize_hrml_string "<b x=\"1\">".toList
      = some [⟨.OPEN_TAG, []⟩, ⟨.TAG_NAME, "b".toList⟩, ⟨.ATTR_NAME, "x".toList⟩, ⟨.LQUOTE, []⟩,
          ⟨.ATTR_VAL, "1".toList⟩, ⟨.RQUOTE, []⟩, ⟨.CLOSE_TAG, []⟩] := by decide
  rw [ea] at ha
  rw [eb] at hb
  cases ha
  cases hb
  exact hab

/-- C14, refuted as stated, at `<a t="x"">`: after the closing quote the value
under construction is still `x`, and the second quote emits `ATTR_VAL x` again,
not an `ATTR_VAL` token with empty payload. -/
theorem accumulation_reset_counterexample :
    (tokenize_loop TokState.init "<a t=\"x\"".toList).map TokState.next
        = some ⟨.ATTR_VAL, "x".toList⟩ ∧
    tokenize_hrml_string "<a t=\"x\"\">".toList
      = some [⟨.OPEN_TAG, []⟩, ⟨.TAG_NAME, "a".toList⟩, ⟨.ATTR_NAME, "t".toList⟩, ⟨.LQUOTE, []⟩,
          ⟨.ATTR_VAL, "x".toList⟩, ⟨.RQUOTE, []⟩, ⟨.ATTR_VAL, "x".toList⟩, ⟨.RQUOTE, []⟩,
          ⟨.CLOSE_TAG, []⟩] ∧
    tokenize_hrml_string "<a t=\"x\"\">".toList
      ≠ some [⟨.OPEN_TAG, []⟩, ⟨.TAG_NAME, "a".toList⟩, ⟨.ATTR_NAME, "t".toList⟩, ⟨.LQUOTE, []⟩,
          ⟨.ATTR_VAL, "x".toList⟩, ⟨.RQUOTE, []⟩, ⟨.ATTR_VAL, []⟩, ⟨.RQUOTE, []⟩,
          ⟨.CLOSE_TAG, []⟩] := by
  refine ⟨by decide, by decide, by decide⟩

/-- C14, amended (accumulation is kept at the closing quote).  When the
tokenizer emits the token under construction followed by `RQUOTE` on reading a
quote, the token under construction is unchanged immediately afterwards; and
for every quote-free `v` the text `<a t="v"">` yields, after the first `RQUOTE`,
an `ATTR_VAL` token with payload `v` again, then `RQUOTE`, then `CLOSE_TAG`. -/
theorem accumulation_kept_at_closing_quote (v : Str) (hv : isValue v = true) :
    (∀ (st : TokState) (last : TokenValuePair), st.next.token = .ATTR_VAL →
      st.tokens.getLast? = some last → last.token ≠ .ATTR_NAME →
      tokenize_step st '"'
        = some ⟨st.tokens ++ [st.next, ⟨.RQUOTE, []⟩], st.next⟩) ∧
    tokenize_hrml_string ("<a t=\"".toList ++ v ++ "\"\">".toList)
      = some [⟨.OPEN_TAG, []⟩, ⟨.TAG_NAME, "a".toList⟩, ⟨.ATTR_NAME, "t".toList⟩, ⟨.LQUOTE, []⟩,
          ⟨.ATTR_VAL, v⟩, ⟨.RQUOTE, []⟩, ⟨.ATTR_VAL, v⟩, ⟨.RQUOTE, []⟩, ⟨.CLOSE_TAG, []⟩] := by
  refine ⟨fun st last hk hl hne => ?_, tokenize_double_quote v hv⟩
  rw [tokenize_step_quote st last hk hl, if_neg hne]

/-- C14, amended, at `v = x>y`. -/
theorem accumulation_kept_at_closing_quote_witness :
    tokenize_hrml_string "<a t=\"x>y\"\">".toList
      = some [⟨.OPEN_TAG, []⟩, ⟨.TAG_NAME, "a".toList⟩, ⟨.ATTR_NAME, "t".toList⟩, ⟨.LQUOTE, []⟩,
          ⟨.ATTR_VAL, "x>y".toList⟩, ⟨.RQUOTE, []⟩, ⟨.ATTR_VAL, "x>y".toList⟩, ⟨.RQUOTE, []⟩,
          ⟨.CLOSE_TAG, []⟩] :=
  (accumulation_kept_at_closing_quote "x>y".toList (by decide)).2

/-- C15, refuted as stated, at the vertical tab and the form feed, which are
not among space, tab, carriage return and line feed: the vertical tab ends a tag
name, the form feed is skipped before the opening quote. -/
theorem whitespace_four_counterexample :
    isBlank '\x0b' = false ∧ isBlank '\x0c' = false ∧
    tokenize_step ⟨[⟨.OPEN_TAG, []⟩], ⟨.TAG_NAME, "a".toList⟩⟩ '\x0b'
      = some ⟨[⟨.OPEN_TAG, []⟩, ⟨.TAG_NAME, "a".toList⟩], ⟨.ATTR_NAME, []⟩⟩ ∧
    tokenize_step
        ⟨[⟨.OPEN_TAG, []⟩, ⟨.TAG_NAME, "a".toList⟩, ⟨.ATTR_NAME, "t".toList⟩], ⟨.ATTR_VAL, []⟩⟩
        '\x0c'
      = some ⟨[⟨.OPEN_TAG, []⟩, ⟨.TAG_NAME, "a".toList⟩, ⟨.ATTR_NAME, "t".toList⟩],
          ⟨.ATTR_VAL, []⟩⟩ ∧
    tokenize_hrml_string "<a\x0bt=\x0c\"1\">".toList
      = some [⟨.OPEN_TAG, []⟩, ⟨.TAG_NAME, "a".toList⟩, ⟨.ATTR_NAME, "t".toList⟩, ⟨.LQUOTE, []⟩,
          ⟨.ATTR_VAL, "1".toList⟩, ⟨.RQUOTE, []⟩, ⟨.CLOSE_TAG, []⟩] := by
  refine ⟨by decide, by decide, by decide, by decide, by decide⟩

/-- C15, amended (the whitespace set is that of `isspace`).  The whitespace of
the tokenizer is exactly space, tab, line feed, vertical tab, form feed and
carriage return: a tag name followed by `c` is emitted with the state becoming
`ATTR_NAME` if and only if `c` is one of these six; in state `ATTR_VAL` before
the opening quote `c` is skipped if and only if it is one of these six, and is
appended to the value if and only if it is none of them and not the quote. -/
theorem whitespace_is_isspace (c : Char) (toks : List TokenValuePair) (n a v : Str) :
    (isspace c = true ↔
      c = ' ' ∨ c = '\t' ∨ c = '\n' ∨ c = '\x0b' ∨ c = '\x0c' ∨ c = '\r') ∧
    (tokenize_step ⟨toks, ⟨.TAG_NAME, n⟩⟩ c
        = some ⟨toks ++ [⟨.TAG_NAME, n⟩], ⟨.ATTR_NAME, []⟩⟩ ↔ isspace c = true) ∧
    (tokenize_step ⟨toks ++ [⟨.ATTR_NAME, a⟩], ⟨.ATTR_VAL, v⟩⟩ c
        = some ⟨toks ++ [⟨.ATTR_NAME, a⟩], ⟨.ATTR_VAL, v⟩⟩ ↔ isspace c = true) ∧
    (tokenize_step ⟨toks ++ [⟨.ATTR_NAME, a⟩], ⟨.ATTR_VAL, v⟩⟩ c
        = some ⟨toks ++ [⟨.ATTR_NAME, a⟩], ⟨.ATTR_VAL, v ++ [c]⟩⟩
      ↔ ¬ (isspace c = true ∨ c = '"')) :=
  ⟨isspace_iff c, tokenize_step_tag_name_space toks n c,
    (tokenize_step_before_quote toks a v c).1, (tokenize_step_before_quote toks a v c).2⟩

/-- C16 (a query without `~`), amended.  For every forest and every query `q`
without `~` and shorter than `2^31 - 1` characters, the separator index is `-1`
and `query_hrml` resolves `q` as it resolves `q ++ "~" ++ q`: the path and the
attribute name are both the whole query.  So for `q = t1.t2...tn` the result is
the value of the attribute named `q` at the element reached by the path, and
`"Not Found!"` otherwise. -/
theorem query_without_separator (q : Str) (forest : List HrmlElement)
    (hq : ∀ c ∈ q, c ≠ '~') (hb : q.length + 1 < 2 ^ 31) :
    size_t_to_int (find_pos '~' q) = -1 ∧
    query_hrml q forest = query_hrml (q ++ '~' :: q) forest ∧
    ∀ path : List Str, path ≠ [] → (∀ t ∈ path, isSegment t = true) → q = dotted path →
      query_hrml q forest = some (spec_resolve path q forest) := by
  refine ⟨by rw [find_pos_none '~' q hq]; exact size_t_to_int_npos,
    query_hrml_no_tilde q forest hq hb, ?_⟩
  intro path hne hs hpath
  subst hpath
  have hn := length_le_dotted path
  exact query_hrml_no_tilde_path path forest hne hs (by omega) (by omega)

/-- C16 at the query `a.b`: it finds the attribute whose name is `a.b`, and
gives `Not Found!` on the document `<a x="1"><b y="2"></b></a>`. -/
theorem query_without_separator_witness :
    query_hrml "a.b".toList doc_dotted_key = some "7".toList ∧
    query_hrml "a.b".toList doc_a_b = some "Not Found!".toList :=
  ⟨(query_without_separator "a.b".toList doc_dotted_key (by decide) (by decide)).2.1.trans
      (by decide),
    (query_without_separator "a.b".toList doc_a_b (by decide) (by decide)).2.1.trans
      (by decide)⟩

/-- C16 as stated fails at the query `q` of `2^31` letters `a`, non-empty and
without `~`, on a forest whose root is named `q` and has an attribute named `q`
with the value `7`: `q` alone is resolved to `7`, while `q ++ "~" ++ q` has its
`~` at index `2^31` and ends in the exception of `substr`. -/
theorem query_without_separator_counterexample :
    giant_name ≠ [] ∧ (∀ c ∈ giant_name, c ≠ '~') ∧
      query_hrml giant_name doc_giant_key = some "7".toList ∧
      query_hrml (giant_name ++ '~' :: giant_name) doc_giant_key = none ∧
      query_hrml giant_name doc_giant_key
        ≠ query_hrml (giant_name ++ '~' :: giant_name) doc_giant_key := by
  have hlen : giant_name.length < 2 ^ 63 := by rw [giant_name_length]; decide
  have h1 : query_hrml giant_name doc_giant_key = some "7".toList := by
    have h := query_hrml_no_tilde_path [giant_name] doc_giant_key (by simp)
      (fun t ht => by rw [List.mem_singleton.1 ht]; exact giant_name_segment)
      (by show giant_name.length < 2 ^ 64; omega) (by decide)
    have e : spec_resolve [giant_name] giant_name doc_giant_key = "7".toList :=
      spec_resolve_single _ _ _ _ _
    rw [← e]
    exact h
  have h2 : query_hrml (giant_name ++ '~' :: giant_name) doc_giant_key = none :=
    query_hrml_of_split_none _ _ (query_split_giant giant_name hlen)
  exact ⟨giant_name_ne_nil, giant_name_no_tilde, h1, h2, by rw [h1, h2]; simp⟩

/-- C17 (tokenizer index safety).  On every text (so after every prefix of an
input) the tokenizer loop is defined, and whenever it is in state `ATTR_VAL` the
vector of tokens is non-empty and its last token is `ATTR_NAME`, `LQUOTE` or
`RQUOTE`; a quote read in that state emits `LQUOTE` exactly when the last token
is `ATTR_NAME` and otherwise emits the token under construction and `RQUOTE`,
also when the last token is `RQUOTE`. -/
theorem tokenizer_index_safety (text : Str) :
    ∃ st, tokenize_loop TokState.init text = some st ∧
      (st.next.token = .ATTR_VAL →
        ∃ last, st.tokens.getLast? = some last ∧
          (last.token = .ATTR_NAME ∨ last.token = .LQUOTE ∨ last.token = .RQUOTE) ∧
          tokenize_step st '"' = some (if last.token = .ATTR_NAME
            then { st with tokens := st.tokens ++ [⟨.LQUOTE, []⟩] }
            else { st with tokens := st.tokens ++ [st.next, ⟨.RQUOTE, []⟩] })) := by
  obtain ⟨st, h, hshape⟩ := TokShape_reach text
  refine ⟨st, h, fun hk => ?_⟩
  obtain ⟨last, hlast, hkind⟩ := hshape.2.2 hk
  exact ⟨last, hlast, hkind, tokenize_step_quote st last hk hlast⟩

/-- C17 at `<a t="v"`, where the last token is `RQUOTE`: a further quote emits
`ATTR_VAL v` and `RQUOTE`. -/
theorem tokenizer_index_safety_witness :
    ∃ st, tokenize_loop TokState.init "<a t=\"v\"".toList = some st ∧
      st.next.token = .ATTR_VAL ∧
      (st.tokens.getLast?).map TokenValuePair.token = some .RQUOTE ∧
      tokenize_step st '"'
        = some { st with tokens := st.tokens ++ [⟨.ATTR_VAL, "v".toList⟩, ⟨.RQUOTE, []⟩] } := by
  obtain ⟨st, h1, h2⟩ := tokenizer_index_safety "<a t=\"v\"".toList
  have e : tokenize_loop TokState.init "<a t=\"v\"".toList
      = some ⟨[⟨.OPEN_TAG, []⟩, ⟨.TAG_NAME, "a".toList⟩, ⟨.ATTR_NAME, "t".toList⟩,
          ⟨.LQUOTE, []⟩, ⟨.ATTR_VAL, "v".toList⟩, ⟨.RQUOTE, []⟩], ⟨.ATTR_VAL, "v".toList⟩⟩ := by
    decide
  rw [e] at h1
  cases h1
  obtain ⟨last, hl, _, hstep⟩ := h2 rfl
  simp only [List.getLast?, List.getLast, Option.some.injEq] at hl
  subst hl
  exact ⟨_, e, rfl, rfl, hstep⟩

/-- C18 as stated fails twice.  At the empty forest the empty query and a query
that begins with `~` have the defined result `Not Found!`, because the read
`tagNames[0]` stands in the predicate of `find_if`, which is not called when
there is no root.  And the query of `2^32` letters `a` followed by `~x` is
non-empty and does not begin with `~`, yet `attrLoc` is `0`, the path is empty
and the read is out of bounds on the forest of `<a x="1"><b y="2"></b></a>`. -/
theorem query_path_counterexample :
    query_hrml [] [] = some "Not Found!".toList ∧
    query_hrml "~x".toList [] = some "Not Found!".toList ∧
    wide_name ++ '~' :: "x".toList ≠ [] ∧
    (wide_name ++ '~' :: "x".toList).head? ≠ some '~' ∧
    query_split (wide_name ++ '~' :: "x".toList)
      = some ((wide_name ++ '~' :: "x".toList).drop 1, []) ∧
    query_hrml (wide_name ++ '~' :: "x".toList) doc_a_b = none := by
  have hl : wide_name.length = 2 ^ 32 := List.length_replicate _ _
  have hm : ∀ x ∈ wide_name, x ≠ '~' := by
    intro x hx
    rw [List.eq_of_mem_replicate hx]
    decide
  have hw : wide_name ≠ [] := by
    intro h
    rw [h] at hl
    simp at hl
  have hs := query_split_wrap wide_name "x".toList hm hl
  refine ⟨by decide, by decide, by simp, ?_, hs, ?_⟩
  · intro h
    rw [List.head?_append_of_ne_nil _ hw] at h
    exact hm '~' (List.mem_of_mem_head? h) rfl
  · rw [query_hrml_of_split _ _ _ doc_a_b hs]
    rfl

/-- C18, amended (query path safety).  The list of path segments is non-empty
if and only if the path part is non-empty.  For a query that is non-empty, does
not begin with `~` and is shorter than `2^31 - 1` characters the read
`tagNames[0]` is in bounds and a result is returned.  For the empty
query and a query that begins with `~` the read is out of bounds (no defined
result) when the forest has a root, and is not executed (the result is
`"Not Found!"`) when the forest is empty.  A trailing `.` adds no segment (with
the `~` at an index below `2^31 - 1`), a leading or doubled `.` adds an empty
segment. -/
theorem query_path_safety (q : Str) (forest : List HrmlElement) :
    (∀ s : Str, getline_loop s [] false ≠ [] ↔ s ≠ []) ∧
    (q ≠ [] → q.head? ≠ some '~' → q.length + 1 < 2 ^ 31 →
      ∃ r, query_hrml q forest = some r) ∧
    ((q = [] ∨ q.head? = some '~') →
      query_hrml q forest = (if forest.isEmpty then some notFound else none)) ∧
    (∀ (path : List Str) (attr : Str), path ≠ [] → (∀ t ∈ path, isSegment t = true) →
      (dotted path).length + 2 < 2 ^ 31 →
      query_hrml (dotted path ++ '.' :: '~' :: attr) forest
        = query_hrml (mk_query path attr) forest) ∧
    (∀ s : Str, getline_loop ('.' :: s) [] false = [] :: getline_loop s [] false) ∧
    (∀ (path : List Str) (s : Str), path ≠ [] → (∀ t ∈ path, isSegment t = true) →
      getline_loop (dotted path ++ '.' :: '.' :: s) [] false
        = path ++ [] :: getline_loop s [] false) := by
  refine ⟨fun s => not_congr (getline_loop_eq_nil s), ?_, ?_, ?_, ?_, ?_⟩
  · intro hne hh hb
    exact query_hrml_defined q forest hne hh hb
  · intro h
    exact query_hrml_no_segment q forest h
  · intro path attr hne hs hb
    exact query_hrml_trailing_dot path attr forest hne hs hb
  · intro s
    simp [getline_loop]
  · intro path s hne hs
    rw [getline_loop_dotted_dot path _ hne hs]
    simp [getline_loop]

/-- C18, amended, at the forest of `<a x="1"><b y="2"></b></a>`: no defined
result for the empty query and for `~x`; `a.~x` is resolved like `a~x`; and the
leading or doubled `.` of `.a~x` and `a..b~y` makes an empty segment that no
element matches. -/
theorem query_path_safety_witness :
    query_hrml [] doc_a_b = none ∧ query_hrml "~x".toList doc_a_b = none ∧
    query_hrml "a.~x".toList doc_a_b = some "1".toList ∧
    query_hrml ".a~x".toList doc_a_b = some "Not Found!".toList ∧
    query_hrml "a..b~y".toList doc_a_b = some "Not Found!".toList ∧
    ∃ r, query_hrml "a.b~y".toList doc_a_b = some r :=
  ⟨(query_path_safety [] doc_a_b).2.2.1 (Or.inl rfl),
    (query_path_safety "~x".toList doc_a_b).2.2.1 (Or.inr rfl),
    ((query_path_safety [] doc_a_b).2.2.2.1 ["a".toList] "x".toList (by decide)
      (by decide) (by decide)).trans (by decide),
    by decide, by decide,
    (query_path_safety "a.b~y".toList doc_a_b).2.1 (by decide) (by decide) (by decide)⟩

/-- C19 (attribute-name start asymmetry).  For every name `n = p ++ r` where `p`
is a non-empty run of digits, `-` or `_` and `r` is a name starting with a
letter, `<a n="2">` is tokenized with `ATTR_NAME n`, whereas `<a x="1" n="2">`
is tokenized with `ATTR_NAME r`: the prefix `p` is dropped, and the element
built has the key `r` and not the key `n`. -/
theorem attribute_name_start_asymmetry (p r : Str) (hne : p ≠ [])
    (hp : ∀ c ∈ p, isNonLetterNameChar c = true) (hr : isName r = true) :
    tokenize_hrml_string ("<a ".toList ++ (p ++ r) ++ "=\"2\">".toList)
      = some [⟨.OPEN_TAG, []⟩, ⟨.TAG_NAME, "a".toList⟩, ⟨.ATTR_NAME, p ++ r⟩, ⟨.LQUOTE, []⟩,
          ⟨.ATTR_VAL, "2".toList⟩, ⟨.RQUOTE, []⟩, ⟨.CLOSE_TAG, []⟩] ∧
    ∃ toks e, tokenize_hrml_string ("<a x=\"1\" ".toList ++ (p ++ r) ++ "=\"2\">".toList)
        = some toks ∧
      toks = [⟨.OPEN_TAG, []⟩, ⟨.TAG_NAME, "a".toList⟩, ⟨.ATTR_NAME, "x".toList⟩, ⟨.LQUOTE, []⟩,
          ⟨.ATTR_VAL, "1".toList⟩, ⟨.RQUOTE, []⟩, ⟨.ATTR_NAME, r⟩, ⟨.LQUOTE, []⟩,
          ⟨.ATTR_VAL, "2".toList⟩, ⟨.RQUOTE, []⟩, ⟨.CLOSE_TAG, []⟩] ∧
      parse_hrml_tokens toks = some [e] ∧
      e.attributes.find r = some "2".toList ∧ e.attributes.find (p ++ r) = none := by
  constructor
  · refine tokenize_first_attr_name (p ++ r) (fun c hc => ?_)
    rcases List.mem_append.1 hc with hc | hc
    · exact (isNonLetterNameChar_facts c (hp c hc)).1
    · exact isName_chars r hr c hc
  · obtain ⟨e, he, hfind, hnone⟩ := parse_two_attrs r
    refine ⟨_, e, tokenize_next_attr_name p r hp hr, rfl, he, hfind, hnone (p ++ r) ?_ ?_⟩
    · cases p with
      | nil => exact absurd rfl hne
      | cons c cs =>
        intro h
        have hc : c = 'x' := by
          have := congrArg List.head? h
          simpa using this
        have := hp c (by simp)
        rw [hc] at this
        revert this
        decide
    · intro h
      have := congrArg List.length h
      simp only [List.length_append] at this
      have hpos : 0 < p.length := List.length_pos.2 hne
      omega

/-- C19 at `n = 1-n`: the first attribute is named `1-n`, the second `n`. -/
theorem attribute_name_start_asymmetry_witness :
    tokenize_hrml_string "<a 1-n=\"2\">".toList
      = some [⟨.OPEN_TAG, []⟩, ⟨.TAG_NAME, "a".toList⟩, ⟨.ATTR_NAME, "1-n".toList⟩,
          ⟨.LQUOTE, []⟩, ⟨.ATTR_VAL, "2".toList⟩, ⟨.RQUOTE, []⟩, ⟨.CLOSE_TAG, []⟩] ∧
    run_query "<a x=\"1\" 1-n=\"2\">".toList "a~n".toList = some "2".toList ∧
    run_query "<a x=\"1\" 1-n=\"2\">".toList "a~1-n".toList = some "Not Found!".toList :=
  ⟨(attribute_name_start_asymmetry "1-".toList "n".toList (by decide) (by decide)
      (by decide)).1,
    by decide, by decide⟩

/-- C20 (marker alternation).  On every text, in the tokens returned the
`OPEN_TAG` and `CLOSE_TAG` tokens strictly alternate, starting with `OPEN_TAG`;
the number of `CLOSE_TAG` tokens is that of the `OPEN_TAG` tokens or one less;
and between an `OPEN_TAG` and the following `CLOSE_TAG` stands exactly one
`TAG_NAME` or `END_TAG_SYMBOL` token, immediately after the `OPEN_TAG`. -/
theorem marker_alternation (text : Str) :
    ∃ toks, tokenize_hrml_string text = some toks ∧
      alternates true (markers toks) = true ∧
      (toks.countP (fun t => t.token = .CLOSE_TAG) = toks.countP (fun t => t.token = .OPEN_TAG) ∨
        toks.countP (fun t => t.token = .CLOSE_TAG) + 1
          = toks.countP (fun t => t.token = .OPEN_TAG)) ∧
      ∀ (pre mid post : List TokenValuePair) (o c : TokenValuePair),
        toks = pre ++ o :: mid ++ c :: post → o.token = .OPEN_TAG → c.token = .CLOSE_TAG →
        (∀ x ∈ mid, x.token ≠ .CLOSE_TAG) →
        ∃ name rest, mid = name :: rest ∧
          (name.token = .TAG_NAME ∨ name.token = .END_TAG_SYMBOL) ∧
          ∀ x ∈ rest, x.token ≠ .TAG_NAME ∧ x.token ≠ .END_TAG_SYMBOL ∧
            x.token ≠ .OPEN_TAG := by
  obtain ⟨st, h, ⟨p, _, hs⟩, _, _⟩ := TokShape_reach text
  refine ⟨st.tokens, by simp [tokenize_hrml_string, h], ?_, ?_, ?_⟩
  · simpa using (shape_markers st.tokens .outside p hs).1
  · have := (shape_markers st.tokens .outside p hs).2
    simp only [if_true] at this
    split at this <;> omega
  · intro pre mid post o c htoks ho hc hmid
    rw [htoks] at hs
    exact shape_between pre mid post o c p hs ho hc hmid

/-- C20 at a malformed text with a tag left open at the end: three `OPEN_TAG`
tokens, two `CLOSE_TAG` tokens. -/
theorem marker_alternation_witness :
    ∃ toks, tokenize_hrml_string "x<a-1 q><<</>9>< c".toList = some toks ∧
      markers toks = [.OPEN_TAG, .CLOSE_TAG, .OPEN_TAG, .CLOSE_TAG, .OPEN_TAG] ∧
      alternates true (markers toks) = true := by
  obtain ⟨toks, h1, h2, _⟩ := marker_alternation "x<a-1 q><<</>9>< c".toList
  have e : tokenize_hrml_string "x<a-1 q><<</>9>< c".toList
      = some [⟨.OPEN_TAG, []⟩, ⟨.TAG_NAME, "a-1".toList⟩, ⟨.CLOSE_TAG, []⟩,
          ⟨.OPEN_TAG, []⟩, ⟨.END_TAG_SYMBOL, []⟩, ⟨.CLOSE_TAG, []⟩, ⟨.OPEN_TAG, []⟩] := by
    decide
  rw [e] at h1
  cases h1
  exact ⟨_, e, by decide, h2⟩

end Hrml
